import Mathlib

/-!
# PhaseHound core: a shallow embedding of the broker substrate

The definitions below follow the C sources function by function:

* `src/src/common.c`: framing (`read_full`, `send_frame_json`, `recv_frame_json`,
  `recv_all_timeout`, `send_frame_json_with_fds`, `recv_frame_json_with_fds`), the
  `intvec_t` dynamic array, the feed table and the naive JSON readers;
* `src/src/core.c`: the plugin table, the loader, `broadcast_to_subs`, `handle_msg`;
* `src/src/addons/soapy/src/soapy.c` (`rx_thread`) and
  `src/src/addons/wfmd/src/wfmd.c` (`demod_from_iq_ring`): the IQ ring steps;
* `src/src/common/ph_ring.c`: `ph_audio_ring_pop_f32`;
* `src/include/plugin.h`: `ph_check_abi`.

Conventions.  A byte is a `Fin 256`.  A C string is the list of its bytes before the
terminating NUL.  Memory that the C code writes through a pointer is a list, and a store
that would fall outside the list makes the function return `none`.  System calls are
answered by an explicit script of kernel outcomes, one entry per call, so that short
reads, short writes, `EINTR`, time-outs and errors are all expressible.
-/

namespace PhaseHound

/-! ## Bytes, C strings, machine integers -/

/-- One octet. -/
abbrev Byte := Fin 256

/-- The bytes of a string literal (all literals used here are ASCII). -/
def cstr (s : String) : List Byte := s.toList.map (fun c => Fin.ofNat c.toNat)

/-- Conversion `(int)x` of an unsigned value on the targets the project builds for:
reduction modulo 2^32 into the range of a 32-bit two's-complement `int`. -/
def to_int (x : Nat) : Int :=
  if x % 2 ^ 32 < 2 ^ 31 then ((x % 2 ^ 32 : Nat) : Int) else ((x % 2 ^ 32 : Nat) : Int) - 2 ^ 32

/-- The four bytes in memory of `htonl((uint32_t)len)`: big-endian, most significant first. -/
def htonl (len : Nat) : List Byte :=
  [Fin.ofNat (len / 2 ^ 24), Fin.ofNat (len / 2 ^ 16), Fin.ofNat (len / 2 ^ 8), Fin.ofNat len]

/-- The value `ntohl(be)` of a 4-byte object holding the bytes `b` (absent bytes read as 0). -/
def ntohl (b : List Byte) : Nat :=
  (b.getD 0 0).val * 2 ^ 24 + (b.getD 1 0).val * 2 ^ 16 + (b.getD 2 0).val * 2 ^ 8 + (b.getD 3 0).val

/-- A `memcpy(buf + off, data, |data|)`; `none` when it would leave the object `buf`. -/
def write_at {α : Type} (buf : List α) (off : Nat) (data : List α) : Option (List α) :=
  if off + data.length ≤ buf.length then
    some (buf.take off ++ data ++ buf.drop (off + data.length))
  else none

/-! ## Framing (`src/src/common.c`) -/

/-- What the kernel answers in one turn of a receive loop: `rc` is the value of
`select`, `eintr` tells whether `errno == EINTR` when the loop tests it, and `got` is the
value the following `read`/`recv` is ready to return (it is capped by the request and by
what the socket holds).  The `recvmsg` of `recv_frame_json_with_fds`, which no `select`
precedes, takes one entry as well and reads only `got` (see `recvmsg_ret`). -/
structure SelEv where
  rc : Int
  eintr : Bool
  got : Int
deriving DecidableEq, Repr

/-- What the kernel answers to one `write`: the return value `w` (capped by the request)
and whether `errno == EINTR` when it is tested. -/
structure WriteEv where
  w : Int
  eintr : Bool
deriving DecidableEq, Repr

/-- State after a receive primitive: return value, the caller's buffer, the bytes still
queued on the socket, and the kernel outcomes not consumed yet. -/
structure RdRes where
  ret : Int
  buf : List Byte
  inq : List Byte
  script : List SelEv
deriving DecidableEq, Repr

/-- Number of bytes one `read(fd, p, req)` transfers when the kernel offers `got` and the
socket holds `avail` bytes. -/
def xfer (got : Int) (req avail : Nat) : Nat :=
  if got ≤ 0 then 0 else min got.toNat (min req avail)

/-- The loop of `read_full`, entered with the current `off`.  A script that has run out
means that nothing more ever happens on the descriptor; the wait then ends like a
time-out with a clean `errno`. -/
def read_full_loop (len : Nat) : List SelEv → Nat → List Byte → List Byte → Option RdRes
  | [], off, buf, inq =>
    if off < len then some ⟨-1, buf, inq, []⟩ else some ⟨0, buf, inq, []⟩
  | ev :: rest, off, buf, inq =>
    if off < len then
      if ev.rc ≤ 0 then
        if ev.eintr then read_full_loop len rest off buf inq
        else some ⟨-1, buf, inq, rest⟩
      else
        let got := xfer ev.got (len - off) inq.length
        if got = 0 then some ⟨-1, buf, inq, rest⟩
        else
          match write_at buf off (inq.take got) with
          | none => none
          | some buf1 => read_full_loop len rest (off + got) buf1 (inq.drop got)
    else some ⟨0, buf, inq, ev :: rest⟩

/-- The function `read_full(fd, buf, len, timeout_ms)`. -/
def read_full (buf : List Byte) (len : Nat) (script : List SelEv) (inq : List Byte) :
    Option RdRes :=
  read_full_loop len script 0 buf inq

/-- The loop of `recv_all_timeout`: a time-out (`r == 0`) ends it at once, `EINTR` is
retried only for `r < 0`. -/
def recv_all_timeout_loop (len : Nat) :
    List SelEv → Nat → List Byte → List Byte → Option RdRes
  | [], off, buf, inq =>
    if off < len then some ⟨-1, buf, inq, []⟩ else some ⟨0, buf, inq, []⟩
  | ev :: rest, off, buf, inq =>
    if off < len then
      if ev.rc = 0 then some ⟨-1, buf, inq, rest⟩
      else if ev.rc < 0 then
        if ev.eintr then recv_all_timeout_loop len rest off buf inq
        else some ⟨-1, buf, inq, rest⟩
      else
        let g := xfer ev.got (len - off) inq.length
        if g = 0 then some ⟨-1, buf, inq, rest⟩
        else
          match write_at buf off (inq.take g) with
          | none => none
          | some buf1 => recv_all_timeout_loop len rest (off + g) buf1 (inq.drop g)
    else some ⟨0, buf, inq, ev :: rest⟩

/-- The function `recv_all_timeout(fd, buf, len, timeout_ms)`. -/
def recv_all_timeout (buf : List Byte) (len : Nat) (script : List SelEv) (inq : List Byte) :
    Option RdRes :=
  recv_all_timeout_loop len script 0 buf inq

/-- State after a send primitive: return value, everything written to the stream so far,
and the kernel outcomes not consumed yet. -/
structure SendRes where
  ret : Int
  out : List Byte
  script : List WriteEv
deriving DecidableEq, Repr

/-- Number of bytes one `write(fd, p, req)` transfers when the kernel answers `w`. -/
def wxfer (w : Int) (req : Nat) : Nat :=
  if w ≤ 0 then 0 else min w.toNat req

/-- The payload loop shared by `send_frame_json`: `write` until `off` reaches `len`,
retrying on `EINTR`.  `src` is the caller's `json_str`; the loop sends `src[off .. len)`.
A script that has run out counts as a failed `write`. -/
def send_loop (src : List Byte) (len : Nat) : List WriteEv → Nat → List Byte → SendRes
  | [], off, out => if off < len then ⟨-1, out, []⟩ else ⟨0, out, []⟩
  | ev :: rest, off, out =>
    if off < len then
      let w := wxfer ev.w (len - off)
      if w = 0 then
        if ev.eintr then send_loop src len rest off out else ⟨-1, out, rest⟩
      else send_loop src len rest (off + w) (out ++ (src.drop off).take w)
    else ⟨0, out, ev :: rest⟩

/-- The function `send_frame_json(fd, json_str, len)`, writing to the stream `out`.  The
length word goes out in a single `write`, which must take all four bytes. -/
def send_frame_json (json_str : List Byte) (len : Nat) (script : List WriteEv)
    (out : List Byte) : SendRes :=
  match script with
  | [] => ⟨-1, out, []⟩
  | ev :: rest =>
    let w := wxfer ev.w 4
    if w ≠ 4 then ⟨-1, out ++ (htonl len).take w, rest⟩
    else send_loop json_str len rest 0 (out ++ htonl len)

/-- State after `send_frame_json_with_fds`: as `SendRes`, with the descriptor arrays
handed to the kernel as ancillary data, each with the stream offset of the first byte it
travels with. -/
structure SendFdsRes where
  ret : Int
  out : List Byte
  anc : List (Nat × List Int)
  script : List WriteEv
deriving DecidableEq, Repr

/-- The function `send_frame_json_with_fds(fd, json_str, len, fds, nfds)`; `fds` is `none`
for a null pointer.  Without descriptors it is `send_frame_json`.  Otherwise the length
word goes out in a `write` loop, and the payload with at most 16 descriptors in one
`sendmsg`, whose result `s` is only tested for `s < 0`.  A script that has run out counts
as a failed call. -/
def send_frame_json_with_fds (json_str : List Byte) (len : Nat) (fds : Option (List Int))
    (nfds : Nat) (script : List WriteEv) (out : List Byte) : SendFdsRes :=
  match fds with
  | none =>
    let r := send_frame_json json_str len script out
    ⟨r.ret, r.out, [], r.script⟩
  | some fdl =>
    if nfds = 0 then
      let r := send_frame_json json_str len script out
      ⟨r.ret, r.out, [], r.script⟩
    else
      let n := if nfds > 16 then 16 else nfds
      let r := send_loop (htonl len) 4 script 0 out
      if r.ret < 0 then ⟨-1, r.out, [], r.script⟩
      else
        match r.script with
        | [] => ⟨-1, r.out, [], []⟩
        | ev :: rest =>
          if ev.w < 0 then ⟨-1, r.out, [], rest⟩
          else ⟨0, r.out ++ json_str.take (min ev.w.toNat len), [(r.out.length, fdl.take n)], rest⟩

/-- The function `recv_frame_json(fd, buf, bufcap, timeout_ms)`.  The length word is read
into a 4-byte local. -/
def recv_frame_json (buf : List Byte) (bufcap : Nat) (script : List SelEv)
    (inq : List Byte) : Option RdRes :=
  match read_full [0, 0, 0, 0] 4 script inq with
  | none => none
  | some r1 =>
    if r1.ret < 0 then some ⟨-1, buf, r1.inq, r1.script⟩
    else
      let len := ntohl r1.buf
      if len ≥ bufcap then some ⟨-1, buf, r1.inq, r1.script⟩
      else
        match read_full buf len r1.script r1.inq with
        | none => none
        | some r2 =>
          if r2.ret < 0 then some ⟨-1, r2.buf, r2.inq, r2.script⟩
          else
            match write_at r2.buf len [0] with
            | none => none
            | some b => some ⟨to_int len, b, r2.inq, r2.script⟩

/-- One control message returned by `recvmsg`: whether it is `SOL_SOCKET`/`SCM_RIGHTS`,
and the descriptors in its data. -/
structure Cmsg where
  rights : Bool
  fds : List Int
deriving DecidableEq, Repr

/-- The descriptor harvest of `recv_frame_json_with_fds`: the descriptors of the
`SCM_RIGHTS` messages in order, as long as `gotfds < capfds`. -/
def harvest_fds (cmsgs : List Cmsg) (capfds : Nat) : List Int :=
  ((cmsgs.filter (fun c => c.rights)).map (fun c => c.fds)).flatten.take capfds

/-- State after `recv_frame_json_with_fds`: as `RdRes`, with the descriptors stored in
`fds_out` and the value left in `*nfds_inout` (`none` when that pointer is null). -/
structure RdFdsRes where
  ret : Int
  buf : List Byte
  inq : List Byte
  script : List SelEv
  fds_out : List Int
  nfds : Option Nat
deriving DecidableEq, Repr

/-- The largest count one `read`, `recv` or `recvmsg` call transfers on Linux
(`MAX_RW_COUNT`, `INT_MAX` rounded down to a page). -/
def MAX_RW_COUNT : Nat := 0x7ffff000

/-- The value of `recvmsg(fd, &msg, MSG_WAITALL)` with one iov of `len` bytes while
`avail` bytes are queued, `ev` being the kernel's answer to the call (`none`: the script
has run out, which counts as a failed call).  The call fails with -1 when `ev.got < 0`
(an error, a reset connection).  With nothing queued it returns 0 at end of stream
(`ev.got = 0`) and -1 (`EAGAIN`) otherwise, also for `len = 0`.  With bytes queued it
returns the count it copies: at most `len`, at most what is queued, at most
`MAX_RW_COUNT`.  This is the call on a non-blocking socket, as the broker's are; on a
blocking socket the call does not return a short count before the stream ends. -/
def recvmsg_ret (ev : Option SelEv) (len avail : Nat) : Int :=
  match ev with
  | none => -1
  | some e =>
    if e.got < 0 then -1
    else if avail = 0 then (if e.got = 0 then 0 else -1)
    else ((min len (min avail MAX_RW_COUNT) : Nat) : Int)

/-- The function `recv_frame_json_with_fds(fd, json_out, outcap, fds_out, nfds_inout,
timeout_ms)`.  The length word is read by `recv_all_timeout`; the payload comes from one
`recvmsg(MSG_WAITALL)` with no `select` before it, answered by the next event of the
script (`recvmsg_ret`), and any count other than `len` gives -1; `cmsgs` are the
control messages the kernel hands back with it.  `has_fds_out` tells whether `fds_out`
is non-null, `nfds_inout` is `none` for a null pointer. -/
def recv_frame_json_with_fds (json_out : List Byte) (outcap : Nat) (has_fds_out : Bool)
    (nfds_inout : Option Nat) (cmsgs : List Cmsg) (script : List SelEv)
    (inq : List Byte) : Option RdFdsRes :=
  match recv_all_timeout [0, 0, 0, 0] 4 script inq with
  | none => none
  | some r1 =>
    if r1.ret < 0 then some ⟨-1, json_out, r1.inq, r1.script, [], nfds_inout⟩
    else
      let len := ntohl r1.buf
      if len ≥ outcap then some ⟨-1, json_out, r1.inq, r1.script, [], nfds_inout⟩
      else
        let g := recvmsg_ret r1.script.head? len r1.inq.length
        match write_at json_out 0 (r1.inq.take g.toNat) with
        | none => none
        | some b1 =>
          if g ≠ (len : Int) then
            some ⟨-1, b1, r1.inq.drop g.toNat, r1.script.tail, [], nfds_inout⟩
          else
            match write_at b1 len [0] with
            | none => none
            | some b2 =>
              let capfds := nfds_inout.getD 0
              let got := if has_fds_out && decide (capfds ≠ 0) then harvest_fds cmsgs capfds else []
              some ⟨to_int len, b2, r1.inq.drop g.toNat, r1.script.tail, got,
                nfds_inout.map (fun _ => got.length)⟩

/-- A script on which every `select` reports the descriptor readable and every
`read`/`recv` returns data. -/
def delivers (script : List SelEv) : Prop := ∀ ev ∈ script, 0 < ev.rc ∧ 0 < ev.got

instance (script : List SelEv) : Decidable (delivers script) := by
  unfold delivers; infer_instance

/-- A frame of 2^31 zero bytes. -/
def frame_2GiB : List Byte := List.replicate (2 ^ 31) 0

/-! ## Dynamic array and feed table (`src/src/common.c`, `src/include/common.h`) -/

/-- Modelled from the spec: `POC_MAX_FEED` comes from `ph_uds_protocol.h`, which is not
among the sources at hand.  Feed names have at most 63 bytes, so `char name[POC_MAX_FEED]`
has 64. -/
def POC_MAX_FEED : Nat := 64

/-- Modelled from the spec: `POC_MAX_JSON` comes from `ph_uds_protocol.h`, which is not
among the sources at hand.  Control frames are capped at 64 KiB. -/
def POC_MAX_JSON : Nat := 65536

/-- An `intvec_t`: the elements `v[0 .. n)`.  Capacity and reallocation are not modelled. -/
abbrev intvec_t := List Int

/-- The function `intvec_push`. -/
def intvec_push (iv : intvec_t) (x : Int) : intvec_t := iv ++ [x]

/-- The function `intvec_erase`: nothing for `idx >= n`, otherwise the elements after
`idx` move one place down and `n` decreases. -/
def intvec_erase (iv : intvec_t) (idx : Nat) : intvec_t :=
  if idx ≥ iv.length then iv else iv.take idx ++ iv.drop (idx + 1)

/-- A `feed_t`: the C string in `name` and the subscribed descriptors. -/
structure feed_t where
  name : List Byte
  subs : intvec_t
deriving DecidableEq, Repr

/-- A `feedtab_t`: the entries `v[0 .. n)`.  The mutex is not modelled: every operation
below runs as one step.  Indices are returned as `int`; the table is taken to hold fewer
than 2^31 entries, so that `(int)i` is `i`. -/
abbrev feedtab_t := List feed_t

/-- The loop of `feedtab_find_nolock`, at index `i` with the entries from `i` on. -/
def feedtab_find_from (name : List Byte) : List feed_t → Nat → Int
  | [], _ => -1
  | f :: fs, i => if f.name = name then (i : Int) else feedtab_find_from name fs (i + 1)

/-- The function `feedtab_find_nolock` (and `feedtab_find`): index of the first entry
whose name compares equal, or -1. -/
def feedtab_find (t : feedtab_t) (name : List Byte) : Int := feedtab_find_from name t 0

/-- The function `feedtab_ensure`: the index of the existing entry, or a new last entry
whose name is `strncpy(.., name, sizeof name - 1)` and whose subscriber list is empty.
For a name of at most `POC_MAX_FEED - 2` bytes `strncpy` pads the field with NUL bytes
and the entry holds the name exactly.  For a longer name the code stores the first
`POC_MAX_FEED - 1` bytes and never writes `name[POC_MAX_FEED-1]`, which holds what
`realloc` returned (`feed_init` sets `name[0]` only): the string later read from the
field is not determined by the code.  The entry built here for that case is the one read
when that byte is NUL; nothing below draws on it except where it says so. -/
def feedtab_ensure (t : feedtab_t) (name : List Byte) : feedtab_t × Int :=
  let idx := feedtab_find t name
  if idx ≥ 0 then (t, idx)
  else (t ++ [⟨name.take (POC_MAX_FEED - 1), []⟩], (t.length : Int))

/-- The function `feedtab_sub`: ensure the feed, scan its subscribers for `fd`, push `fd`
when the scan finds none. -/
def feedtab_sub (t : feedtab_t) (name : List Byte) (fd : Int) : feedtab_t :=
  let (t1, idx) := feedtab_ensure t name
  match t1[idx.toNat]? with
  | none => t1
  | some f =>
    if f.subs.any (fun x => x == fd) then t1
    else t1.set idx.toNat { f with subs := intvec_push f.subs fd }

/-- The inner loop of `feedtab_unsub_all_fd` on one subscriber list, from index `j`:
erase at `j` when `v[j] == fd`, advance otherwise.  Each turn lowers `n - j` by one, so
`fuel = n - j` turns complete the loop. -/
def unsub_loop (fd : Int) : Nat → intvec_t → Nat → intvec_t
  | 0, iv, _ => iv
  | fuel + 1, iv, j =>
    if j < iv.length then
      if iv[j]? = some fd then unsub_loop fd fuel (intvec_erase iv j) j
      else unsub_loop fd fuel iv (j + 1)
    else iv

/-- The function `feedtab_unsub_all_fd`. -/
def feedtab_unsub_all_fd (t : feedtab_t) (fd : Int) : feedtab_t :=
  t.map (fun f => { f with subs := unsub_loop fd f.subs.length f.subs 0 })

/-! ## Naive JSON readers (`src/src/common.c`) -/

/-- The C string at the start of a buffer: the bytes before the first NUL. -/
def c_string (buf : List Byte) : List Byte := buf.takeWhile (fun b => b ≠ 0)

/-- The function `strlen`: the number of bytes before the first NUL. -/
def strlen (s : List Byte) : Nat := (c_string s).length

/-- The function `strstr`: the tail of `hay` that starts at the first occurrence of
`needle`. -/
def strstr : List Byte → List Byte → Option (List Byte)
  | [], needle => if needle = [] then some [] else none
  | h :: t, needle =>
    if needle.isPrefixOf (h :: t) then some (h :: t) else strstr t needle

/-- The function `strchr`: the tail of `s` that starts at the first `c`. -/
def strchr : List Byte → Byte → Option (List Byte)
  | [], _ => none
  | h :: t, c => if h = c then some (h :: t) else strchr t c

/-- The function `find_key`: the bytes `val[0 .. vlen)`, or `none` for -1.  The bytes
58, 32, 9, 34, 44, 125 and 10 are `:`, space, tab, `"`, `,`, `}` and line feed. -/
def find_key (json key : List Byte) : Option (List Byte) :=
  match strstr json key with
  | none => none
  | some p =>
    match strchr p 58 with
    | none => none
    | some p1 =>
      let p2 := (p1.drop 1).dropWhile (fun b => b == 32 || b == 9)
      if p2.head? = some 34 then
        let p3 := p2.drop 1
        match strchr p3 34 with
        | none => none
        | some q => some (p3.take (p3.length - q.length))
      else some (p2.takeWhile (fun b => !(b == 44 || b == 125 || b == 10)))

/-- The function `json_get_string`: the C string left in `out` (at most `outcap - 1`
bytes of the value), or `none` for -1.  `outcap` is positive at every call site. -/
def json_get_string (json key : List Byte) (outcap : Nat) : Option (List Byte) :=
  match find_key json key with
  | none => none
  | some v => some (if v.length + 1 > outcap then v.take (outcap - 1) else v)

/-- The function `json_get_type`. -/
def json_get_type (json : List Byte) (outcap : Nat) : Option (List Byte) :=
  json_get_string json (cstr "type") outcap

/-! ## Plugin table, loader and message handling (`src/src/core.c`) -/

/-- What one shared object does when the loader drives it: which of the four symbols
`dlsym` resolves, the string `plugin_name()` returns, the result of `plugin_init` and
the `caps_size` it stores, and the result of `plugin_start`. -/
structure Module where
  has_name : Bool
  has_init : Bool
  has_start : Bool
  has_stop : Bool
  name : List Byte
  init_ok : Bool
  caps_size : Nat
  start_ok : Bool
deriving DecidableEq, Repr

/-- A `plug_t`: the handle (all four entry points resolved) with the stored name and
path. -/
structure plug_t where
  dl : Module
  name : List Byte
  path : List Byte
deriving DecidableEq, Repr

/-- A `plugtab_t`: the entries `v[0 .. n)`. -/
abbrev plugtab_t := List plug_t

/-- The loop of `plugtab_find`. -/
def plugtab_find_from (name : List Byte) : List plug_t → Nat → Int
  | [], _ => -1
  | p :: ps, i => if p.name = name then (i : Int) else plugtab_find_from name ps (i + 1)

/-- The function `plugtab_find`. -/
def plugtab_find (t : plugtab_t) (name : List Byte) : Int := plugtab_find_from name t 0

/-- The function `plugtab_add`. -/
def plugtab_add (t : plugtab_t) (p : plug_t) : plugtab_t := t ++ [p]

/-- The function `plugtab_remove`. -/
def plugtab_remove (t : plugtab_t) (idx : Nat) : plugtab_t := t.take idx ++ t.drop (idx + 1)

/-- The file system and the dynamic loader, as the broker sees them: `access(p, R_OK) == 0`,
the outcome of `dlopen(p, RTLD_NOW)`, and the paths `scan_addon_paths` collects. -/
structure Env where
  access_r : List Byte → Bool
  dlopen : List Byte → Option Module
  scan : List (List Byte)

/-- The calls the broker makes that are visible outside it, in program order. -/
inductive Act
  | send_frame_json (fd : Int) (json : List Byte) (len : Nat)
  | send_frame_json_with_fds (fd : Int) (json : List Byte) (len : Nat) (fds : List Int)
      (nfds : Nat)
  | dlopen (path : List Byte)
  | dlclose (m : Module)
  | plugin_name (m : Module)
  | plugin_init (m : Module)
  | plugin_start (m : Module)
  | plugin_stop (m : Module)
  | overrun
deriving DecidableEq, Repr

/-- The descriptor a call sends to, for the two send calls. -/
def Act.target : Act → Option Int
  | .send_frame_json fd _ _ => some fd
  | .send_frame_json_with_fds fd _ _ _ _ => some fd
  | _ => none

/-- The size of `plugin_caps_t` on the LP64 targets the project builds for (a 32-bit
field, four pointers and a 32-bit field, with padding). -/
def sizeof_plugin_caps_t : Nat := 48

/-- The size of `plugin_ctx_t` on the LP64 targets the project builds for (two 16-bit
fields, a 32-bit field, two pointers and a 32-bit field, with padding). -/
def sizeof_plugin_ctx_t : Nat := 32

/-- The function `plugtab_free`: for each entry in table order, `f_stop` then `dlclose`. -/
def plugtab_free (t : plugtab_t) : List Act :=
  (t.map (fun p => [Act.plugin_stop p.dl, Act.dlclose p.dl])).flatten

/-- The function `load_plugin_from_path` for a non-null `so_path`: return code, registry
afterwards, calls made. -/
def load_plugin_from_path (env : Env) (reg : plugtab_t) (so_path : List Byte) :
    Int × plugtab_t × List Act :=
  if (strstr so_path (cstr ".so")).isNone || !env.access_r so_path then (-1, reg, [])
  else
    match env.dlopen so_path with
    | none => (-2, reg, [Act.dlopen so_path])
    | some dl =>
      if !dl.has_name || !dl.has_init || !dl.has_start || !dl.has_stop then
        (-3, reg, [Act.dlopen so_path, Act.dlclose dl])
      else
        let name := dl.name.take 63
        if plugtab_find reg name ≥ 0 then
          (1, reg, [Act.dlopen so_path, Act.plugin_name dl, Act.dlclose dl])
        else
          let path := so_path.take 511
          if !dl.init_ok then
            (-4, reg, [Act.dlopen so_path, Act.plugin_name dl, Act.plugin_init dl,
              Act.dlclose dl])
          else if dl.caps_size < sizeof_plugin_caps_t then
            (-5, reg, [Act.dlopen so_path, Act.plugin_name dl, Act.plugin_init dl,
              Act.dlclose dl])
          else if !dl.start_ok then
            (-6, reg, [Act.dlopen so_path, Act.plugin_name dl, Act.plugin_init dl,
              Act.plugin_start dl, Act.plugin_stop dl, Act.dlclose dl])
          else
            (0, plugtab_add reg ⟨dl, name, path⟩,
              [Act.dlopen so_path, Act.plugin_name dl, Act.plugin_init dl,
                Act.plugin_start dl])

/-- The function `unload_plugin_by_name`. -/
def unload_plugin_by_name (reg : plugtab_t) (name : List Byte) :
    Int × plugtab_t × List Act :=
  let idx := plugtab_find reg name
  if idx < 0 then (-1, reg, [])
  else
    match reg[idx.toNat]? with
    | none => (-1, reg, [])
    | some pl => (0, plugtab_remove reg idx.toNat, [Act.plugin_stop pl.dl, Act.dlclose pl.dl])

/-- The broker's globals: `g_feeds`, `g_plugins`, `g_run`. -/
structure Broker where
  feeds : feedtab_t
  plugins : plugtab_t
  run : Bool
deriving DecidableEq, Repr

/-- A `snprintf(buf, sizeof buf, ..)` into a `char buf[POC_MAX_JSON]` followed by
`send_frame_json(fd, buf, len)` with `len` the value `snprintf` returned: the buffer
holds at most `POC_MAX_JSON - 1` bytes of the text, `len` is the full length. -/
def send_formatted (fd : Int) (text : List Byte) : Act :=
  Act.send_frame_json fd (text.take (POC_MAX_JSON - 1)) text.length

/-- The decimal digits of `n`, as `%zu` prints them. -/
def fmt_zu (n : Nat) : List Byte := cstr (toString n)

/-- The function `feedtab_list`: one `info` frame per feed, in table order. -/
def feedtab_list (t : feedtab_t) (fd : Int) : List Act :=
  t.map (fun f => send_formatted fd
    (cstr "\x7b\"type\":\"info\",\"feed\":\"" ++ f.name ++ cstr "\",\"subs\":" ++
      fmt_zu f.subs.length ++ cstr "\x7d"))

/-- The function `broadcast_to_subs`: nothing when the feed is unknown, otherwise one
send per entry of its subscriber list, in list order, with the descriptors when
`nfds > 0`.  The results of the sends are dropped. -/
def broadcast_to_subs (t : feedtab_t) (feed json : List Byte) (len : Nat) (fds : List Int)
    (nfds : Nat) : List Act :=
  let idx := feedtab_find t feed
  if idx < 0 then []
  else
    match t[idx.toNat]? with
    | none => []
    | some f =>
      f.subs.map (fun fd =>
        if nfds > 0 then Act.send_frame_json_with_fds fd json len fds nfds
        else Act.send_frame_json fd json len)

/-- The loop of `json_send_kv_list` over the items: the text in `buf` (what fits) and
`pos`; `none` once `pos` has passed the end of `buf`, where `sizeof buf - pos` wraps
and the next `snprintf` stores outside the array. -/
def kv_items : List (List Byte) → List Byte → Nat → Option (List Byte × Nat)
  | [], buf, pos => some (buf, pos)
  | it :: rest, buf, pos =>
    if pos > POC_MAX_JSON then none
    else
      let piece := cstr "\"" ++ it ++ cstr "\"" ++ (if rest = [] then [] else cstr ",")
      kv_items rest (buf ++ piece.take (POC_MAX_JSON - pos - 1)) (pos + piece.length)

/-- The function `json_send_kv_list`. -/
def json_send_kv_list (fd : Int) (type key : List Byte) (items : List (List Byte)) : Act :=
  let head := cstr "\x7b\"type\":\"" ++ type ++ cstr "\",\"" ++ key ++ cstr "\":["
  match kv_items items (head.take (POC_MAX_JSON - 1)) head.length with
  | none => Act.overrun
  | some (buf, pos) =>
    if pos > POC_MAX_JSON then Act.overrun
    else Act.send_frame_json fd (buf ++ (cstr "]\x7d").take (POC_MAX_JSON - pos - 1)) (pos + 2)

/-- The command verbs of `handle_msg` on `cli-control`, for the command line `cmd`. -/
def handle_cli (env : Env) (st : Broker) (fd : Int) (cmd : List Byte) : Broker × List Act :=
  if cmd = cstr "help" then
    (st, [Act.send_frame_json fd
      (cstr "\x7b\"type\":\"info\",\"msg\":\"commands: help, feeds, load <path>, unload <name>, plugins, available-addons, exit\"\x7d")
      (cstr "\x7b\"type\":\"info\",\"msg\":\"commands: help, feeds, load <path>, unload <name>, plugins, available-addons, exit\"\x7d").length])
  else if cmd = cstr "feeds" || cmd = cstr "list feeds" then
    (st, feedtab_list st.feeds fd)
  else if cmd = cstr "plugins" || cmd = cstr "list addons" then
    (st, st.plugins.map (fun p => send_formatted fd
      (cstr "\x7b\"type\":\"info\",\"plugin\":\"" ++ p.name ++ cstr "\",\"path\":\"" ++ p.path ++
        cstr "\"\x7d")))
  else if cmd = cstr "available-addons" then
    (st, [json_send_kv_list fd (cstr "available-addons") (cstr "paths") (env.scan.take 128)])
  else if cmd.take 5 = cstr "load " then
    let arg := (cmd.drop 5).take 255
    if !env.access_r arg || (strstr arg (cstr ".so")).isNone then (st, [])
    else
      let (rc, reg, acts) := load_plugin_from_path env st.plugins arg
      ({ st with plugins := reg },
        acts ++ (if rc = 0 then
          [send_formatted fd (cstr "\x7b\"type\":\"info\",\"msg\":\"loaded " ++ arg ++ cstr "\"\x7d")]
          else []))
  else if cmd.take 7 = cstr "unload " then
    let name := (cmd.drop 7).take 127
    let (_, reg, acts) := unload_plugin_by_name st.plugins name
    ({ st with plugins := reg }, acts)
  else if cmd = cstr "exit" then ({ st with run := false }, [])
  else (st, [])

/-- The function `handle_msg(fd, js, fds, nfds)`: `js` is the C string received (the loop
of `main` passes the bytes of its buffer before the first NUL), `fds` the first `nfds`
entries of the descriptor array.  The publish branch forwards `strlen(js)` bytes. -/
def handle_msg (env : Env) (st : Broker) (fd : Int) (js : List Byte) (fds : List Int)
    (nfds : Nat) : Broker × List Act :=
  match json_get_type js 32 with
  | none => (st, [])
  | some type =>
    if type = cstr "create_feed" then
      match json_get_string js (cstr "feed") POC_MAX_FEED with
      | some name => ({ st with feeds := (feedtab_ensure st.feeds name).1 }, [])
      | none => (st, [])
    else if type = cstr "subscribe" then
      match json_get_string js (cstr "feed") POC_MAX_FEED with
      | some name => ({ st with feeds := feedtab_sub st.feeds name fd }, [])
      | none => (st, [])
    else if type = cstr "unsubscribe" then (st, [])
    else if type = cstr "publish" then
      match json_get_string js (cstr "feed") POC_MAX_FEED with
      | some name => (st, broadcast_to_subs st.feeds name js (strlen js) fds nfds)
      | none => (st, [])
    else if type = cstr "command" then
      match json_get_string js (cstr "feed") POC_MAX_FEED with
      | none => (st, [])
      | some feed =>
        if feed ≠ cstr "cli-control" then (st, [])
        else
          match json_get_string js (cstr "data") 256 with
          | none => (st, [])
          | some cmd => handle_cli env st fd cmd
    else if type = cstr "ping" then
      (st, [Act.send_frame_json fd (cstr "\x7b\"type\":\"pong\"\x7d") (cstr "\x7b\"type\":\"pong\"\x7d").length])
    else (st, [])

/-- The subscriber list of feed `F` in table `t`: the list of the first entry named `F`,
empty when there is none. -/
def subscribers (t : feedtab_t) (F : List Byte) : List Int :=
  match t.find? (fun f => f.name = F) with
  | some f => f.subs
  | none => []

/-- Every subscriber list of the table is free of duplicates. -/
def subs_nodup (t : feedtab_t) : Prop := ∀ f ∈ t, f.subs.Nodup

/-- One call on the feed table. -/
inductive FeedOp
  | ensure (name : List Byte)
  | sub (name : List Byte) (fd : Int)
  | unsub_all (fd : Int)
deriving DecidableEq, Repr

/-- The table after one call. -/
def FeedOp.apply (t : feedtab_t) : FeedOp → feedtab_t
  | .ensure name => (feedtab_ensure t name).1
  | .sub name fd => feedtab_sub t name fd
  | .unsub_all fd => feedtab_unsub_all_fd t fd

/-- The table after a sequence of calls, starting from `t`. -/
def run_feed_ops (t : feedtab_t) (ops : List FeedOp) : feedtab_t :=
  ops.foldl FeedOp.apply t

/-- A file system with nothing readable and no module to load. -/
def demo_env : Env := ⟨fun _ => false, fun _ => none, []⟩

/-- A broker with feed `foo` (subscribers 5 and 7) and feed `bar` (subscriber 9). -/
def demo_broker : Broker := ⟨[⟨cstr "foo", [5, 7]⟩, ⟨cstr "bar", [9]⟩], [], true⟩

/-- The frame `{"type":"publish","feed":"foo","data":{"x":1}}`. -/
def demo_publish : List Byte :=
  cstr "\x7b\"type\":\"publish\",\"feed\":\"foo\",\"data\":\x7b\"x\":1\x7d\x7d"

/-! ## Streaming rings (`soapy.c`, `wfmd.c`, `src/src/common/ph_ring.c`) -/

/-- Reduction of a value to `uint64_t`. -/
def u64 (x : Nat) : Nat := x % 2 ^ 64

/-- Reduction of a value to `uint32_t`. -/
def u32 (x : Nat) : Nat := x % 2 ^ 32

/-- The difference `a - b` of two `uint64_t` values, as the machine computes it. -/
def sub64 (a b : Nat) : Nat := (u64 a + 2 ^ 64 - u64 b) % 2 ^ 64

/-- A `memcpy(tmp, buf + off, n)` out of the object `buf`; `none` when it would read
outside it. -/
def read_at {α : Type} (buf : List α) (off n : Nat) : Option (List α) :=
  if off + n ≤ buf.length then some ((buf.drop off).take n) else none

/-- Modelled from the spec: `phiq_hdr_t` is declared in `ph_stream.h`, which is not among
the sources at hand.  The fields are the ones the ring code uses, with the widths the
spec gives: 32-bit `capacity`, `bytes_per_samp`, `fmt` and `used`, 64-bit atomic `seq`,
`wpos` and `rpos`, and the payload `data` of `capacity` bytes.  The sample rate and the
centre frequency (doubles) play no part in the ring discipline and are left out. -/
structure phiq_hdr_t where
  capacity : Nat
  bytes_per_samp : Nat
  fmt : Nat
  seq : Nat
  wpos : Nat
  rpos : Nat
  used : Nat
  data : List Byte
deriving DecidableEq, Repr

/-- The ring write of `rx_thread` (`soapy.c`), from the line that computes `bytes` to the
`seq` increment, run as one step; `src` is the first `bytes` bytes of `tmp`.  The result
is `none` when `cap` is 0 (`w % cap`) or when a `memcpy` would leave the payload. -/
def rx_write (h : phiq_hdr_t) (src : List Byte) : Option phiq_hdr_t :=
  let bytes := src.length
  let cap := h.capacity
  let w := h.wpos
  let r := h.rpos
  let prospective := u64 (w + bytes)
  let r1 := if sub64 prospective r > cap then sub64 prospective cap else r
  if cap = 0 then none
  else
    let mod := w % cap
    let first := if mod + bytes > cap then cap - mod else bytes
    match write_at h.data mod (src.take first) with
    | none => none
    | some d1 =>
      match (if first < bytes then write_at d1 0 (src.drop first) else some d1) with
      | none => none
      | some d2 =>
        let w1 := u64 (w + bytes)
        let used := sub64 w1 r1
        some { h with
          rpos := r1, data := d2, wpos := w1,
          used := u32 (if used > cap then cap else used), seq := u64 (h.seq + 1) }

/-- The ring drain of `demod_from_iq_ring` (`wfmd.c`) up to the `rpos` store, run as one
step: the header afterwards and the block copied to `tmp` (empty when the function
returns before copying).  `active` is `g_active`; the header is mapped and `malloc`
succeeds.  The result is `none` when a `memcpy` would read outside the payload. -/
def demod_from_iq_ring (active : Bool) (h : phiq_hdr_t) : Option (phiq_hdr_t × List Byte) :=
  if !active then some (h, [])
  else
    let cap := h.capacity
    let bps := h.bytes_per_samp
    if cap = 0 || bps = 0 then some (h, [])
    else
      let r := h.rpos
      let w := h.wpos
      let avail := if w > r then w - r else 0
      if avail < bps then some (h, [])
      else
        let max_bytes := 2 ^ 18
        let bytes0 := if avail > max_bytes then max_bytes else avail
        let bytes := bytes0 - bytes0 % bps
        if bytes = 0 then some (h, [])
        else
          let mod := r % cap
          let first := if mod + bytes > cap then cap - mod else bytes
          match read_at h.data mod first with
          | none => none
          | some t1 =>
            match (if first < bytes then read_at h.data 0 (bytes - first) else some []) with
            | none => none
            | some t2 => some ({ h with rpos := u64 (r + bytes) }, t1 ++ t2)

/-- One step on the IQ ring: the producer writes a block, or the consumer drains. -/
inductive IQStep
  | produce (src : List Byte)
  | consume
deriving DecidableEq, Repr

/-- The header after one step and the block the consumer copied out in it. -/
def iq_step (h : phiq_hdr_t) : IQStep → Option (phiq_hdr_t × List Byte)
  | .produce src => (rx_write h src).map (fun h1 => (h1, []))
  | .consume => demod_from_iq_ring true h

/-- The header after a sequence of steps and the concatenation of the blocks the consumer
copied out. -/
def iq_run : phiq_hdr_t → List IQStep → Option (phiq_hdr_t × List Byte)
  | h, [] => some (h, [])
  | h, st :: rest =>
    match iq_step h st with
    | none => none
    | some (h1, o1) =>
      match iq_run h1 rest with
      | none => none
      | some (h2, o2) => some (h2, o1 ++ o2)

/-- A freshly created IQ ring (`iq_ring_open`): zeroed header and payload, then the
capacity and the frame size. -/
def fresh_iq_ring (C bps : Nat) : phiq_hdr_t :=
  { capacity := C, bytes_per_samp := bps, fmt := 0, seq := 0, wpos := 0, rpos := 0,
    used := 0, data := List.replicate C 0 }

/-- The bytes the producer wrote in a sequence of steps, in order. -/
def produced : List IQStep → List Byte
  | [] => []
  | .produce src :: rest => src ++ produced rest
  | .consume :: rest => produced rest

/-- The number of bytes a step writes to the ring. -/
def IQStep.size : IQStep → Nat
  | .produce src => src.length
  | .consume => 0

/-- Every producer step of the sequence writes at most `C` bytes. -/
def bursts_fit (C : Nat) (steps : List IQStep) : Prop := ∀ st ∈ steps, st.size ≤ C

instance (C : Nat) (steps : List IQStep) : Decidable (bursts_fit C steps) := by
  unfold bursts_fit; infer_instance

/-- No producer step of the run takes the overflow branch (`prospective - r > cap`). -/
def no_overflow : phiq_hdr_t → List IQStep → Bool
  | _, [] => true
  | h, st :: rest =>
    (match st with
      | .produce src => !decide (sub64 (u64 (h.wpos + src.length)) h.rpos > h.capacity)
      | .consume => true) &&
    (match iq_step h st with
      | none => false
      | some p => no_overflow p.1 rest)

/-- The ring invariant against the history `hist` of all bytes produced: the counters
are in range, `wpos` counts the history, and each of the last `C` bytes produced sits at
its absolute index modulo `C`. -/
structure IQInv (C : Nat) (hist : List Byte) (s : phiq_hdr_t) : Prop where
  cap : s.capacity = C
  len : s.data.length = C
  w : s.wpos = hist.length
  rw : s.rpos ≤ s.wpos
  fill : s.wpos ≤ s.rpos + C
  content : ∀ j, j < s.wpos → s.wpos ≤ j + C → s.data[j % C]? = hist[j]?

/-- Modelled from the spec: `phau_hdr_t` is declared in `ph_stream.h`, which is not among
the sources at hand.  The fields are the ones the audio ring code uses, with the widths
the spec gives; `data` is the payload of `capacity` bytes. -/
structure phau_hdr_t where
  capacity : Nat
  bytes_per_samp : Nat
  channels : Nat
  seq : Nat
  wpos : Nat
  rpos : Nat
  data : List Byte
deriving DecidableEq, Repr

/-- The function `ph_audio_ring_pop_f32(h, dst, max_frames)`: header afterwards, the bytes
of the object `dst` points to, and the value returned.  `dst` is a `float *`, so the
second copy, to `dst + n1`, lands at byte `sizeof(float) * n1` of that object.  The result
is `none` on a division by zero or when a `memcpy` would leave the payload or `dst`. -/
def ph_audio_ring_pop_f32 (h : phau_hdr_t) (dst : List Byte) (max_frames : Nat) :
    Option (phau_hdr_t × List Byte × Nat) :=
  let cap := h.capacity
  let avail := sub64 h.wpos h.rpos
  let want0 := u64 (max_frames * 4 * h.channels)
  let want := if want0 > avail then avail else want0
  if cap = 0 then none
  else
    let r := h.rpos % cap
    let n1 := if cap - r > want then want else cap - r
    match read_at h.data r n1 with
    | none => none
    | some s1 =>
      match write_at dst 0 s1 with
      | none => none
      | some dst1 =>
        let rem := want - n1
        match (if rem > 0 then (read_at h.data 0 rem).bind (fun s2 => write_at dst1 (4 * n1) s2)
               else some dst1) with
        | none => none
        | some dst2 =>
          if 4 * h.channels = 0 then none
          else some ({ h with rpos := u64 (h.rpos + want) }, dst2, want / (4 * h.channels))

/-- An audio ring of 16 bytes holding the values 100 .. 115, with `rpos = 12` and
`wpos = 20`: eight bytes are readable, four before the end of the payload and four after
the wrap. -/
def wrapped_audio_ring : phau_hdr_t :=
  { capacity := 16, bytes_per_samp := 4, channels := 1, seq := 0, wpos := 20, rpos := 12,
    data := [100, 101, 102, 103, 104, 105, 106, 107, 108, 109, 110, 111, 112, 113, 114, 115] }

/-! ## Plugin ABI gate (`src/include/plugin.h`) -/

/-- The macro `PLUGIN_ABI_MAJOR`. -/
def PLUGIN_ABI_MAJOR : Nat := 1

/-- The macro `PLUGIN_ABI_MINOR`. -/
def PLUGIN_ABI_MINOR : Nat := 0

/-- A `plugin_ctx_t`: the three numeric fields `ph_check_abi` reads, the two strings and
the feature word. -/
structure plugin_ctx_t where
  abi_major : Nat
  abi_minor : Nat
  ctx_size : Nat
  sock_path : List Byte
  name : List Byte
  core_features : Nat
deriving DecidableEq, Repr

/-- The function `ph_check_abi(ctx)`; `none` is the null pointer. -/
def ph_check_abi (ctx : Option plugin_ctx_t) : Bool :=
  match ctx with
  | none => false
  | some c =>
    if c.abi_major ≠ PLUGIN_ABI_MAJOR then false
    else if c.abi_minor > PLUGIN_ABI_MINOR then false
    else if c.ctx_size < sizeof_plugin_ctx_t then false
    else true

/-! ## Registry runs -/

/-- One call on the plugin registry: a load, against the file system and loader of that
moment, or an unload. -/
inductive RegOp
  | load (env : Env) (so_path : List Byte)
  | unload (name : List Byte)

/-- The registry after one call. -/
def RegOp.apply (reg : plugtab_t) : RegOp → plugtab_t
  | .load env so_path => (load_plugin_from_path env reg so_path).2.1
  | .unload name => (unload_plugin_by_name reg name).2.1

/-- The registry after a sequence of calls, starting from `reg`. -/
def run_reg_ops (reg : plugtab_t) (ops : List RegOp) : plugtab_t :=
  ops.foldl RegOp.apply reg

/-- A module that resolves all four symbols, initialises and starts, and whose
`plugin_name()` is 64 letters `a`. -/
def long_name_module : Module :=
  { has_name := true, has_init := true, has_start := true, has_stop := true,
    name := List.replicate 64 97, init_ok := true, caps_size := 48, start_ok := true }

/-- A file system where every path is readable and `dlopen` yields `long_name_module`. -/
def long_name_env : Env := ⟨fun _ => true, fun _ => some long_name_module, []⟩

/-! ## Control-plane helpers (`src/src/common/ctrlmsg.c`, `src/include/ctrlmsg.h`) -/

/-- A `ph_ctrl_t`: the descriptor and the C strings in `name[64]`, `feed_in[96]` and
`feed_out[96]`. -/
structure ph_ctrl_t where
  fd : Int
  name : List Byte
  feed_in : List Byte
  feed_out : List Byte
deriving DecidableEq, Repr

/-- The value `snprintf` returns for a formatted text: its length, or a negative value
when the length does not fit an `int`. -/
def snprintf_ret (text : List Byte) : Int :=
  if text.length < 2 ^ 31 then (text.length : Int) else -1

/-- The body shared by the emitters: `n = snprintf(js, sizeof js, ..)` into a
`char js[size]`, then `if (n > 0) send_frame_json(fd, js, (size_t)n)`.  The buffer holds
at most `size - 1` bytes of the text; `n` is the length of the whole text. -/
def emit_frame (fd : Int) (size : Nat) (text : List Byte) : List Act :=
  if snprintf_ret text > 0 then [Act.send_frame_json fd (text.take (size - 1)) text.length]
  else []

/-- The function `ph_create_feed`. -/
def ph_create_feed (fd : Int) (feed : List Byte) : List Act :=
  emit_frame fd 256 (cstr "\x7b\"type\":\"create_feed\",\"feed\":\"" ++ feed ++ cstr "\"\x7d")

/-- The function `ph_subscribe`. -/
def ph_subscribe (fd : Int) (feed : List Byte) : List Act :=
  emit_frame fd 256 (cstr "\x7b\"type\":\"subscribe\",\"feed\":\"" ++ feed ++ cstr "\"\x7d")

/-- The function `ph_unsubscribe`. -/
def ph_unsubscribe (fd : Int) (feed : List Byte) : List Act :=
  emit_frame fd 256 (cstr "\x7b\"type\":\"unsubscribe\",\"feed\":\"" ++ feed ++ cstr "\"\x7d")

/-- The function `ph_publish`. -/
def ph_publish (fd : Int) (feed data_json : List Byte) : List Act :=
  emit_frame fd 1024
    (cstr "\x7b\"type\":\"publish\",\"feed\":\"" ++ feed ++ cstr "\",\"data\":" ++ data_json ++
      cstr "\x7d")

/-- The text `ph_command` formats: `{"type":"command","feed":"<feed>","data":"<cmd>"}`. -/
def command_text (feed cmd : List Byte) : List Byte :=
  cstr "\x7b\"type\":\"command\",\"feed\":\"" ++ feed ++ cstr "\",\"data\":\"" ++ cmd ++
    cstr "\"\x7d"

/-- The function `ph_command`. -/
def ph_command (fd : Int) (feed cmd : List Byte) : List Act :=
  emit_frame fd 768 (command_text feed cmd)

/-- The function `ph_ctrl_init`: the three `snprintf` into the zeroed context. -/
def ph_ctrl_init (fd : Int) (addon_name : List Byte) : ph_ctrl_t :=
  { fd := fd, name := addon_name.take 63,
    feed_in := (addon_name ++ cstr ".config.in").take 95,
    feed_out := (addon_name ++ cstr ".config.out").take 95 }

/-- The function `ph_ctrl_advertise`. -/
def ph_ctrl_advertise (c : ph_ctrl_t) : List Act :=
  ph_create_feed c.fd c.feed_in ++ ph_create_feed c.fd c.feed_out ++ ph_subscribe c.fd c.feed_in

/-- The loop `while (*p==' '||*p=='"') { if (*p=='"') { p++; break; } p++; }` of
`json_get`: spaces are passed over, the first double quote is passed over and ends the
loop. -/
def skip_open : List Byte → List Byte
  | [] => []
  | b :: t => if b = 34 then t else if b = 32 then skip_open t else b :: t

/-- The function `json_get` of `ctrlmsg.c`: the C string left in `out`, or `none` for
NULL.  The copy stops at NUL, double quote, line feed, carriage return, or when `out`
holds `outsz - 1` bytes. -/
def json_get (js key : List Byte) (outsz : Nat) : Option (List Byte) :=
  match strstr js key with
  | none => none
  | some p =>
    match strchr p 58 with
    | none => none
    | some p1 =>
      some (((skip_open (p1.drop 1)).takeWhile
        (fun b => !(b == 34 || b == 10 || b == 13))).take (outsz - 1))

/-- The function `ph_ctrl_dispatch(c, json, n, on_cmd, user)`: the value returned and the
command lines `on_cmd` was invoked with, in order; `has_cb` tells whether `on_cmd` is
non-null. -/
def ph_ctrl_dispatch (c : ph_ctrl_t) (json : List Byte) (has_cb : Bool) :
    Bool × List (List Byte) :=
  match json_get json (cstr "\"type\"") 32 with
  | none => (false, [])
  | some type =>
    match json_get json (cstr "\"feed\"") 128 with
    | none => (false, [])
    | some feed =>
      if feed ≠ c.feed_in then (false, [])
      else if type = cstr "command" || type = cstr "publish" then
        (true, if has_cb then [(json_get json (cstr "\"data\"") 1024).getD []] else [])
      else (false, [])

/-- The frame `{"type":"<T>","feed":"<F>","data":"<D>"}`. -/
def ctrl_frame (T F D : List Byte) : List Byte :=
  cstr "\x7b\"type\":\"" ++ T ++ cstr "\",\"feed\":\"" ++ F ++ cstr "\",\"data\":\"" ++ D ++
    cstr "\"\x7d"

/-- The string holds no double quote, line feed or carriage return. -/
def plain (s : List Byte) : Prop := (34 : Byte) ∉ s ∧ (10 : Byte) ∉ s ∧ (13 : Byte) ∉ s

instance (s : List Byte) : Decidable (plain s) := by
  unfold plain; infer_instance

/-! ## Shared-memory helper (`src/include/ph_shm.h`, `src/src/common/ph_shm.c`) -/

/-- The constant `PH_SHM_MAGIC`. -/
def PH_SHM_MAGIC : Nat := 0x50485348

/-- The constant `PH_SHM_VMAJOR`. -/
def PH_SHM_VMAJOR : Nat := 0

/-- The constant `PH_SHM_VMINOR`. -/
def PH_SHM_VMINOR : Nat := 1

/-- The size `sizeof(ph_shm_v0_t)`: 4 + 2 + 2 + 8 + 4 + 4 bytes, the flexible array member
adding none. -/
def sizeof_ph_shm_v0_t : Int := 24

/-- A mapped `ph_shm_v0_t`: the header fields and, in `data`, the bytes of the mapping that
follow the header. -/
structure ph_shm_v0_t where
  magic : Nat
  ver_major : Nat
  ver_minor : Nat
  seq : Nat
  used : Nat
  capacity : Nat
  data : List Byte
deriving DecidableEq, Repr

/-- A `ph_shm_t`; `hdr` is `none` for a null pointer. -/
structure ph_shm_t where
  fd : Int
  map_bytes : Nat
  hdr : Option ph_shm_v0_t
deriving DecidableEq, Repr

/-- The function `ph_shm_publish(s, src, nbytes, out_seq)`; `s` and `src` are `none` for
null pointers, `has_out_seq` tells whether `out_seq` is non-null.  The result is the
value returned, the handle afterwards and the value stored in `*out_seq` (if any); it is
`none` when a `memcpy` would leave the source block or the mapping. -/
def ph_shm_publish (s : Option ph_shm_t) (src : Option (List Byte)) (nbytes : Nat)
    (has_out_seq : Bool) : Option (Int × Option ph_shm_t × Option Nat) :=
  match s, src with
  | some s0, some b =>
    match s0.hdr with
    | none => some (-1, s, none)
    | some h =>
      if s0.fd < 0 then some (-1, s, none)
      else if nbytes > h.capacity then some (-1, s, none)
      else
        match read_at b 0 nbytes with
        | none => none
        | some blk =>
          match write_at h.data 0 blk with
          | none => none
          | some d =>
            let seq := u64 (h.seq + 1)
            some (0,
              some { s0 with hdr := some { h with data := d, used := u32 nbytes, seq := seq } },
              if has_out_seq then some seq else none)
  | _, _ => some (-1, s, none)

/-- The function `ph_shm_attach(s, fd)`.  `s` is `none` for a null pointer; `st_size` is
the size `fstat` reports, `none` when `fstat` fails; `mapped` is the header seen through
the mapping, `none` when `mmap` fails.  The result is the value returned and the handle
afterwards. -/
def ph_shm_attach (s : Option ph_shm_t) (fd : Int) (st_size : Option Int)
    (mapped : Option ph_shm_v0_t) : Int × Option ph_shm_t :=
  match s with
  | none => (-1, none)
  | some s0 =>
    if fd < 0 then (-1, some s0)
    else
      let cleared : ph_shm_t := { fd := -1, map_bytes := 0, hdr := none }
      match st_size with
      | none => (-1, some cleared)
      | some sz =>
        if sz < sizeof_ph_shm_v0_t then (-1, some cleared)
        else
          match mapped with
          | none => (-1, some cleared)
          | some hdr =>
            if hdr.magic ≠ PH_SHM_MAGIC then (-1, some cleared)
            else if hdr.ver_major ≠ PH_SHM_VMAJOR ∨ hdr.ver_minor > PH_SHM_VMINOR then
              (-1, some cleared)
            else (0, some { fd := fd, map_bytes := sz.toNat, hdr := some hdr })

/-- A handle whose header is mapped (capacity 4, payload 9 9 9 9) and which owns no
descriptor (`fd` is -1). -/
def handle_without_fd : ph_shm_t :=
  { fd := -1, map_bytes := 28,
    hdr := some { magic := PH_SHM_MAGIC, ver_major := 0, ver_minor := 1, seq := 0, used := 0,
                  capacity := 4, data := [9, 9, 9, 9] } }

/-- A handle as `ph_shm_create` leaves it for a payload of 4 bytes, at descriptor 5, with
the payload bytes set to 9. -/
def demo_handle : ph_shm_t :=
  { fd := 5, map_bytes := 28,
    hdr := some { magic := PH_SHM_MAGIC, ver_major := 0, ver_minor := 1, seq := 0, used := 0,
                  capacity := 4, data := [9, 9, 9, 9] } }

/-- A header with the right magic and major, and minor 2, newer than `PH_SHM_VMINOR`. -/
def newer_minor_header : ph_shm_v0_t :=
  { magic := PH_SHM_MAGIC, ver_major := PH_SHM_VMAJOR, ver_minor := 2, seq := 0, used := 0,
    capacity := 4, data := [0, 0, 0, 0] }

/-! ## Inputs for the feed-table and broker theorems -/

/-- The name a call passes has at most `POC_MAX_FEED - 2` bytes, so `strncpy(.., name,
POC_MAX_FEED - 1)` stores it whole together with a NUL. -/
def FeedOp.short : FeedOp → Prop
  | .ensure name => name.length ≤ POC_MAX_FEED - 2
  | .sub name _ => name.length ≤ POC_MAX_FEED - 2
  | .unsub_all _ => True

instance : DecidablePred FeedOp.short := fun op => by
  cases op <;> unfold FeedOp.short <;> infer_instance

/-- A feed name of 65 bytes, each the letter a. -/
def long_feed_name : List Byte := List.replicate 65 97

/-- The frame `{"type":"command","feed":"foo","data":"x"}`. -/
def demo_command : List Byte :=
  cstr "\x7b\"type\":\"command\",\"feed\":\"foo\",\"data\":\"x\"\x7d"

/-- The frame `{"type":"subscribe","feed":"foo"}`, as `ph_subscribe` formats it. -/
def demo_subscribe : List Byte := cstr "\x7b\"type\":\"subscribe\",\"feed\":\"foo\"\x7d"

/-- The frame `{"type":"unsubscribe","feed":"foo"}`, as `ph_unsubscribe` formats it. -/
def demo_unsubscribe : List Byte := cstr "\x7b\"type\":\"unsubscribe\",\"feed\":\"foo\"\x7d"

/-- A broker with no feed and no module. -/
def empty_broker : Broker := ⟨[], [], true⟩


/-- The frame `{"type":"publish","feed":"foo","data":"a\0b"}`: a publish whose data holds
a NUL byte. -/
def nul_publish : List Byte :=
  cstr "\x7b\"type\":\"publish\",\"feed\":\"foo\",\"data\":\"a" ++ [0] ++ cstr "b\"\x7d"
/-! ## Inputs for the shutdown and load-path theorems -/

/-- The module a call stops, for a `plugin_stop` call. -/
def Act.stopped : Act → Option Module
  | .plugin_stop m => some m
  | _ => none

/-- A module named `a` that resolves all four symbols, initialises and starts. -/
def mod_a : Module :=
  { has_name := true, has_init := true, has_start := true, has_stop := true,
    name := cstr "a", init_ok := true, caps_size := 48, start_ok := true }

/-- A module named `b` that resolves all four symbols, initialises and starts. -/
def mod_b : Module :=
  { has_name := true, has_init := true, has_start := true, has_stop := true,
    name := cstr "b", init_ok := true, caps_size := 48, start_ok := true }

/-- A file system where every path is readable, `dlopen` yields `mod_b` for the path
`b.so` and `mod_a` for every other path. -/
def two_module_env : Env :=
  ⟨fun _ => true, fun p => if p = cstr "b.so" then some mod_b else some mod_a, []⟩

/-! ## Reply helpers (`src/src/common/ctrlmsg.c`) and the audio ring writer (`wfmd.c`) -/

/-- The function `ph_reply`. -/
def ph_reply (c : ph_ctrl_t) (json_obj : List Byte) : List Act :=
  ph_publish c.fd c.feed_out json_obj

/-- The function `ph_reply_ok`; `msg` is `none` for a null pointer.  The object is
formatted into `char js[512]`. -/
def ph_reply_ok (c : ph_ctrl_t) (msg : Option (List Byte)) : List Act :=
  ph_publish c.fd c.feed_out
    ((cstr "\x7b\"ok\":true,\"msg\":\"" ++ msg.getD (cstr "ok") ++ cstr "\"\x7d").take 511)

/-- The function `ph_reply_err`; `msg` is `none` for a null pointer.  The object is
formatted into `char js[512]`. -/
def ph_reply_err (c : ph_ctrl_t) (msg : Option (List Byte)) : List Act :=
  ph_publish c.fd c.feed_out
    ((cstr "\x7b\"ok\":false,\"err\":\"" ++ msg.getD (cstr "err") ++ cstr "\"\x7d").take 511)

/-- The function `vreply_fmt(c, ok, fmt, ap)`; `text` is what `fmt` expands to with the
arguments of `ap` (empty for a null `fmt`).  It goes through `char payload[768]` and the
object through `char js[900]`. -/
def vreply_fmt (c : ph_ctrl_t) (ok : Bool) (text : List Byte) : List Act :=
  let payload := text.take 767
  ph_publish c.fd c.feed_out
    ((cstr "\x7b\"ok\":" ++ (if ok then cstr "true" else cstr "false") ++ cstr ",\"msg\":\"" ++
      payload ++ cstr "\"\x7d").take 899)

/-- The function `ph_reply_okf`, on the expanded text. -/
def ph_reply_okf (c : ph_ctrl_t) (text : List Byte) : List Act := vreply_fmt c true text

/-- The function `ph_reply_errf`, on the expanded text. -/
def ph_reply_errf (c : ph_ctrl_t) (text : List Byte) : List Act := vreply_fmt c false text

/-- The function `ring_push_f32(r, x, n_frames)` of `wfmd.c`: the header afterwards.
`hdr` is `none` for a null `r->hdr`, `x` is `none` for a null pointer and otherwise the
bytes of the array.  The sizes are `size_t` and the positions `uint64_t`.  The result is
`none` when `cap` is 0 at `w % cap` or when a `memcpy` would leave `x` or the payload. -/
def ring_push_f32 (hdr : Option phau_hdr_t) (x : Option (List Byte)) (n_frames : Nat) :
    Option (Option phau_hdr_t) :=
  match hdr, x with
  | some h, some src =>
    if n_frames = 0 then some hdr
    else
      let fsz := u64 (h.bytes_per_samp * h.channels)
      let bytes := u64 (n_frames * fsz)
      let w := h.wpos
      let rp := h.rpos
      let cap := h.capacity
      if bytes > cap then some hdr
      else
        let r1 := if u64 (sub64 w rp + bytes) > cap then sub64 (u64 (w + bytes)) cap else rp
        if cap = 0 then none
        else
          let wp := w % cap
          let first := if wp + bytes > cap then cap - wp else bytes
          match (read_at src 0 first).bind (fun s1 => write_at h.data wp s1) with
          | none => none
          | some d1 =>
            match (if bytes > first then
                    (read_at src first (bytes - first)).bind (fun s2 => write_at d1 0 s2)
                   else some d1) with
            | none => none
            | some d2 =>
              some (some { h with rpos := r1, data := d2, wpos := u64 (w + bytes),
                                  seq := u64 (h.seq + 1) })
  | _, _ => some hdr

/-- An audio ring of 16 bytes, mono 32-bit samples, four bytes written and none read. -/
def small_audio_ring : phau_hdr_t :=
  { capacity := 16, bytes_per_samp := 4, channels := 1, seq := 1, wpos := 4, rpos := 0,
    data := [1, 2, 3, 4, 0, 0, 0, 0, 0, 0, 0, 0, 0, 0, 0, 0] }

/-! ## The event loop of `main` (`src/src/core.c`) -/

/-- What a client socket holds when the loop turns to it: the control messages that come
with the payload, the kernel's answers to the waits and reads, and the bytes queued. -/
structure Sock where
  cmsgs : List Cmsg
  script : List SelEv
  inq : List Byte

/-- What the kernel answers during one turn of the event loop: the value of `select` and
whether `errno == EINTR` after it, whether the listening socket is in the set returned,
the value `accept` returns if called, which descriptors are in the set returned, and the
state of each client socket. -/
structure IterEv where
  rc : Int
  eintr : Bool
  listen_ready : Bool
  accept : Int
  ready : Int → Bool
  sock : Int → Sock

/-- The state of the event loop: the broker's globals, the entries `fds[0 .. nfds)`, the
descriptors handed to `close` so far and the calls made so far.  While the client loop
runs, `fds` holds the entries before index `i`. -/
structure Loop where
  st : Broker
  fds : List Int
  closed : List Int
  acts : List Act
deriving DecidableEq, Repr

/-- The body of the client loop for a descriptor whose reception gave `r`: on `got <= 0`
the client is unsubscribed from every feed, closed and dropped from the array; otherwise
the message is handled, the descriptors received with it are closed, and `i` advances. -/
def serve_one (env : Env) (fd : Int) (r : RdFdsRes) (s : Loop) : Loop :=
  if r.ret ≤ 0 then
    { s with st := { s.st with feeds := feedtab_unsub_all_fd s.st.feeds fd },
             closed := s.closed ++ [fd] }
  else
    let anc := r.fds_out.take (r.nfds.getD 0)
    { st := (handle_msg env s.st fd (c_string r.buf) anc anc.length).1,
      fds := s.fds ++ [fd],
      closed := s.closed ++ anc.filter (fun k => decide (k ≥ 0)),
      acts := s.acts ++ (handle_msg env s.st fd (c_string r.buf) anc anc.length).2 }

/-- The client loop `for(i=0;i<nfds;)` over the entries still to visit.  A descriptor in
the set is received from with `recv_frame_json_with_fds(fd, js, sizeof js-1, ancfds,
&anccnt, 10)`, `js` being a `char[POC_MAX_JSON]` (taken as zeroed) and `anccnt` 16.  The
result is `none` when the reception stores outside an object. -/
def serve_clients (env : Env) (isset : Int → Bool) (sock : Int → Sock) :
    List Int → Loop → Option Loop
  | [], s => some s
  | fd :: todo, s =>
    if isset fd then
      match recv_frame_json_with_fds (List.replicate POC_MAX_JSON 0) (POC_MAX_JSON - 1) true
          (some 16) (sock fd).cmsgs (sock fd).script (sock fd).inq with
      | none => none
      | some r => serve_clients env isset sock todo (serve_one env fd r s)
    else serve_clients env isset sock todo { s with fds := s.fds ++ [fd] }

/-- One turn of `for(;;)` in `main`, with `int fds[1024]`: the state afterwards and
whether the loop goes on.  The result is `none` when `fds[nfds++] = cfd` stores outside
the array.  Descriptor sets are not modelled beyond membership: a client is in the set
returned only if it was in the array when the set was built. -/
def loop_iter (env : Env) (ev : IterEv) (s : Loop) : Option (Loop × Bool) :=
  if !s.st.run then some (s, false)
  else if ev.rc < 0 then some (s, ev.eintr)
  else
    let isset := fun fd => decide (fd ∈ s.fds) && ev.ready fd
    if ev.listen_ready && decide (ev.accept ≥ 0) then
      if s.fds.length < 1024 then
        (serve_clients env isset ev.sock (s.fds ++ [ev.accept]) { s with fds := [] }).map
          (fun s1 => (s1, true))
      else none
    else
      (serve_clients env isset ev.sock s.fds { s with fds := [] }).map (fun s1 => (s1, true))

/-- The loop run over the kernel's answers turn by turn, until they run out or the loop
breaks. -/
def run_loop (env : Env) : List IterEv → Loop → Option Loop
  | [], s => some s
  | ev :: rest, s =>
    match loop_iter env ev s with
    | none => none
    | some (s1, true) => run_loop env rest s1
    | some (s1, false) => some s1

/-- A turn in which a client connects as descriptor `cfd` and no client socket is
readable. -/
def accept_ev (cfd : Int) : IterEv :=
  { rc := 1, eintr := false, listen_ready := true, accept := cfd, ready := fun _ => false,
    sock := fun _ => ⟨[], [], []⟩ }

/-- The turns in which clients connect one after another as descriptors 4, 5, ...,
`n + 3`. -/
def accept_evs (n : Nat) : List IterEv := (List.range n).map (fun (i : Nat) => accept_ev ((i : Int) + 4))

/-- The loop as `main` enters it: feed `cli-control` ensured, no client. -/
def initial_loop : Loop :=
  { st := ⟨(feedtab_ensure [] (cstr "cli-control")).1, [], true⟩, fds := [], closed := [],
    acts := [] }

/-- The table `B64`. -/
def B64 : List Byte :=
  cstr "ABCDEFGHIJKLMNOPQRSTUVWXYZabcdefghijklmnopqrstuvwxyz0123456789+/"

/-- The function `b64_rev`: 65..90 are `A`..`Z`, 97..122 are `a`..`z`, 48..57 are the
digits, 43, 47 and 61 are `+`, `/` and `=`.  A byte above 127 matches no test, whether
`char` is signed or not. -/
def b64_rev (c : Byte) : Int :=
  if 65 ≤ c.val ∧ c.val ≤ 90 then (c.val : Int) - 65
  else if 97 ≤ c.val ∧ c.val ≤ 122 then (c.val : Int) - 97 + 26
  else if 48 ≤ c.val ∧ c.val ≤ 57 then (c.val : Int) - 48 + 52
  else if c.val = 43 then 62
  else if c.val = 47 then 63
  else if c.val = 61 then -2
  else -1

/-- The function `b64_encoded_len`, in `size_t` arithmetic. -/
def b64_encoded_len (bin_len : Nat) : Nat := u64 (u64 (bin_len + 2) / 3 * 4)

/-- The function `b64_decoded_maxlen`. -/
def b64_decoded_maxlen (b64_len : Nat) : Nat := b64_len / 4 * 3

/-- The loop of `b64_encode` over the input bytes from index `i` on, three per turn: the
characters stored in `out`, which is taken to have room for them. -/
def b64_encode_loop : List Byte → List Byte
  | [] => []
  | [a] =>
    let v := a.val <<< 16
    [B64.getD ((v >>> 18) &&& 63) 0, B64.getD ((v >>> 12) &&& 63) 0, 61, 61]
  | [a, b] =>
    let v := a.val <<< 16 ||| b.val <<< 8
    [B64.getD ((v >>> 18) &&& 63) 0, B64.getD ((v >>> 12) &&& 63) 0,
     B64.getD ((v >>> 6) &&& 63) 0, 61]
  | a :: b :: c :: rest =>
    let v := a.val <<< 16 ||| b.val <<< 8 ||| c.val
    [B64.getD ((v >>> 18) &&& 63) 0, B64.getD ((v >>> 12) &&& 63) 0,
     B64.getD ((v >>> 6) &&& 63) 0, B64.getD (v &&& 63) 0] ++ b64_encode_loop rest

/-- The function `b64_encode(in, inlen, out, outlen)`: the value returned, the characters
stored in `out` and the value stored in `*outlen`; `none` when `inlen` exceeds the
input object. -/
def b64_encode (inp : List Byte) (inlen : Nat) : Option (Int × List Byte × Nat) :=
  if inlen ≤ inp.length then some (0, b64_encode_loop (inp.take inlen), b64_encoded_len inlen)
  else none

/-- The body of `b64_decode` run when `qi == 4`, on the four values of `quad`: the bytes
stored in `out`.  `v` is a `uint32_t`. -/
def b64_quad_bytes (quad : List Int) : List Byte :=
  let pad := (quad.filter (fun q => q == -2)).length
  let v := quad.foldl (fun v q => u32 (v <<< 6 ||| (if q = -2 then 0 else q.toNat))) 0
  [(Fin.ofNat ((v >>> 16) &&& 255) : Byte)] ++
    (if pad < 2 then [(Fin.ofNat ((v >>> 8) &&& 255) : Byte)] else []) ++
    (if pad < 1 then [(Fin.ofNat (v &&& 255) : Byte)] else [])

/-- The loop of `b64_decode` over the input characters, with the values gathered in
`quad` and the bytes stored in `out` so far. -/
def b64_decode_loop : List Byte → List Int → List Byte → List Byte
  | [], _, out => out
  | c :: rest, quad, out =>
    if b64_rev c = -1 then b64_decode_loop rest quad out
    else if (quad ++ [b64_rev c]).length = 4 then
      b64_decode_loop rest [] (out ++ b64_quad_bytes (quad ++ [b64_rev c]))
    else b64_decode_loop rest (quad ++ [b64_rev c]) out

/-- The function `b64_decode(in, inlen, out, outlen)`: the value returned, the bytes stored
in `out` (taken to have room for them) and the value stored in `*outlen`; `none` when
`inlen` exceeds the input object. -/
def b64_decode (inp : List Byte) (inlen : Nat) : Option (Int × List Byte × Nat) :=
  if inlen ≤ inp.length then
    some (0, b64_decode_loop (inp.take inlen) [] [],
      (b64_decode_loop (inp.take inlen) [] []).length)
  else none


/-! ## The IQ ring with producer and consumer interleaved (`soapy.c`, `wfmd.c`) -/

/-- The first part of `demod_from_iq_ring` (`wfmd.c`), from the atomic loads of `rpos` and
`wpos` to the last `memcpy`: the value `r + bytes` the function is about to store and the
block copied to `tmp`, or `some none` when the function returns before copying.  The
result is `none` when a `memcpy` would read outside the payload. -/
def demod_load (active : Bool) (h : phiq_hdr_t) : Option (Option (Nat × List Byte)) :=
  if !active then some none
  else
    let cap := h.capacity
    let bps := h.bytes_per_samp
    if cap = 0 || bps = 0 then some none
    else
      let r := h.rpos
      let w := h.wpos
      let avail := if w > r then w - r else 0
      if avail < bps then some none
      else
        let max_bytes := 2 ^ 18
        let bytes0 := if avail > max_bytes then max_bytes else avail
        let bytes := bytes0 - bytes0 % bps
        if bytes = 0 then some none
        else
          let mod := r % cap
          let first := if mod + bytes > cap then cap - mod else bytes
          match read_at h.data mod first with
          | none => none
          | some t1 =>
            match (if first < bytes then read_at h.data 0 (bytes - first) else some []) with
            | none => none
            | some t2 => some (some (u64 (r + bytes), t1 ++ t2))

/-- The last atomic operation of `demod_from_iq_ring`: `atomic_store(&h->rpos, r + bytes)`,
with the value computed from the `rpos` loaded at the start. -/
def demod_store (h : phiq_hdr_t) (new_r : Nat) : phiq_hdr_t := { h with rpos := new_r }

/-- What the two threads do next on the shared ring: the producer runs one ring write of
`rx_thread` whole, the consumer runs `demod_from_iq_ring` up to its last `memcpy`, or the
consumer performs its pending `rpos` store. -/
inductive RingAtom
  | produce (src : List Byte)
  | load
  | store
deriving DecidableEq, Repr

/-- The shared header and the consumer's local state: the value it is about to store to
`rpos`, when it is between its copy and its store. -/
structure RingThreads where
  hdr : phiq_hdr_t
  pending : Option Nat
deriving DecidableEq, Repr

/-- One step of the interleaving.  The consumer is one thread: it starts a drain only when
no store is pending, and stores only what it has pending. -/
def ring_atom (s : RingThreads) : RingAtom → Option RingThreads
  | .produce src => (rx_write s.hdr src).map (fun h1 => { s with hdr := h1 })
  | .load =>
    match s.pending with
    | some _ => some s
    | none =>
      match demod_load true s.hdr with
      | none => none
      | some none => some s
      | some (some (new_r, _)) => some { s with pending := some new_r }
  | .store =>
    match s.pending with
    | none => some s
    | some new_r => some { hdr := demod_store s.hdr new_r, pending := none }

/-- The state after a sequence of interleaved steps. -/
def ring_run : RingThreads → List RingAtom → Option RingThreads
  | s, [] => some s
  | s, a :: rest =>
    match ring_atom s a with
    | none => none
    | some s1 => ring_run s1 rest

/-- The interleaving in which the consumer is overtaken: on a fresh ring of 8 bytes with
4-byte frames the producer writes 4 bytes, the consumer loads and copies them, and before
the consumer stores `rpos` the producer writes 8 bytes and then 4 more. -/
def overtaken : List RingAtom :=
  [.produce [1, 2, 3, 4], .load, .produce [5, 6, 7, 8, 9, 10, 11, 12],
   .produce [13, 14, 15, 16]]
/-! ## Framing: lemmas -/

theorem write_at_mid {α : Type} (pre mid post data : List α) (h : data.length ≤ mid.length) :
    write_at (pre ++ mid ++ post) pre.length data
      = some ((pre ++ data) ++ mid.drop data.length ++ post) := by
  unfold write_at
  have hle : pre.length + data.length ≤ (pre ++ mid ++ post).length := by
    simp only [List.length_append]; omega
  rw [if_pos hle]
  congr 1
  have h1 : (pre ++ mid ++ post).take pre.length = pre := by
    rw [List.append_assoc, List.take_left]
  have h2 : (pre ++ mid ++ post).drop (pre.length + data.length) = mid.drop data.length ++ post := by
    rw [List.append_assoc, ← List.drop_drop, List.drop_left, List.drop_append_of_le_length h]
  rw [h1, h2]
  simp [List.append_assoc]

theorem xfer_le_req (got : Int) (req avail : Nat) : xfer got req avail ≤ req := by
  unfold xfer; split <;> omega

theorem xfer_le_avail (got : Int) (req avail : Nat) : xfer got req avail ≤ avail := by
  unfold xfer; split <;> omega

theorem xfer_pos (got : Int) (req avail : Nat) (hg : 0 < got) (hr : 0 < req) (ha : 0 < avail) :
    0 < xfer got req avail := by
  unfold xfer; rw [if_neg (by omega)]; omega

theorem read_full_loop_spec (len : Nat) : ∀ (script : List SelEv) (pre mid post inq : List Byte),
    pre.length + mid.length = len →
    ∃ r mid1, read_full_loop len script pre.length (pre ++ mid ++ post) inq = some r ∧
      r.buf = pre ++ mid1 ++ post ∧ mid1.length = mid.length ∧ (r.ret = 0 ∨ r.ret = -1) ∧
      (r.ret = 0 → mid1 = inq.take mid.length ∧ mid.length ≤ inq.length ∧
        r.inq = inq.drop mid.length) ∧
      ((∀ ev ∈ script, 0 < ev.rc ∧ 0 < ev.got) → mid.length ≤ inq.length →
        mid.length ≤ script.length → r.ret = 0) ∧
      ∃ k, r.script = script.drop k ∧
        ((∀ ev ∈ script, 0 < ev.rc ∧ 0 < ev.got) → k ≤ mid.length) := by
  intro script
  induction script with
  | nil =>
    intro pre mid post inq hlen
    by_cases hoff : pre.length < len
    · refine ⟨⟨-1, pre ++ mid ++ post, inq, []⟩, mid, ?_, rfl, rfl, Or.inr rfl, ?_, ?_,
        ⟨0, rfl, fun _ => Nat.zero_le _⟩⟩
      · simp [read_full_loop, hoff]
      · intro h; simp at h
      · intro _ _ h3
        have h3b : mid.length ≤ 0 := h3
        omega
    · have hm : mid = [] := List.eq_nil_of_length_eq_zero (by omega)
      subst hm
      refine ⟨⟨0, pre ++ [] ++ post, inq, []⟩, [], ?_, rfl, rfl, Or.inl rfl, ?_, ?_,
        ⟨0, rfl, fun _ => Nat.zero_le _⟩⟩
      · simp [read_full_loop, hoff]
      · intro _; simp
      · intro _ _ _; rfl
  | cons ev rest ih =>
    intro pre mid post inq hlen
    by_cases hoff : pre.length < len
    · by_cases hrc : ev.rc ≤ 0
      · by_cases he : ev.eintr = true
        · obtain ⟨r, mid1, h1, h2, h3, h4, h5, h6, k, h7, h8⟩ := ih pre mid post inq hlen
          refine ⟨r, mid1, ?_, h2, h3, h4, h5, ?_, ⟨k + 1, ?_, ?_⟩⟩
          · simp only [read_full_loop, hoff, hrc, he, if_true]
            exact h1
          · intro hg _ _
            have := (hg ev (List.mem_cons_self _ _)).1
            omega
          · rw [h7]; rfl
          · intro hg
            have := (hg ev (List.mem_cons_self _ _)).1
            omega
        · refine ⟨⟨-1, pre ++ mid ++ post, inq, rest⟩, mid, ?_, rfl, rfl, Or.inr rfl, ?_, ?_,
            ⟨1, rfl, fun _ => by omega⟩⟩
          · simp [read_full_loop, hoff, hrc, he]
          · intro h; simp at h
          · intro hg _ _
            have := (hg ev (List.mem_cons_self _ _)).1
            omega
      · by_cases hg0 : xfer ev.got (len - pre.length) inq.length = 0
        · refine ⟨⟨-1, pre ++ mid ++ post, inq, rest⟩, mid, ?_, rfl, rfl, Or.inr rfl, ?_, ?_,
            ⟨1, rfl, fun _ => by omega⟩⟩
          · simp [read_full_loop, hoff, hrc, hg0]
          · intro h; simp at h
          · intro hg hin _
            have hp := xfer_pos ev.got (len - pre.length) inq.length
              (hg ev (List.mem_cons_self _ _)).2 (by omega) (by omega)
            omega
        · have hq1 := xfer_le_req ev.got (len - pre.length) inq.length
          have hq2 := xfer_le_avail ev.got (len - pre.length) inq.length
          generalize hgdef : xfer ev.got (len - pre.length) inq.length = g at hg0 hq1 hq2
          have hlt : (inq.take g).length = g := by simp; omega
          have hw := write_at_mid pre mid post (inq.take g) (by rw [hlt]; omega)
          rw [hlt] at hw
          obtain ⟨r, mid1, h1, h2, h3, h4, h5, h6, k, h7, h8⟩ :=
            ih (pre ++ inq.take g) (mid.drop g) post (inq.drop g)
              (by simp only [List.length_append, List.length_drop, hlt]; omega)
          refine ⟨r, inq.take g ++ mid1, ?_, ?_, ?_, h4, ?_, ?_, ⟨k + 1, ?_, ?_⟩⟩
          · have hl2 : (pre ++ inq.take g).length = pre.length + g := by
              simp only [List.length_append, hlt]
            rw [hl2] at h1
            simp only [read_full_loop, hoff, hrc, hgdef, hg0, hw, if_true, if_false]
            simpa using h1
          · rw [h2]; simp [List.append_assoc]
          · simp only [List.length_append, hlt, h3, List.length_drop]; omega
          · intro hr0
            obtain ⟨ha, hb, hc⟩ := h5 hr0
            simp only [List.length_drop] at ha hb hc
            refine ⟨?_, by omega, ?_⟩
            · rw [ha]
              have : mid.length = g + (mid.length - g) := by omega
              conv_rhs => rw [this, List.take_add]
            · rw [hc, List.drop_drop]; congr 1; omega
          · intro hg hin hsl
            apply h6
            · intro e he; exact hg e (List.mem_cons_of_mem _ he)
            · simp only [List.length_drop]; omega
            · simp only [List.length_drop]; simp at hsl; omega
          · rw [h7]; rfl
          · intro hg
            have := h8 (fun e he => hg e (List.mem_cons_of_mem _ he))
            simp only [List.length_drop] at this
            omega
    · have hm : mid = [] := List.eq_nil_of_length_eq_zero (by omega)
      subst hm
      refine ⟨⟨0, pre ++ [] ++ post, inq, ev :: rest⟩, [], ?_, rfl, rfl, Or.inl rfl, ?_, ?_,
        ⟨0, rfl, fun _ => Nat.zero_le _⟩⟩
      · simp [read_full_loop, hoff]
      · intro _; simp
      · intro _ _ _; rfl

theorem recv_all_timeout_loop_spec (len : Nat) : ∀ (script : List SelEv) (pre mid post inq : List Byte),
    pre.length + mid.length = len →
    ∃ r mid1, recv_all_timeout_loop len script pre.length (pre ++ mid ++ post) inq = some r ∧
      r.buf = pre ++ mid1 ++ post ∧ mid1.length = mid.length ∧ (r.ret = 0 ∨ r.ret = -1) ∧
      (r.ret = 0 → mid1 = inq.take mid.length ∧ mid.length ≤ inq.length ∧
        r.inq = inq.drop mid.length) ∧
      ((∀ ev ∈ script, 0 < ev.rc ∧ 0 < ev.got) → mid.length ≤ inq.length →
        mid.length ≤ script.length → r.ret = 0) ∧
      ∃ k, r.script = script.drop k ∧
        ((∀ ev ∈ script, 0 < ev.rc ∧ 0 < ev.got) → k ≤ mid.length) := by
  intro script
  induction script with
  | nil =>
    intro pre mid post inq hlen
    by_cases hoff : pre.length < len
    · refine ⟨⟨-1, pre ++ mid ++ post, inq, []⟩, mid, ?_, rfl, rfl, Or.inr rfl, ?_, ?_,
        ⟨0, rfl, fun _ => Nat.zero_le _⟩⟩
      · simp [recv_all_timeout_loop, hoff]
      · intro h; simp at h
      · intro _ _ h3
        have h3b : mid.length ≤ 0 := h3
        omega
    · have hm : mid = [] := List.eq_nil_of_length_eq_zero (by omega)
      subst hm
      refine ⟨⟨0, pre ++ [] ++ post, inq, []⟩, [], ?_, rfl, rfl, Or.inl rfl, ?_, ?_,
        ⟨0, rfl, fun _ => Nat.zero_le _⟩⟩
      · simp [recv_all_timeout_loop, hoff]
      · intro _; simp
      · intro _ _ _; rfl
  | cons ev rest ih =>
    intro pre mid post inq hlen
    by_cases hoff : pre.length < len
    · by_cases hrc : ev.rc ≤ 0
      · by_cases hz : ev.rc = 0
        · refine ⟨⟨-1, pre ++ mid ++ post, inq, rest⟩, mid, ?_, rfl, rfl, Or.inr rfl, ?_, ?_,
            ⟨1, rfl, fun _ => by omega⟩⟩
          · simp [recv_all_timeout_loop, hoff, hz]
          · intro h; simp at h
          · intro hg _ _
            have := (hg ev (List.mem_cons_self _ _)).1
            omega
        · have hneg : ev.rc < 0 := by omega
          by_cases he : ev.eintr = true
          · obtain ⟨r, mid1, h1, h2, h3, h4, h5, h6, k, h7, h8⟩ := ih pre mid post inq hlen
            refine ⟨r, mid1, ?_, h2, h3, h4, h5, ?_, ⟨k + 1, ?_, ?_⟩⟩
            · simp only [recv_all_timeout_loop, hoff, hz, hneg, he, if_true, if_false]
              exact h1
            · intro hg _ _
              have := (hg ev (List.mem_cons_self _ _)).1
              omega
            · rw [h7]; rfl
            · intro hg
              have := (hg ev (List.mem_cons_self _ _)).1
              omega
          · refine ⟨⟨-1, pre ++ mid ++ post, inq, rest⟩, mid, ?_, rfl, rfl, Or.inr rfl, ?_, ?_,
              ⟨1, rfl, fun _ => by omega⟩⟩
            · simp [recv_all_timeout_loop, hoff, hz, hneg, he]
            · intro h; simp at h
            · intro hg _ _
              have := (hg ev (List.mem_cons_self _ _)).1
              omega
      · by_cases hg0 : xfer ev.got (len - pre.length) inq.length = 0
        · refine ⟨⟨-1, pre ++ mid ++ post, inq, rest⟩, mid, ?_, rfl, rfl, Or.inr rfl, ?_, ?_,
            ⟨1, rfl, fun _ => by omega⟩⟩
          · have hz : ¬ ev.rc = 0 := by omega
            have hneg : ¬ ev.rc < 0 := by omega
            simp [recv_all_timeout_loop, hoff, hz, hneg, hg0]
          · intro h; simp at h
          · intro hg hin _
            have hp := xfer_pos ev.got (len - pre.length) inq.length
              (hg ev (List.mem_cons_self _ _)).2 (by omega) (by omega)
            omega
        · have hq1 := xfer_le_req ev.got (len - pre.length) inq.length
          have hq2 := xfer_le_avail ev.got (len - pre.length) inq.length
          generalize hgdef : xfer ev.got (len - pre.length) inq.length = g at hg0 hq1 hq2
          have hlt : (inq.take g).length = g := by simp; omega
          have hw := write_at_mid pre mid post (inq.take g) (by rw [hlt]; omega)
          rw [hlt] at hw
          obtain ⟨r, mid1, h1, h2, h3, h4, h5, h6, k, h7, h8⟩ :=
            ih (pre ++ inq.take g) (mid.drop g) post (inq.drop g)
              (by simp only [List.length_append, List.length_drop, hlt]; omega)
          refine ⟨r, inq.take g ++ mid1, ?_, ?_, ?_, h4, ?_, ?_, ⟨k + 1, ?_, ?_⟩⟩
          · have hl2 : (pre ++ inq.take g).length = pre.length + g := by
              simp only [List.length_append, hlt]
            rw [hl2] at h1
            have hz : ¬ ev.rc = 0 := by omega
            have hneg : ¬ ev.rc < 0 := by omega
            simp only [recv_all_timeout_loop, hoff, hz, hneg, hgdef, hg0, hw, if_true, if_false]
            simpa using h1
          · rw [h2]; simp [List.append_assoc]
          · simp only [List.length_append, hlt, h3, List.length_drop]; omega
          · intro hr0
            obtain ⟨ha, hb, hc⟩ := h5 hr0
            simp only [List.length_drop] at ha hb hc
            refine ⟨?_, by omega, ?_⟩
            · rw [ha]
              have : mid.length = g + (mid.length - g) := by omega
              conv_rhs => rw [this, List.take_add]
            · rw [hc, List.drop_drop]; congr 1; omega
          · intro hg hin hsl
            apply h6
            · intro e he; exact hg e (List.mem_cons_of_mem _ he)
            · simp only [List.length_drop]; omega
            · simp only [List.length_drop]; simp at hsl; omega
          · rw [h7]; rfl
          · intro hg
            have := h8 (fun e he => hg e (List.mem_cons_of_mem _ he))
            simp only [List.length_drop] at this
            omega
    · have hm : mid = [] := List.eq_nil_of_length_eq_zero (by omega)
      subst hm
      refine ⟨⟨0, pre ++ [] ++ post, inq, ev :: rest⟩, [], ?_, rfl, rfl, Or.inl rfl, ?_, ?_,
        ⟨0, rfl, fun _ => Nat.zero_le _⟩⟩
      · simp [recv_all_timeout_loop, hoff]
      · intro _; simp
      · intro _ _ _; rfl

theorem ntohl_htonl (n : Nat) : ntohl (htonl n) = n % 2 ^ 32 := by
  simp only [ntohl, htonl, List.getD_cons_zero, List.getD_cons_succ, Fin.ofNat]
  omega

theorem htonl_length (n : Nat) : (htonl n).length = 4 := rfl

theorem wxfer_le (w : Int) (req : Nat) : wxfer w req ≤ req := by
  unfold wxfer; split <;> omega

theorem wxfer_pos (w : Int) (req : Nat) (hw : 0 < w) (hr : 0 < req) : 0 < wxfer w req := by
  unfold wxfer; rw [if_neg (by omega)]; omega

theorem send_loop_spec (src : List Byte) (len : Nat) :
    ∀ (script : List WriteEv) (off : Nat) (out : List Byte), off ≤ len →
      ((send_loop src len script off out).ret = 0 ∨ (send_loop src len script off out).ret = -1) ∧
      ((send_loop src len script off out).ret = 0 →
        (send_loop src len script off out).out = out ++ (src.drop off).take (len - off)) ∧
      ((∀ ev ∈ script, 0 < ev.w) → len - off ≤ script.length →
        (send_loop src len script off out).ret = 0) := by
  intro script
  induction script with
  | nil =>
    intro off out hoff
    by_cases h : off < len
    · simp [send_loop, h]; omega
    · have : len - off = 0 := by omega
      simp [send_loop, h, this]
  | cons ev rest ih =>
    intro off out hoff
    by_cases h : off < len
    · by_cases hw : wxfer ev.w (len - off) = 0
      · by_cases he : ev.eintr = true
        · obtain ⟨h1, h2, h3⟩ := ih off out hoff
          simp only [send_loop, h, hw, he, if_true]
          refine ⟨h1, h2, ?_⟩
          intro hg _
          have := wxfer_pos ev.w (len - off) (hg ev (List.mem_cons_self _ _)) (by omega)
          omega
        · simp only [send_loop, h, hw, he, if_true, if_false]
          refine ⟨Or.inr rfl, by intro hh; simp at hh, ?_⟩
          intro hg _
          have := wxfer_pos ev.w (len - off) (hg ev (List.mem_cons_self _ _)) (by omega)
          omega
      · have hle := wxfer_le ev.w (len - off)
        simp only [send_loop, h, hw, if_true, if_false]
        generalize wxfer ev.w (len - off) = w at hw hle
        obtain ⟨h1, h2, h3⟩ := ih (off + w) (out ++ (src.drop off).take w) (by omega)
        refine ⟨h1, ?_, ?_⟩
        · intro hr
          rw [h2 hr, List.append_assoc]
          congr 1
          have e1 : len - off = w + (len - (off + w)) := by omega
          rw [e1, List.take_add, List.drop_drop]
        · intro hg hl
          apply h3
          · intro e he; exact hg e (List.mem_cons_of_mem _ he)
          · simp at hl; omega
    · have : len - off = 0 := by omega
      simp [send_loop, h, this]

theorem send_frame_json_spec (S : List Byte) (script : List WriteEv) (out : List Byte) :
    ((send_frame_json S S.length script out).ret = 0 →
      (send_frame_json S S.length script out).out = out ++ htonl S.length ++ S) ∧
    ((∀ ev ∈ script, 4 ≤ ev.w) → S.length + 1 ≤ script.length →
      (send_frame_json S S.length script out).ret = 0) := by
  cases script with
  | nil => simp [send_frame_json]
  | cons ev rest =>
    by_cases hw : wxfer ev.w 4 = 4
    · obtain ⟨_, h2, h3⟩ := send_loop_spec S S.length rest 0 (out ++ htonl S.length)
        (Nat.zero_le _)
      simp only [send_frame_json, hw, ne_eq, not_true_eq_false, if_false]
      refine ⟨?_, ?_⟩
      · intro hr
        rw [h2 hr]; simp
      · intro hg hl
        apply h3
        · intro e he
          have := hg e (List.mem_cons_of_mem _ he)
          omega
        · simp at hl; omega
    · simp only [send_frame_json, hw, ne_eq, not_false_eq_true, if_true]
      refine ⟨by intro hh; simp at hh, ?_⟩
      intro hg _
      have h4 := hg ev (List.mem_cons_self _ _)
      exfalso; apply hw
      unfold wxfer; rw [if_neg (by omega)]; omega

theorem delivers_drop (script : List SelEv) (k : Nat) (h : delivers script) :
    delivers (script.drop k) :=
  fun ev hev => h ev (List.mem_of_mem_drop hev)

theorem read_full_hdr (script : List SelEv) (inq : List Byte) :
    ∃ r, read_full [0, 0, 0, 0] 4 script inq = some r ∧ (r.ret = 0 ∨ r.ret = -1) ∧
      (r.ret = 0 → r.buf = inq.take 4 ∧ 4 ≤ inq.length ∧ r.inq = inq.drop 4) ∧
      (delivers script → 4 ≤ inq.length → 4 ≤ script.length → r.ret = 0) ∧
      ∃ k, r.script = script.drop k ∧ (delivers script → k ≤ 4) := by
  obtain ⟨r, mid1, h1, h2, _, h4, h5, h6, h7⟩ :=
    read_full_loop_spec 4 script [] [0, 0, 0, 0] [] inq rfl
  simp only [List.length_nil, List.nil_append, List.append_nil] at h1 h2
  refine ⟨r, h1, h4, ?_, h6, h7⟩
  intro h0
  obtain ⟨ha, hb, hc⟩ := h5 h0
  exact ⟨by rw [h2, ha]; rfl, hb, hc⟩

theorem recv_all_timeout_hdr (script : List SelEv) (inq : List Byte) :
    ∃ r, recv_all_timeout [0, 0, 0, 0] 4 script inq = some r ∧ (r.ret = 0 ∨ r.ret = -1) ∧
      (r.ret = 0 → r.buf = inq.take 4 ∧ 4 ≤ inq.length ∧ r.inq = inq.drop 4) ∧
      (delivers script → 4 ≤ inq.length → 4 ≤ script.length → r.ret = 0) ∧
      ∃ k, r.script = script.drop k ∧ (delivers script → k ≤ 4) := by
  obtain ⟨r, mid1, h1, h2, _, h4, h5, h6, h7⟩ :=
    recv_all_timeout_loop_spec 4 script [] [0, 0, 0, 0] [] inq rfl
  simp only [List.length_nil, List.nil_append, List.append_nil] at h1 h2
  refine ⟨r, h1, h4, ?_, h6, h7⟩
  intro h0
  obtain ⟨ha, hb, hc⟩ := h5 h0
  exact ⟨by rw [h2, ha]; rfl, hb, hc⟩

theorem read_full_payload (buf : List Byte) (L : Nat) (hL : L ≤ buf.length)
    (script : List SelEv) (inq : List Byte) :
    ∃ r mid1, read_full buf L script inq = some r ∧ r.buf = mid1 ++ buf.drop L ∧
      mid1.length = L ∧ (r.ret = 0 ∨ r.ret = -1) ∧
      (r.ret = 0 → mid1 = inq.take L ∧ L ≤ inq.length ∧ r.inq = inq.drop L) ∧
      (delivers script → L ≤ inq.length → L ≤ script.length → r.ret = 0) := by
  have hm : (buf.take L).length = L := by simp; omega
  obtain ⟨r, mid1, h1, h2, h3, h4, h5, h6, _⟩ :=
    read_full_loop_spec L script [] (buf.take L) (buf.drop L) inq (by simp; omega)
  simp only [List.length_nil, List.nil_append, List.take_append_drop, hm] at h1 h2 h3 h5 h6
  exact ⟨r, mid1, h1, h2, h3, h4, h5, h6⟩

theorem write_nul (mid1 buf : List Byte) (L : Nat) (hm : mid1.length = L) (hL : L < buf.length) :
    write_at (mid1 ++ buf.drop L) L [0] = some (mid1 ++ [0] ++ buf.drop (L + 1)) := by
  have h := write_at_mid mid1 (buf.drop L) [] [0] (by simp; omega)
  simp only [List.append_nil, hm, List.length_singleton, List.drop_drop] at h
  rw [h]

/-- Everything `recv_frame_json` can do, by the length `L` that the first four queued
bytes announce. -/
theorem recv_frame_json_spec (buf : List Byte) (bufcap : Nat) (script : List SelEv)
    (inq : List Byte)
    (hcap : 4 ≤ inq.length → ntohl (inq.take 4) < bufcap → bufcap ≤ buf.length) :
    ∃ r, recv_frame_json buf bufcap script inq = some r ∧
      ((r.ret = -1 ∧ r.buf = buf) ∨
       (4 ≤ inq.length ∧ ntohl (inq.take 4) < bufcap ∧ r.ret = -1 ∧
          ∃ mid1, mid1.length = ntohl (inq.take 4) ∧
            r.buf = mid1 ++ buf.drop (ntohl (inq.take 4))) ∨
       (4 ≤ inq.length ∧ ntohl (inq.take 4) < bufcap ∧
          ntohl (inq.take 4) ≤ (inq.drop 4).length ∧ r.ret = to_int (ntohl (inq.take 4)) ∧
          r.buf = (inq.drop 4).take (ntohl (inq.take 4)) ++ [0] ++
            buf.drop (ntohl (inq.take 4) + 1) ∧
          r.inq = (inq.drop 4).drop (ntohl (inq.take 4)))) ∧
      (delivers script → 4 ≤ inq.length → ntohl (inq.take 4) < bufcap →
        4 + ntohl (inq.take 4) ≤ inq.length → 4 + ntohl (inq.take 4) ≤ script.length →
        r.ret = to_int (ntohl (inq.take 4)) ∧
        r.buf = (inq.drop 4).take (ntohl (inq.take 4)) ++ [0] ++
          buf.drop (ntohl (inq.take 4) + 1) ∧
        r.inq = (inq.drop 4).drop (ntohl (inq.take 4))) := by
  obtain ⟨r1, e1, hret1, hok1, hlive1, k, hk, hk4⟩ := read_full_hdr script inq
  unfold recv_frame_json
  rw [e1]
  rcases hret1 with h0 | hm1
  · obtain ⟨hb, h4, hq⟩ := hok1 h0
    simp only [h0, lt_self_iff_false, if_false, hb]
    by_cases hbig : ntohl (inq.take 4) ≥ bufcap
    · simp only [hbig, if_true]
      refine ⟨_, rfl, Or.inl ⟨rfl, rfl⟩, ?_⟩
      intro _ _ hlt; omega
    · simp only [hbig, if_false]
      have hL : ntohl (inq.take 4) < buf.length := by
        have := hcap h4 (by omega); omega
      generalize ntohl (inq.take 4) = L at hbig hL ⊢
      obtain ⟨r2, mid1, e2, hb2, hm2, hret2, hok2, hlive2⟩ :=
        read_full_payload buf L (by omega) r1.script r1.inq
      rw [e2]
      rcases hret2 with h20 | h2m
      · obtain ⟨hc1, hc2, hc3⟩ := hok2 h20
        simp only [h20, lt_self_iff_false, if_false, hb2, write_nul mid1 buf L hm2 hL]
        have hbuf : mid1 ++ [0] ++ buf.drop (L + 1)
            = (inq.drop 4).take L ++ [0] ++ buf.drop (L + 1) := by simp only [hc1, hq]
        have hinq : r2.inq = (inq.drop 4).drop L := by simp only [hc3, hq]
        refine ⟨_, rfl, Or.inr (Or.inr ⟨h4, by omega, ?_, rfl, hbuf, hinq⟩),
          fun _ _ _ _ _ => ⟨rfl, hbuf, hinq⟩⟩
        rw [← hq]; exact hc2
      · have hneg : r2.ret < 0 := by omega
        simp only [hneg, if_true]
        refine ⟨_, rfl, Or.inr (Or.inl ⟨h4, by omega, rfl, mid1, hm2, hb2⟩), ?_⟩
        intro hd _ _ hin hsl
        exfalso
        have hd2 : delivers r1.script := by rw [hk]; exact delivers_drop _ _ hd
        have hk4b := hk4 hd
        have := hlive2 hd2 (by rw [hq]; simp; omega) (by rw [hk]; simp; omega)
        omega
  · have hneg : r1.ret < 0 := by omega
    simp only [hneg, if_true]
    refine ⟨_, rfl, Or.inl ⟨rfl, rfl⟩, ?_⟩
    intro hd h4 _ _ hsl
    have := hlive1 hd h4 (by omega)
    omega

/-- What one `recvmsg` can return: -1, or a count within the request, within what is
queued and within `MAX_RW_COUNT`. -/
theorem recvmsg_ret_cases (ev : Option SelEv) (len avail : Nat) :
    recvmsg_ret ev len avail = -1 ∨
    ∃ n : Nat, recvmsg_ret ev len avail = (n : Int) ∧ n ≤ len ∧ n ≤ avail ∧
      n ≤ MAX_RW_COUNT := by
  unfold recvmsg_ret
  cases ev with
  | none => exact Or.inl rfl
  | some e =>
    dsimp only
    by_cases h1 : e.got < 0
    · rw [if_pos h1]; exact Or.inl rfl
    · rw [if_neg h1]
      by_cases h2 : avail = 0
      · rw [if_pos h2]
        by_cases h3 : e.got = 0
        · rw [if_pos h3]; exact Or.inr ⟨0, rfl, by omega, by omega, by omega⟩
        · rw [if_neg h3]; exact Or.inl rfl
      · rw [if_neg h2]
        exact Or.inr ⟨min len (min avail MAX_RW_COUNT), rfl, by omega, by omega, by omega⟩

theorem recvmsg_ret_bounds (ev : Option SelEv) (len avail : Nat) :
    (recvmsg_ret ev len avail).toNat ≤ len ∧ (recvmsg_ret ev len avail).toNat ≤ avail ∧
    (recvmsg_ret ev len avail = (len : Int) → len ≤ avail ∧ len ≤ MAX_RW_COUNT) := by
  rcases recvmsg_ret_cases ev len avail with h | ⟨n, h, h1, h2, h3⟩
  · rw [h]; refine ⟨by simp, by simp, ?_⟩
    intro hc; omega
  · rw [h]; refine ⟨by simpa using h1, by simpa using h2, ?_⟩
    intro hc
    have : n = len := by omega
    omega

/-- A `recvmsg` that does not fail, with the whole request queued and within
`MAX_RW_COUNT`, returns the request. -/
theorem recvmsg_ret_full (e : SelEv) (len avail : Nat) (hg : 0 ≤ e.got) (ha : 0 < avail)
    (hl : len ≤ avail) (hm : len ≤ MAX_RW_COUNT) :
    recvmsg_ret (some e) len avail = (len : Int) := by
  unfold recvmsg_ret
  dsimp only
  rw [if_neg (by omega), if_neg (by omega)]
  congr 1
  omega

/-- Everything `recv_frame_json_with_fds` can do, by the length `L` that the first four
queued bytes announce. -/
theorem recv_frame_json_with_fds_spec (json_out : List Byte) (outcap : Nat) (hf : Bool)
    (nf : Option Nat) (cmsgs : List Cmsg) (script : List SelEv) (inq : List Byte)
    (hcap : 4 ≤ inq.length → ntohl (inq.take 4) < outcap → outcap ≤ json_out.length) :
    ∃ r, recv_frame_json_with_fds json_out outcap hf nf cmsgs script inq = some r ∧
      ((r.ret = -1 ∧ r.buf = json_out) ∨
       (4 ≤ inq.length ∧ ntohl (inq.take 4) < outcap ∧ r.ret = -1 ∧
          ∃ mid1, mid1.length ≤ ntohl (inq.take 4) ∧
            r.buf = mid1 ++ json_out.drop mid1.length) ∨
       (4 ≤ inq.length ∧ ntohl (inq.take 4) < outcap ∧
          ntohl (inq.take 4) ≤ (inq.drop 4).length ∧
          ntohl (inq.take 4) ≤ MAX_RW_COUNT ∧ r.ret = to_int (ntohl (inq.take 4)) ∧
          r.buf = (inq.drop 4).take (ntohl (inq.take 4)) ++ [0] ++
            json_out.drop (ntohl (inq.take 4) + 1) ∧
          r.inq = (inq.drop 4).drop (ntohl (inq.take 4)))) ∧
      (delivers script → 4 < inq.length → ntohl (inq.take 4) < outcap →
        4 + ntohl (inq.take 4) ≤ inq.length → ntohl (inq.take 4) ≤ MAX_RW_COUNT →
        5 ≤ script.length →
        r.ret = to_int (ntohl (inq.take 4)) ∧
        r.buf = (inq.drop 4).take (ntohl (inq.take 4)) ++ [0] ++
          json_out.drop (ntohl (inq.take 4) + 1) ∧
        r.inq = (inq.drop 4).drop (ntohl (inq.take 4))) := by
  obtain ⟨r1, e1, hret1, hok1, hlive1, k, hk, hk4⟩ := recv_all_timeout_hdr script inq
  unfold recv_frame_json_with_fds
  rw [e1]
  rcases hret1 with h0 | hm1
  · obtain ⟨hb, h4, hq⟩ := hok1 h0
    simp only [h0, lt_self_iff_false, if_false, hb]
    by_cases hbig : ntohl (inq.take 4) ≥ outcap
    · simp only [hbig, if_true]
      refine ⟨_, rfl, Or.inl ⟨rfl, rfl⟩, ?_⟩
      intro _ _ hlt; omega
    · simp only [hbig, if_false]
      have hL : ntohl (inq.take 4) < json_out.length := by
        have := hcap h4 (by omega); omega
      have hav : r1.inq.length = inq.length - 4 := by rw [hq]; simp
      generalize ntohl (inq.take 4) = L at hbig hL ⊢
      have hfull : delivers script → 4 < inq.length → 4 + L ≤ inq.length →
          L ≤ MAX_RW_COUNT → 5 ≤ script.length →
          recvmsg_ret r1.script.head? L r1.inq.length = (L : Int) := by
        intro hd h5 hin hmx hsl
        have hk4b := hk4 hd
        have hlt : k < script.length := by omega
        have hhd : r1.script.head? = some (script.get ⟨k, hlt⟩) := by
          rw [hk, List.head?_drop, List.getElem?_eq_getElem hlt]; rfl
        rw [hhd]
        have hpos := (hd _ (List.get_mem script k hlt)).2
        exact recvmsg_ret_full _ L _ (by omega) (by omega) (by omega) hmx
      obtain ⟨hn1, hn2, hn3⟩ := recvmsg_ret_bounds r1.script.head? L r1.inq.length
      generalize recvmsg_ret r1.script.head? L r1.inq.length = g at hfull hn1 hn2 hn3 ⊢
      have hgl : (r1.inq.take g.toNat).length = g.toNat := by
        rw [List.length_take]; omega
      have hw1 : write_at json_out 0 (r1.inq.take g.toNat)
          = some (r1.inq.take g.toNat ++ json_out.drop g.toNat) := by
        have h := write_at_mid [] json_out [] (r1.inq.take g.toNat)
          (by rw [hgl]; omega)
        simpa [hgl] using h
      rw [hw1]
      by_cases hg : g = (L : Int)
      · obtain ⟨hle, hmx⟩ := hn3 hg
        have hgn : g.toNat = L := by omega
        have hmid : (r1.inq.take L).length = L := by simp; omega
        simp only [hg, ne_eq, not_true_eq_false, if_false, Int.toNat_ofNat,
          write_nul _ json_out L hmid hL]
        have hbuf : r1.inq.take L ++ [0] ++ json_out.drop (L + 1)
            = (inq.drop 4).take L ++ [0] ++ json_out.drop (L + 1) := by rw [hq]
        have hinq : r1.inq.drop L = (inq.drop 4).drop L := by rw [hq]
        refine ⟨_, rfl, Or.inr (Or.inr ⟨h4, by omega, ?_, hmx, rfl, hbuf, hinq⟩),
          fun _ _ _ _ _ _ => ⟨rfl, hbuf, hinq⟩⟩
        rw [← hq]; exact hle
      · simp only [hg, ne_eq, not_false_eq_true, if_true]
        refine ⟨_, rfl, Or.inr (Or.inl ⟨h4, by omega, rfl, r1.inq.take g.toNat,
          by rw [hgl]; omega, by rw [hgl]⟩), ?_⟩
        intro hd h5 _ hin hmx hsl
        exact absurd (hfull hd h5 hin hmx hsl) hg
  · have hneg : r1.ret < 0 := by omega
    simp only [hneg, if_true]
    refine ⟨_, rfl, Or.inl ⟨rfl, rfl⟩, ?_⟩
    intro hd h4 _ _ _ hsl
    have := hlive1 hd (by omega) (by omega)
    omega

theorem to_int_of_lt (n : Nat) (h : n < 2 ^ 31) : to_int n = (n : Int) := by
  unfold to_int
  have : n % 2 ^ 32 = n := Nat.mod_eq_of_lt (by omega)
  rw [this, if_pos h]

theorem take_four_hdr (hdr rest : List Byte) (h4 : hdr.length = 4) :
    (hdr ++ rest).take 4 = hdr ∧ (hdr ++ rest).drop 4 = rest := by
  rw [← h4]; exact ⟨List.take_left _ _, List.drop_left _ _⟩

theorem front_overwrite_length (mid1 buf : List Byte) (hm : mid1.length ≤ buf.length) :
    (mid1 ++ buf.drop mid1.length).length = buf.length := by
  simp only [List.length_append, List.length_drop]; omega

theorem front_overwrite_get (mid1 buf : List Byte) (i : Nat) (hi : mid1.length ≤ i) :
    (mid1 ++ buf.drop mid1.length)[i]? = buf[i]? := by
  rw [List.getElem?_append_right hi, List.getElem?_drop]
  congr 1; omega

/-- Sending `S` and receiving it again with `recv_frame_json`: the value returned is
`(int)|S|`, the buffer holds `S` and a NUL. -/
theorem roundtrip_recv_frame_json (S buf : List Byte) (bufcap : Nat) (ws : List WriteEv)
    (rs : List SelEv) (hlen : S.length < bufcap) (h32 : S.length < 2 ^ 32)
    (hcap : bufcap ≤ buf.length) (htx : (send_frame_json S S.length ws []).ret = 0)
    (hd : delivers rs) (hrs : 4 + S.length ≤ rs.length) :
    ∃ r, recv_frame_json buf bufcap rs (send_frame_json S S.length ws []).out = some r ∧
      r.ret = to_int S.length ∧ r.buf = S ++ [0] ++ buf.drop (S.length + 1) ∧ r.inq = [] := by
  have hout := (send_frame_json_spec S ws []).1 htx
  rw [hout, List.nil_append]
  obtain ⟨ht, hdp⟩ := take_four_hdr (htonl S.length) S (htonl_length _)
  have hL : ntohl ((htonl S.length ++ S).take 4) = S.length := by
    rw [ht, ntohl_htonl, Nat.mod_eq_of_lt h32]
  obtain ⟨r, hr, _, hlive⟩ := recv_frame_json_spec buf bufcap rs (htonl S.length ++ S)
    (fun _ _ => hcap)
  have h4 : 4 ≤ (htonl S.length ++ S).length := by
    simp only [List.length_append, htonl_length]; omega
  have hin : 4 + S.length ≤ (htonl S.length ++ S).length := by
    simp only [List.length_append, htonl_length]; omega
  rw [hL] at hlive
  obtain ⟨h1, h2, h3⟩ := hlive hd h4 hlen hin hrs
  refine ⟨r, hr, h1, ?_, ?_⟩
  · rw [h2, hdp, List.take_length]
  · rw [h3, hdp, List.drop_length]

/-- A frame queued whole, its payload not empty and within what one `recvmsg` transfers,
is returned by `recv_frame_json_with_fds` when the kernel delivers. -/
theorem rx_frame_delivered (S buf : List Byte) (bufcap : Nat) (rs : List SelEv) (hf : Bool)
    (nf : Option Nat) (cmsgs : List Cmsg)
    (hlen : S.length < bufcap) (hpos : 0 < S.length) (hmax : S.length ≤ MAX_RW_COUNT)
    (hcap : bufcap ≤ buf.length) (hd : delivers rs) (hrs : 5 ≤ rs.length) :
    ∃ r, recv_frame_json_with_fds buf bufcap hf nf cmsgs rs (htonl S.length ++ S) = some r ∧
      r.ret = to_int S.length ∧ r.buf = S ++ [0] ++ buf.drop (S.length + 1) ∧ r.inq = [] := by
  obtain ⟨ht, hdp⟩ := take_four_hdr (htonl S.length) S (htonl_length _)
  have h32 : S.length < 2 ^ 32 := by unfold MAX_RW_COUNT at hmax; omega
  have hL : ntohl ((htonl S.length ++ S).take 4) = S.length := by
    rw [ht, ntohl_htonl, Nat.mod_eq_of_lt h32]
  obtain ⟨r, hr, _, hlive⟩ := recv_frame_json_with_fds_spec buf bufcap hf nf cmsgs rs
    (htonl S.length ++ S) (fun _ _ => hcap)
  have h4 : 4 < (htonl S.length ++ S).length := by
    simp only [List.length_append, htonl_length]; omega
  have hin : 4 + S.length ≤ (htonl S.length ++ S).length := by
    simp only [List.length_append, htonl_length]; omega
  rw [hL] at hlive
  obtain ⟨h1, h2, h3⟩ := hlive hd h4 hlen hin hmax hrs
  refine ⟨r, hr, h1, ?_, ?_⟩
  · rw [h2, hdp, List.take_length]
  · rw [h3, hdp, List.drop_length]

/-- Sending `S` and receiving it again with `recv_frame_json_with_fds`, the payload not
empty and within what one `recvmsg` transfers. -/
theorem roundtrip_recv_frame_json_with_fds (S buf : List Byte) (bufcap : Nat)
    (ws : List WriteEv) (rs : List SelEv) (hf : Bool) (nf : Option Nat) (cmsgs : List Cmsg)
    (hlen : S.length < bufcap) (hpos : 0 < S.length) (hmax : S.length ≤ MAX_RW_COUNT)
    (hcap : bufcap ≤ buf.length) (htx : (send_frame_json S S.length ws []).ret = 0)
    (hd : delivers rs) (hrs : 5 ≤ rs.length) :
    ∃ r, recv_frame_json_with_fds buf bufcap hf nf cmsgs rs
        (send_frame_json S S.length ws []).out = some r ∧
      r.ret = to_int S.length ∧ r.buf = S ++ [0] ++ buf.drop (S.length + 1) ∧ r.inq = [] := by
  have hout := (send_frame_json_spec S ws []).1 htx
  rw [hout, List.nil_append]
  exact rx_frame_delivered S buf bufcap rs hf nf cmsgs hlen hpos hmax hcap hd hrs

/-! ## Claims C2 and C3 -/

/-- Claim C2, as stated, fails at a frame of 2^31 bytes: the length fits the 32-bit
length word and the buffer, the frame is sent and received whole, but the value returned
is `(int)2147483648`, which is negative and therefore not the length of the frame. -/
theorem C2_counterexample_frame_of_2_pow_31_bytes :
    frame_2GiB.length < 2 ^ 31 + 1 ∧ frame_2GiB.length < 2 ^ 32 ∧
    (send_frame_json frame_2GiB frame_2GiB.length
        (List.replicate (2 ^ 31 + 1) ⟨4, false⟩) []).ret = 0 ∧
    delivers (List.replicate (2 ^ 31 + 4) ⟨1, false, 1⟩) ∧
    ∃ r, recv_frame_json (List.replicate (2 ^ 31 + 1) 0) (2 ^ 31 + 1)
        (List.replicate (2 ^ 31 + 4) ⟨1, false, 1⟩)
        (send_frame_json frame_2GiB frame_2GiB.length
          (List.replicate (2 ^ 31 + 1) ⟨4, false⟩) []).out = some r ∧
      r.ret = -2147483648 ∧ r.ret ≠ (frame_2GiB.length : Int) := by
  have hlen : frame_2GiB.length = 2 ^ 31 := List.length_replicate _ _
  have hws : ∀ ev ∈ List.replicate (2 ^ 31 + 1) (⟨4, false⟩ : WriteEv), 4 ≤ ev.w := by
    intro ev hev
    rw [List.eq_of_mem_replicate hev]
  have hd : delivers (List.replicate (2 ^ 31 + 4) ⟨1, false, 1⟩) := by
    intro ev hev
    rw [List.eq_of_mem_replicate hev]
    exact ⟨Int.one_pos, Int.one_pos⟩
  have htx := (send_frame_json_spec frame_2GiB (List.replicate (2 ^ 31 + 1) ⟨4, false⟩) []).2
    hws (by rw [hlen, List.length_replicate])
  obtain ⟨r, hr, hret, _, _⟩ := roundtrip_recv_frame_json frame_2GiB
    (List.replicate (2 ^ 31 + 1) 0) (2 ^ 31 + 1) (List.replicate (2 ^ 31 + 1) ⟨4, false⟩)
    (List.replicate (2 ^ 31 + 4) ⟨1, false, 1⟩) (by rw [hlen]; omega) (by rw [hlen]; omega)
    (by rw [List.length_replicate]) htx hd (by rw [hlen, List.length_replicate]; omega)
  have hv : to_int (2 ^ 31) = -2147483648 := by decide
  rw [hlen] at hret
  refine ⟨by rw [hlen]; omega, by rw [hlen]; omega, htx, hd, r, hr, by rw [hret, hv], ?_⟩
  rw [hret, hv, hlen]
  omega

/-- Claim C2 (amended): for every byte string `S` with `|S| < bufcap` and `|S| < 2^31`,
running `recv_frame_json` on exactly the bytes that a successful `send_frame_json(S)`
wrote (the kernel delivering them in chunks of any size) returns `|S|` and leaves `S` in
the caller's buffer followed by a NUL byte at index `|S|`; the rest of the buffer is
untouched and the stream is consumed whole.  `recv_frame_json_with_fds` does the same
when moreover `0 < |S| <= 0x7ffff000`: it reads the payload with one `recvmsg`, which
here has the whole payload queued and does not fail. -/
theorem C2_framing_roundtrip (S buf : List Byte) (bufcap : Nat) (ws : List WriteEv)
    (rs : List SelEv) (hf : Bool) (nf : Option Nat) (cmsgs : List Cmsg)
    (hlen : S.length < bufcap) (h31 : S.length < 2 ^ 31) (hcap : bufcap ≤ buf.length)
    (htx : (send_frame_json S S.length ws []).ret = 0)
    (hd : delivers rs) (hrs : 4 + S.length ≤ rs.length) :
    (∃ r, recv_frame_json buf bufcap rs (send_frame_json S S.length ws []).out = some r ∧
      r.ret = (S.length : Int) ∧ r.buf = S ++ [0] ++ buf.drop (S.length + 1) ∧ r.inq = []) ∧
    (0 < S.length → S.length ≤ MAX_RW_COUNT →
      ∃ r, recv_frame_json_with_fds buf bufcap hf nf cmsgs rs
        (send_frame_json S S.length ws []).out = some r ∧
      r.ret = (S.length : Int) ∧ r.buf = S ++ [0] ++ buf.drop (S.length + 1) ∧ r.inq = []) := by
  constructor
  · obtain ⟨r, h1, h2, h3, h4⟩ := roundtrip_recv_frame_json S buf bufcap ws rs hlen
      (by omega) hcap htx hd hrs
    exact ⟨r, h1, by rw [h2, to_int_of_lt _ h31], h3, h4⟩
  · intro hpos hmax
    obtain ⟨r, h1, h2, h3, h4⟩ := roundtrip_recv_frame_json_with_fds S buf bufcap ws rs hf nf
      cmsgs hlen hpos hmax hcap htx hd (by omega)
    exact ⟨r, h1, by rw [h2, to_int_of_lt _ h31], h3, h4⟩

/-- Claim C2 (amended) at a concrete frame: the three bytes `1 2 3`, written with short
writes and read back into an 8-byte buffer, by `recv_frame_json` two bytes at a time, by
`recv_frame_json_with_fds` with the length word two bytes at a time and the payload in
its one `recvmsg`. -/
theorem C2_framing_roundtrip_witness :
    (∃ r, recv_frame_json (List.replicate 8 9) 8 (List.replicate 7 ⟨1, false, 2⟩)
        (send_frame_json [1, 2, 3] 3 (List.replicate 4 ⟨4, false⟩) []).out = some r ∧
      r.ret = 3 ∧ r.buf = [1, 2, 3, 0, 9, 9, 9, 9] ∧ r.inq = []) ∧
    (∃ r, recv_frame_json_with_fds (List.replicate 8 9) 8 true (some 16) []
        (List.replicate 7 ⟨1, false, 2⟩)
        (send_frame_json [1, 2, 3] 3 (List.replicate 4 ⟨4, false⟩) []).out = some r ∧
      r.ret = 3 ∧ r.buf = [1, 2, 3, 0, 9, 9, 9, 9] ∧ r.inq = []) :=
  ⟨(C2_framing_roundtrip [1, 2, 3] (List.replicate 8 9) 8 (List.replicate 4 ⟨4, false⟩)
      (List.replicate 7 ⟨1, false, 2⟩) true (some 16) [] (by decide) (by decide) (by decide)
      (by decide) (by decide) (by decide)).1,
   (C2_framing_roundtrip [1, 2, 3] (List.replicate 8 9) 8 (List.replicate 4 ⟨4, false⟩)
      (List.replicate 7 ⟨1, false, 2⟩) true (some 16) [] (by decide) (by decide) (by decide)
      (by decide) (by decide) (by decide)).2 (by decide) (by decide)⟩

/-- Claim C3: for every 4-byte length word that decodes (big-endian) to `len >= bufcap`,
`recv_frame_json` and `recv_frame_json_with_fds` return -1 and leave the caller's buffer
as it was, whatever the kernel does; for `len < bufcap` (the buffer holding at least
`bufcap` bytes) no store leaves the buffer, the buffer keeps its size, and every index
above `len` keeps its byte, on success and on every failure path alike. -/
theorem C3_oversize_refused_writes_bounded (buf hdr rest : List Byte) (bufcap : Nat)
    (script : List SelEv) (hf : Bool) (nf : Option Nat) (cmsgs : List Cmsg)
    (h4 : hdr.length = 4) :
    (bufcap ≤ ntohl hdr →
      (∃ r, recv_frame_json buf bufcap script (hdr ++ rest) = some r ∧
        r.ret = -1 ∧ r.buf = buf) ∧
      (∃ r, recv_frame_json_with_fds buf bufcap hf nf cmsgs script (hdr ++ rest) = some r ∧
        r.ret = -1 ∧ r.buf = buf)) ∧
    (ntohl hdr < bufcap → bufcap ≤ buf.length →
      (∃ r, recv_frame_json buf bufcap script (hdr ++ rest) = some r ∧
        r.buf.length = buf.length ∧ ∀ i, ntohl hdr < i → r.buf[i]? = buf[i]?) ∧
      (∃ r, recv_frame_json_with_fds buf bufcap hf nf cmsgs script (hdr ++ rest) = some r ∧
        r.buf.length = buf.length ∧ ∀ i, ntohl hdr < i → r.buf[i]? = buf[i]?)) := by
  obtain ⟨ht, hdp⟩ := take_four_hdr hdr rest h4
  constructor
  · intro hbig
    constructor
    · obtain ⟨r, hr, hcases, _⟩ := recv_frame_json_spec buf bufcap script (hdr ++ rest)
        (by rw [ht]; intro _ hlt; omega)
      rw [ht] at hcases
      rcases hcases with ⟨h1, h2⟩ | ⟨_, hlt, _⟩ | ⟨_, hlt, _⟩
      · exact ⟨r, hr, h1, h2⟩
      · omega
      · omega
    · obtain ⟨r, hr, hcases, _⟩ := recv_frame_json_with_fds_spec buf bufcap hf nf cmsgs
        script (hdr ++ rest) (by rw [ht]; intro _ hlt; omega)
      rw [ht] at hcases
      rcases hcases with ⟨h1, h2⟩ | ⟨_, hlt, _⟩ | ⟨_, hlt, _⟩
      · exact ⟨r, hr, h1, h2⟩
      · omega
      · omega
  · intro hlt hcap
    constructor
    · obtain ⟨r, hr, hcases, _⟩ := recv_frame_json_spec buf bufcap script (hdr ++ rest)
        (fun _ _ => hcap)
      rw [ht, hdp] at hcases
      refine ⟨r, hr, ?_⟩
      rcases hcases with ⟨_, h2⟩ | ⟨_, _, _, mid1, hm, hb⟩ | ⟨_, _, hle, _, hb, _⟩
      · rw [h2]; exact ⟨rfl, fun _ _ => rfl⟩
      · rw [hb, ← hm]
        exact ⟨front_overwrite_length mid1 buf (by omega),
          fun i hi => front_overwrite_get mid1 buf i (by omega)⟩
      · have hm : (rest.take (ntohl hdr) ++ [0]).length = ntohl hdr + 1 := by
          simp only [List.length_append, List.length_take, List.length_singleton]; omega
        rw [hb, ← hm]
        exact ⟨front_overwrite_length _ buf (by omega),
          fun i hi => front_overwrite_get _ buf i (by omega)⟩
    · obtain ⟨r, hr, hcases, _⟩ := recv_frame_json_with_fds_spec buf bufcap hf nf cmsgs
        script (hdr ++ rest) (fun _ _ => hcap)
      rw [ht, hdp] at hcases
      refine ⟨r, hr, ?_⟩
      rcases hcases with ⟨_, h2⟩ | ⟨_, _, _, mid1, hm, hb⟩ | ⟨_, _, hle, _, _, hb, _⟩
      · rw [h2]; exact ⟨rfl, fun _ _ => rfl⟩
      · rw [hb]
        exact ⟨front_overwrite_length mid1 buf (by omega),
          fun i hi => front_overwrite_get mid1 buf i (by omega)⟩
      · have hm : (rest.take (ntohl hdr) ++ [0]).length = ntohl hdr + 1 := by
          simp only [List.length_append, List.length_take, List.length_singleton]; omega
        rw [hb, ← hm]
        exact ⟨front_overwrite_length _ buf (by omega),
          fun i hi => front_overwrite_get _ buf i (by omega)⟩

/-- Claim C3 at concrete streams: a length word of 9 against `bufcap = 8` is refused with
the buffer untouched, and a length word of 3 whose payload stops after two bytes leaves
every index above 3 as it was. -/
theorem C3_oversize_refused_writes_bounded_witness :
    ((∃ r, recv_frame_json (List.replicate 8 9) 8 (List.replicate 9 ⟨1, false, 4⟩)
          ([0, 0, 0, 9] ++ [1, 2, 3, 4, 5, 6, 7, 8, 9]) = some r ∧
        r.ret = -1 ∧ r.buf = List.replicate 8 9) ∧
      (∃ r, recv_frame_json_with_fds (List.replicate 8 9) 8 true (some 16) []
          (List.replicate 9 ⟨1, false, 4⟩)
          ([0, 0, 0, 9] ++ [1, 2, 3, 4, 5, 6, 7, 8, 9]) = some r ∧
        r.ret = -1 ∧ r.buf = List.replicate 8 9)) ∧
    ((∃ r, recv_frame_json (List.replicate 8 9) 8 (List.replicate 9 ⟨1, false, 4⟩)
          ([0, 0, 0, 3] ++ [1, 2]) = some r ∧
        r.buf.length = (List.replicate 8 (9 : Byte)).length ∧
        ∀ i, ntohl [0, 0, 0, 3] < i → r.buf[i]? = (List.replicate 8 (9 : Byte))[i]?) ∧
      (∃ r, recv_frame_json_with_fds (List.replicate 8 9) 8 true (some 16) []
          (List.replicate 9 ⟨1, false, 4⟩) ([0, 0, 0, 3] ++ [1, 2]) = some r ∧
        r.buf.length = (List.replicate 8 (9 : Byte)).length ∧
        ∀ i, ntohl [0, 0, 0, 3] < i → r.buf[i]? = (List.replicate 8 (9 : Byte))[i]?)) :=
  ⟨(C3_oversize_refused_writes_bounded (List.replicate 8 9) [0, 0, 0, 9]
      [1, 2, 3, 4, 5, 6, 7, 8, 9] 8 (List.replicate 9 ⟨1, false, 4⟩) true (some 16) []
      (by decide)).1 (by decide),
   (C3_oversize_refused_writes_bounded (List.replicate 8 9) [0, 0, 0, 3] [1, 2] 8
      (List.replicate 9 ⟨1, false, 4⟩) true (some 16) [] (by decide)).2
      (by decide) (by decide)⟩

/-! ## Feed table: lemmas -/

theorem feedtab_find_from_spec (name : List Byte) : ∀ (t : List feed_t) (i : Nat),
    (feedtab_find_from name t i = -1 ∧ t.find? (fun f => f.name = name) = none) ∨
    (∃ k f, feedtab_find_from name t i = ((i + k : Nat) : Int) ∧ t[k]? = some f ∧
      t.find? (fun f => f.name = name) = some f ∧ f.name = name) := by
  intro t
  induction t with
  | nil => intro i; left; simp [feedtab_find_from]
  | cons f fs ih =>
    intro i
    by_cases h : f.name = name
    · right
      exact ⟨0, f, by simp [feedtab_find_from, h], by simp, by simp [List.find?, h], h⟩
    · rcases ih (i + 1) with ⟨h1, h2⟩ | ⟨k, g, h1, h2, h3, h4⟩
      · left
        simp [feedtab_find_from, h, h1, List.find?, h2]
      · right
        refine ⟨k + 1, g, ?_, by simpa using h2, by simp [List.find?, h, h3], h4⟩
        simp only [feedtab_find_from, h, if_false, h1]
        congr 1; omega

theorem feedtab_find_spec (t : feedtab_t) (name : List Byte) :
    (feedtab_find t name = -1 ∧ t.find? (fun f => f.name = name) = none) ∨
    (∃ (k : Nat) (f : feed_t), feedtab_find t name = (k : Int) ∧ t[k]? = some f ∧
      t.find? (fun f => f.name = name) = some f ∧ f.name = name) := by
  rcases feedtab_find_from_spec name t 0 with h | ⟨k, f, h1, h2, h3, h4⟩
  · left; exact h
  · right; exact ⟨k, f, by rw [feedtab_find, h1]; simp, h2, h3, h4⟩

theorem unsub_loop_eq (fd : Int) : ∀ (fuel : Nat) (iv : intvec_t) (j : Nat),
    iv.length - j ≤ fuel →
    unsub_loop fd fuel iv j = iv.take j ++ (iv.drop j).filter (fun x => decide (x ≠ fd)) := by
  intro fuel
  induction fuel with
  | zero =>
    intro iv j h
    have hj : iv.length ≤ j := by omega
    simp [unsub_loop, List.take_of_length_le hj, List.drop_eq_nil_of_le hj]
  | succ n ih =>
    intro iv j h
    by_cases hj : j < iv.length
    · have hd : iv.drop j = iv[j] :: iv.drop (j + 1) := List.drop_eq_getElem_cons hj
      have hg : iv[j]? = some iv[j] := List.getElem?_eq_getElem hj
      by_cases hx : iv[j] = fd
      · have he : intvec_erase iv j = iv.take j ++ iv.drop (j + 1) := by
          simp [intvec_erase, hj]
        have hl : (iv.take j).length = j := by simp; omega
        have h1 : (iv.take j ++ iv.drop (j + 1)).take j = iv.take j := List.take_left' hl
        have h2 : (iv.take j ++ iv.drop (j + 1)).drop j = iv.drop (j + 1) :=
          List.drop_left' hl
        simp only [unsub_loop, hj, if_true, hg, hx, he]
        rw [ih _ j (by simp; omega), h1, h2, hd]
        simp [hx]
      · have hne : ¬ (some iv[j] = some fd) := by simpa using hx
        simp only [unsub_loop, hj, if_true, hg, hne, if_false]
        rw [ih iv (j + 1) (by omega), hd]
        have ht : iv.take (j + 1) = iv.take j ++ [iv[j]] := by
          rw [List.take_succ, hg]; rfl
        simp only [List.filter_cons, hx, ne_eq, not_false_eq_true, decide_True, if_true]
        rw [ht, List.append_assoc]; rfl
    · have hj2 : iv.length ≤ j := by omega
      simp [unsub_loop, hj, List.take_of_length_le hj2, List.drop_eq_nil_of_le hj2]

theorem unsub_loop_filter (fd : Int) (iv : intvec_t) :
    unsub_loop fd iv.length iv 0 = iv.filter (fun x => decide (x ≠ fd)) := by
  rw [unsub_loop_eq fd iv.length iv 0 (by omega)]
  simp

theorem feedtab_unsub_all_fd_eq (t : feedtab_t) (fd : Int) :
    feedtab_unsub_all_fd t fd
      = t.map (fun f => { f with subs := f.subs.filter (fun x => decide (x ≠ fd)) }) := by
  unfold feedtab_unsub_all_fd
  congr 1
  funext f
  rw [unsub_loop_filter]

theorem broadcast_to_subs_eq (t : feedtab_t) (feed json : List Byte) (len : Nat)
    (fds : List Int) (nfds : Nat) :
    broadcast_to_subs t feed json len fds nfds
      = (subscribers t feed).map (fun fd =>
          if nfds > 0 then Act.send_frame_json_with_fds fd json len fds nfds
          else Act.send_frame_json fd json len) := by
  unfold broadcast_to_subs subscribers
  rcases feedtab_find_spec t feed with ⟨h1, h2⟩ | ⟨k, f, h1, h2, h3, _⟩
  · simp [h1, h2]
  · have hk : ¬ ((k : Int) < 0) := by omega
    simp [h1, h2, h3, hk]

theorem feedtab_ensure_spec (t : feedtab_t) (name : List Byte) :
    (∃ (k : Nat) (f : feed_t), feedtab_ensure t name = (t, (k : Int)) ∧ t[k]? = some f ∧
      t.find? (fun f => f.name = name) = some f) ∨
    (t.find? (fun f => f.name = name) = none ∧
      feedtab_ensure t name
        = (t ++ [⟨name.take (POC_MAX_FEED - 1), []⟩], (t.length : Int))) := by
  unfold feedtab_ensure
  rcases feedtab_find_spec t name with ⟨h1, h2⟩ | ⟨k, f, h1, h2, h3, _⟩
  · right; simp [h1, h2]
  · left
    have hk : (k : Int) ≥ 0 := by omega
    exact ⟨k, f, by simp [h1, hk], h2, h3⟩

theorem feedtab_ensure_nodup (t : feedtab_t) (name : List Byte) (h : subs_nodup t) :
    subs_nodup (feedtab_ensure t name).1 := by
  rcases feedtab_ensure_spec t name with ⟨k, f, h1, _, _⟩ | ⟨_, h1⟩
  · rw [h1]; exact h
  · rw [h1]
    intro f hf
    rcases List.mem_append.1 hf with hf | hf
    · exact h f hf
    · simp only [List.mem_singleton] at hf
      rw [hf]; exact List.nodup_nil

theorem push_nodup (subs : intvec_t) (fd : Int) (h : subs.Nodup)
    (hany : fd ∉ subs) : (intvec_push subs fd).Nodup := by
  unfold intvec_push
  rw [List.nodup_append]
  refine ⟨h, List.nodup_singleton _, ?_⟩
  intro a ha hb
  simp only [List.mem_singleton] at hb
  exact hany (hb ▸ ha)

theorem feedtab_sub_nodup (t : feedtab_t) (name : List Byte) (fd : Int) (h : subs_nodup t) :
    subs_nodup (feedtab_sub t name fd) := by
  have h1 := feedtab_ensure_nodup t name h
  unfold feedtab_sub
  generalize feedtab_ensure t name = p at h1
  obtain ⟨t1, idx⟩ := p
  simp only at h1 ⊢
  cases hget : t1[idx.toNat]? with
  | none => exact h1
  | some f =>
    simp only
    by_cases hany : f.subs.any (fun x => x == fd) = true
    · rw [if_pos hany]; exact h1
    · rw [if_neg hany]
      intro g hg
      rcases List.mem_or_eq_of_mem_set hg with hg | hg
      · exact h1 g hg
      · rw [hg]
        have hf : f ∈ t1 := List.getElem?_mem hget
        exact push_nodup f.subs fd (h1 f hf) (by simpa using hany)

theorem feedtab_unsub_all_fd_nodup (t : feedtab_t) (fd : Int) (h : subs_nodup t) :
    subs_nodup (feedtab_unsub_all_fd t fd) := by
  rw [feedtab_unsub_all_fd_eq]
  intro g hg
  obtain ⟨f, hf, rfl⟩ := List.mem_map.1 hg
  exact (h f hf).filter _

theorem run_feed_ops_nodup (ops : List FeedOp) : ∀ (t : feedtab_t), subs_nodup t →
    subs_nodup (run_feed_ops t ops) := by
  induction ops with
  | nil => intro t h; exact h
  | cons op rest ih =>
    intro t h
    show subs_nodup (run_feed_ops (FeedOp.apply t op) rest)
    apply ih
    cases op with
    | ensure name => exact feedtab_ensure_nodup t name h
    | sub name fd => exact feedtab_sub_nodup t name fd h
    | unsub_all fd => exact feedtab_unsub_all_fd_nodup t fd h

theorem feedtab_sub_of_subscribed (t : feedtab_t) (name : List Byte) (fd : Int)
    (h : fd ∈ subscribers t name) : feedtab_sub t name fd = t := by
  unfold subscribers at h
  rcases feedtab_ensure_spec t name with ⟨k, f, h1, h2, h3⟩ | ⟨h3, _⟩
  · rw [h3] at h
    simp only at h
    have hany : f.subs.any (fun x => x == fd) = true := by
      rw [List.any_eq_true]; exact ⟨fd, h, by simp⟩
    unfold feedtab_sub
    rw [h1]
    simp only [Int.toNat_ofNat, h2, hany, if_true]
  · rw [h3] at h
    simp at h

theorem sends_to_absent (g : Int → Act) (hg : ∀ d, (g d).target = some d) (c : Int) :
    ∀ (l : List Int), c ∉ l →
      (l.map g).filter (fun a => decide (a.target = some c)) = [] := by
  intro l
  induction l with
  | nil => intro _; rfl
  | cons d l ih =>
    intro hc
    have hd : ¬ d = c := fun h => hc (by rw [h]; exact List.mem_cons_self _ _)
    have hl : c ∉ l := fun h => hc (List.mem_cons_of_mem _ h)
    simp [List.filter_cons, hg, hd, ih hl]

theorem sends_to_present (g : Int → Act) (hg : ∀ d, (g d).target = some d) (c : Int) :
    ∀ (l : List Int), l.Nodup → c ∈ l →
      ((l.map g).filter (fun a => decide (a.target = some c))).length = 1 := by
  intro l
  induction l with
  | nil => intro _ hc; simp at hc
  | cons d l ih =>
    intro hnd hc
    obtain ⟨hdl, hndl⟩ := List.nodup_cons.1 hnd
    by_cases hd : d = c
    · subst hd
      simp [List.filter_cons, hg, sends_to_absent g hg d l hdl]
    · have hcl : c ∈ l := by
        rcases List.mem_cons.1 hc with h | h
        · exact absurd h.symm hd
        · exact h
      simp [List.filter_cons, hg, hd, ih hndl hcl]

theorem c_string_of_no_nul (s : List Byte) (h : (0 : Byte) ∉ s) : c_string s = s := by
  unfold c_string
  rw [List.takeWhile_eq_self_iff]
  intro b hb
  simp only [ne_eq, decide_eq_true_eq]
  intro hb0
  exact h (hb0 ▸ hb)

theorem c_string_no_nul (s : List Byte) : (0 : Byte) ∉ c_string s := by
  unfold c_string
  intro h
  have := List.mem_takeWhile_imp h
  simp at this

theorem c_string_idem (s : List Byte) : c_string (c_string s) = c_string s :=
  c_string_of_no_nul _ (c_string_no_nul s)

theorem c_string_terminated (s rest : List Byte) : c_string (s ++ 0 :: rest) = c_string s := by
  unfold c_string
  induction s with
  | nil => simp [List.takeWhile]
  | cons a s ih =>
    by_cases ha : a = 0
    · subst ha; simp [List.takeWhile]
    · rw [List.cons_append, List.takeWhile_cons, List.takeWhile_cons, ih]

theorem handle_msg_publish (env : Env) (st : Broker) (src : Int) (js F : List Byte)
    (fds : List Int) (nfds : Nat)
    (htype : json_get_type js 32 = some (cstr "publish"))
    (hfeed : json_get_string js (cstr "feed") POC_MAX_FEED = some F) :
    handle_msg env st src js fds nfds
      = (st, (subscribers st.feeds F).map (fun c =>
          if nfds > 0 then Act.send_frame_json_with_fds c js (strlen js) fds nfds
          else Act.send_frame_json c js (strlen js))) := by
  have h1 : cstr "publish" ≠ cstr "create_feed" := by decide
  have h2 : cstr "publish" ≠ cstr "subscribe" := by decide
  have h3 : cstr "publish" ≠ cstr "unsubscribe" := by decide
  unfold handle_msg
  simp only [htype, hfeed, h1, h2, h3, if_false, if_true, broadcast_to_subs_eq]

theorem handle_msg_publish_no_feed (env : Env) (st : Broker) (src : Int) (js : List Byte)
    (fds : List Int) (nfds : Nat)
    (htype : json_get_type js 32 = some (cstr "publish"))
    (hfeed : json_get_string js (cstr "feed") POC_MAX_FEED = none) :
    handle_msg env st src js fds nfds = (st, []) := by
  have h1 : cstr "publish" ≠ cstr "create_feed" := by decide
  have h2 : cstr "publish" ≠ cstr "subscribe" := by decide
  have h3 : cstr "publish" ≠ cstr "unsubscribe" := by decide
  unfold handle_msg
  simp only [htype, hfeed, h1, h2, h3, if_false, if_true]

theorem subscribers_mem (t : feedtab_t) (F : List Byte) (c : Int)
    (h : c ∈ subscribers t F) : ∃ f ∈ t, c ∈ f.subs := by
  unfold subscribers at h
  cases hf : t.find? (fun f => decide (f.name = F)) with
  | none => rw [hf] at h; simp at h
  | some f =>
    rw [hf] at h
    exact ⟨f, List.mem_of_find?_eq_some hf, h⟩

theorem strchr_append (F rest : List Byte) (c : Byte) (h : c ∉ F) :
    strchr (F ++ c :: rest) c = some (c :: rest) := by
  induction F with
  | nil => simp [strchr]
  | cons a F ih =>
    have ha : ¬ a = c := fun e => h (by rw [e]; exact List.mem_cons_self _ _)
    have hF : c ∉ F := fun e => h (List.mem_cons_of_mem _ e)
    simp [strchr, ha, ih hF]

/-- The wire shape of a publish frame is read as type `publish` on the feed it names. -/
theorem publish_frame_reads (F rest : List Byte) (hq : (34 : Byte) ∉ F)
    (hlen : F.length < POC_MAX_FEED) :
    json_get_type (cstr "\x7b\"type\":\"publish\",\"feed\":\"" ++ F ++ 34 :: rest) 32
      = some (cstr "publish") ∧
    json_get_string (cstr "\x7b\"type\":\"publish\",\"feed\":\"" ++ F ++ 34 :: rest)
      (cstr "feed") POC_MAX_FEED = some F := by
  have e1 : cstr "\x7b\"type\":\"publish\",\"feed\":\"" = [123, 34, 116, 121, 112, 101, 34, 58,
      34, 112, 117, 98, 108, 105, 115, 104, 34, 44, 34, 102, 101, 101, 100, 34, 58, 34] := by
    decide
  have e2 : cstr "type" = [116, 121, 112, 101] := by decide
  have e3 : cstr "feed" = [102, 101, 101, 100] := by decide
  have e4 : cstr "publish" = [112, 117, 98, 108, 105, 115, 104] := by decide
  have hs := strchr_append F rest 34 hq
  rw [e1, e4]
  constructor
  · unfold json_get_type json_get_string find_key
    rw [e2]
    simp [strstr, strchr, List.isPrefixOf]
  · unfold json_get_string find_key
    rw [e3]
    simp [strstr, strchr, List.isPrefixOf, hs]
    omega

/-! ## Claims C1, C4, C5 -/

/-- Claim C1, counterexample: feed `foo` has subscribers 5 and 7 and connection 3 sends the
publish frame `{"type":"publish","feed":"foo","data":"a\0b"}`, 44 bytes with a NUL byte
at index 40.  The loop of `main` hands the buffer to `handle_msg` as a C string, and each
subscriber is sent the 40 bytes before the NUL, not the frame. -/
theorem C1_counterexample_frame_with_nul_byte :
    nul_publish.length = 44 ∧
    json_get_type (c_string nul_publish) 32 = some (cstr "publish") ∧
    json_get_string (c_string nul_publish) (cstr "feed") POC_MAX_FEED = some (cstr "foo") ∧
    (serve_one demo_env 3 ⟨44, nul_publish ++ [0], [], [], [], some 0⟩
        { st := demo_broker, fds := [], closed := [], acts := [] }).acts
      = [Act.send_frame_json 5 (nul_publish.take 40) 40,
         Act.send_frame_json 7 (nul_publish.take 40) 40] ∧
    nul_publish.take 40 ≠ nul_publish := by decide

/-- Claim C1 (amended): for every feed table and every frame `P` that the broker reads as
type `publish` naming feed `F` (the broker reads the frame as a C string, `c_string P`:
`json_get_type` yields `publish` and `json_get_string` yields `F` for the key `feed`, as
for every frame of the wire shape, see `publish_frame_reads`), `handle_msg` leaves the
broker state as it was and performs exactly the sends `broadcast_to_subs` makes: one per
entry of `F`'s subscriber list, in list order, each carrying the bytes of `P` before its
first NUL byte (`len = strlen(js)`), which is all of `P` when `P` holds no NUL byte, and
the descriptors received with it; so a connection that is not subscribed to `F`, the
publisher included, is sent nothing, and when the list has no duplicates every
subscriber is sent exactly one frame.  The loop of `main`, holding `P` and its NUL
terminator in its buffer, makes these sends and no other. -/
theorem C1_publish_fan_out (env : Env) (st : Broker) (src : Int) (P F : List Byte)
    (fds : List Int) (nfds : Nat)
    (htype : json_get_type (c_string P) 32 = some (cstr "publish"))
    (hfeed : json_get_string (c_string P) (cstr "feed") POC_MAX_FEED = some F) :
    (handle_msg env st src (c_string P) fds nfds).1 = st ∧
    (handle_msg env st src (c_string P) fds nfds).2
      = (subscribers st.feeds F).map (fun c =>
          if nfds > 0 then
            Act.send_frame_json_with_fds c (c_string P) (c_string P).length fds nfds
          else Act.send_frame_json c (c_string P) (c_string P).length) ∧
    ((0 : Byte) ∉ P → c_string P = P) ∧
    (handle_msg env st src (c_string P) fds nfds).2.map Act.target
      = (subscribers st.feeds F).map some ∧
    (∀ c, c ∉ subscribers st.feeds F →
      ∀ a ∈ (handle_msg env st src (c_string P) fds nfds).2, a.target ≠ some c) ∧
    ((subscribers st.feeds F).Nodup → ∀ c ∈ subscribers st.feeds F,
      ((handle_msg env st src (c_string P) fds nfds).2.filter
        (fun a => decide (a.target = some c))).length = 1) ∧
    (∀ (s : Loop) (r : RdFdsRes) (rest : List Byte), s.st = st → r.buf = P ++ 0 :: rest →
      0 < r.ret → r.fds_out.take (r.nfds.getD 0) = fds → fds.length = nfds →
      (serve_one env src r s).acts
        = s.acts ++ (handle_msg env st src (c_string P) fds nfds).2) := by
  have hlen : strlen (c_string P) = (c_string P).length := by
    unfold strlen
    rw [c_string_idem]
  have hm := handle_msg_publish env st src (c_string P) F fds nfds htype hfeed
  rw [hlen] at hm
  have ht : ((subscribers st.feeds F).map (fun c =>
          if nfds > 0 then
            Act.send_frame_json_with_fds c (c_string P) (c_string P).length fds nfds
          else Act.send_frame_json c (c_string P) (c_string P).length)).map Act.target
      = (subscribers st.feeds F).map some := by
    rw [List.map_map]
    apply List.map_congr_left
    intro c _
    by_cases hn : nfds > 0 <;> simp [hn, Act.target]
  have hloop : ∀ (s : Loop) (r : RdFdsRes) (rest : List Byte), s.st = st →
      r.buf = P ++ 0 :: rest → 0 < r.ret → r.fds_out.take (r.nfds.getD 0) = fds →
      fds.length = nfds →
      (serve_one env src r s).acts
        = s.acts ++ (handle_msg env st src (c_string P) fds nfds).2 := by
    intro s r rest hst hbuf hpos hanc hn
    unfold serve_one
    rw [if_neg (by omega)]
    simp only [hbuf, c_string_terminated, hanc, hn, hst]
  rw [hm]
  refine ⟨rfl, rfl, c_string_of_no_nul P, ht, ?_, ?_, ?_⟩
  · intro c hc a ha htgt
    have : some c ∈ ((subscribers st.feeds F).map (fun c =>
          if nfds > 0 then
            Act.send_frame_json_with_fds c (c_string P) (c_string P).length fds nfds
          else Act.send_frame_json c (c_string P) (c_string P).length)).map Act.target := by
      rw [← htgt]; exact List.mem_map_of_mem _ ha
    rw [ht] at this
    obtain ⟨d, hd, hdc⟩ := List.mem_map.1 this
    exact hc (by rw [← Option.some.inj hdc]; exact hd)
  · intro hnd c hc
    apply sends_to_present _ _ c _ hnd hc
    intro d
    by_cases hn : nfds > 0 <;> simp [hn, Act.target]
  · intro s r rest hst hbuf hpos hanc hn
    rw [hloop s r rest hst hbuf hpos hanc hn, hm]

/-- Claim C1 (amended) at a concrete table: feed `foo` has subscribers 5 and 7, feed `bar`
has 9; a publish on `foo` from connection 3, a frame without a NUL byte, is sent whole
once to 5, then once to 7, and to nobody else. -/
theorem C1_publish_fan_out_witness :
    (handle_msg demo_env demo_broker 3 (c_string demo_publish) [] 0).1 = demo_broker ∧
    (handle_msg demo_env demo_broker 3 (c_string demo_publish) [] 0).2
      = [Act.send_frame_json 5 demo_publish demo_publish.length,
         Act.send_frame_json 7 demo_publish demo_publish.length] ∧
    c_string demo_publish = demo_publish ∧
    (handle_msg demo_env demo_broker 3 (c_string demo_publish) [] 0).2.map Act.target
      = [some 5, some 7] ∧
    (∀ c, c ∉ [5, 7] →
      ∀ a ∈ (handle_msg demo_env demo_broker 3 (c_string demo_publish) [] 0).2,
        a.target ≠ some c) ∧
    (([5, 7] : List Int).Nodup → ∀ c ∈ ([5, 7] : List Int),
      ((handle_msg demo_env demo_broker 3 (c_string demo_publish) [] 0).2.filter
        (fun a => decide (a.target = some c))).length = 1) :=
  ⟨(C1_publish_fan_out demo_env demo_broker 3 demo_publish (cstr "foo") [] 0
      (by decide) (by decide)).1,
   (C1_publish_fan_out demo_env demo_broker 3 demo_publish (cstr "foo") [] 0
      (by decide) (by decide)).2.1,
   (C1_publish_fan_out demo_env demo_broker 3 demo_publish (cstr "foo") [] 0
      (by decide) (by decide)).2.2.1 (by decide),
   (C1_publish_fan_out demo_env demo_broker 3 demo_publish (cstr "foo") [] 0
      (by decide) (by decide)).2.2.2.1,
   (C1_publish_fan_out demo_env demo_broker 3 demo_publish (cstr "foo") [] 0
      (by decide) (by decide)).2.2.2.2.1,
   (C1_publish_fan_out demo_env demo_broker 3 demo_publish (cstr "foo") [] 0
      (by decide) (by decide)).2.2.2.2.2.1⟩

/-- Claim C4: every sequence of `feedtab_ensure`, `feedtab_sub` and
`feedtab_unsub_all_fd` calls starting from an empty feed table leaves every feed's
subscriber list free of duplicate connection ids; and `feedtab_sub(name, fd)` on any
table in which `fd` is already in the subscriber list of `name` returns the table
unchanged. -/
theorem C4_no_duplicate_subscribers (ops : List FeedOp) :
    (∀ f ∈ run_feed_ops [] ops, f.subs.Nodup) ∧
    (∀ (t : feedtab_t) (name : List Byte) (fd : Int),
      fd ∈ subscribers t name → feedtab_sub t name fd = t) :=
  ⟨run_feed_ops_nodup ops [] (fun _ hf => by simp at hf), feedtab_sub_of_subscribed⟩

/-- Claim C5: after `feedtab_unsub_all_fd(t, fd)` no feed's subscriber list contains
`fd`, every feed keeps its other subscribers in the same order (its list is the old one
with the entries equal to `fd` removed), the feed names are the same in the same order,
and a frame of type `publish` handled next, on whatever feed, sends nothing to `fd`. -/
theorem C5_disconnect_cleanup (t : feedtab_t) (fd : Int) :
    (∀ f ∈ feedtab_unsub_all_fd t fd, fd ∉ f.subs) ∧
    (feedtab_unsub_all_fd t fd).map (fun f => f.name) = t.map (fun f => f.name) ∧
    (feedtab_unsub_all_fd t fd).map (fun f => f.subs)
      = t.map (fun f => f.subs.filter (fun x => decide (x ≠ fd))) ∧
    (∀ (env : Env) (plugins : plugtab_t) (run : Bool) (src : Int) (js : List Byte)
        (fds : List Int) (nfds : Nat),
      json_get_type js 32 = some (cstr "publish") →
      ∀ a ∈ (handle_msg env ⟨feedtab_unsub_all_fd t fd, plugins, run⟩ src js fds nfds).2,
        a.target ≠ some fd) := by
  have hgone : ∀ f ∈ feedtab_unsub_all_fd t fd, fd ∉ f.subs := by
    rw [feedtab_unsub_all_fd_eq]
    intro g hg
    obtain ⟨f, _, rfl⟩ := List.mem_map.1 hg
    simp
  refine ⟨hgone, ?_, ?_, ?_⟩
  · rw [feedtab_unsub_all_fd_eq, List.map_map]; rfl
  · rw [feedtab_unsub_all_fd_eq, List.map_map]; rfl
  · intro env plugins run src js fds nfds htype a ha htgt
    cases hfeed : json_get_string js (cstr "feed") POC_MAX_FEED with
    | none =>
      rw [handle_msg_publish_no_feed env _ src js fds nfds htype hfeed] at ha
      simp at ha
    | some F =>
      rw [handle_msg_publish env _ src js F fds nfds htype hfeed] at ha
      obtain ⟨c, hc, rfl⟩ := List.mem_map.1 ha
      have hcf : c = fd := by
        by_cases hn : nfds > 0 <;> simp [hn, Act.target] at htgt <;> exact htgt
      obtain ⟨f, hf, hcs⟩ := subscribers_mem _ F c hc
      exact hgone f hf (hcf ▸ hcs)

/-! ## Rings: lemmas -/

theorem add_mod_cases (m k C : Nat) (hm : m < C) (hk : k ≤ C) :
    (m + k) % C = if m + k < C then m + k else m + k - C := by
  split
  · next h => exact Nat.mod_eq_of_lt h
  · next h =>
    rw [Nat.mod_eq_sub_mod (by omega)]
    exact Nat.mod_eq_of_lt (by omega)

theorem mod_ne_of_lt_gap (a b C : Nat) (hab : a < b) (hgap : b < a + C) : a % C ≠ b % C := by
  intro h
  have h0 : (b - a) % C = 0 := Nat.sub_mod_eq_zero_of_mod_eq h.symm
  rw [Nat.mod_eq_of_lt (by omega)] at h0
  omega

theorem write_at_get {α : Type} {d d1 s : List α} {off : Nat}
    (h : write_at d off s = some d1) :
    d1.length = d.length ∧
    ∀ i, d1[i]? = if off ≤ i ∧ i < off + s.length then s[i - off]? else d[i]? := by
  unfold write_at at h
  split at h
  · next hle =>
    injection h with h
    subst h
    refine ⟨by simp only [List.length_append, List.length_take, List.length_drop]; omega, ?_⟩
    intro i
    have hlt : (d.take off).length = off := by simp only [List.length_take]; omega
    by_cases h1 : i < off
    · rw [List.append_assoc, List.getElem?_append_left (by omega),
        List.getElem?_take_of_lt h1, if_neg (by omega)]
    · by_cases h2 : i < off + s.length
      · rw [List.getElem?_append_left (by simp only [List.length_append, hlt]; omega),
          List.getElem?_append_right (by omega), hlt, if_pos ⟨by omega, h2⟩]
      · rw [List.getElem?_append_right (by simp only [List.length_append, hlt]; omega),
          List.getElem?_drop, if_neg (by omega)]
        simp only [List.length_append, hlt]
        congr 1; omega
  · exact absurd h (by simp)

theorem read_at_get {α : Type} {d t : List α} {off n : Nat}
    (h : read_at d off n = some t) :
    t.length = n ∧ ∀ k, k < n → t[k]? = d[off + k]? := by
  unfold read_at at h
  split at h
  · next hle =>
    injection h with h
    subst h
    refine ⟨by simp only [List.length_take, List.length_drop]; omega, ?_⟩
    intro k hk
    rw [List.getElem?_take_of_lt hk, List.getElem?_drop]
  · exact absurd h (by simp)

theorem write_at_some {α : Type} (d s : List α) (off : Nat) (h : off + s.length ≤ d.length) :
    ∃ d1, write_at d off s = some d1 := by
  unfold write_at; rw [if_pos h]; exact ⟨_, rfl⟩

theorem read_at_some {α : Type} (d : List α) (off n : Nat) (h : off + n ≤ d.length) :
    ∃ t, read_at d off n = some t := by
  unfold read_at; rw [if_pos h]; exact ⟨_, rfl⟩

/-- The two `memcpy` of a ring write, at offset `m` of a payload of `C` bytes: every
source byte lands at its offset modulo `C`, every other payload byte stays. -/
theorem ring_write_spec (data src : List Byte) (C m : Nat) (hlen : data.length = C)
    (hm : m < C) (hn : src.length ≤ C) :
    ∃ d1 d2,
      write_at data m (src.take (if m + src.length > C then C - m else src.length)) = some d1 ∧
      (if (if m + src.length > C then C - m else src.length) < src.length
        then write_at d1 0 (src.drop (if m + src.length > C then C - m else src.length))
        else some d1) = some d2 ∧
      d2.length = C ∧
      (∀ k, k < src.length → d2[(m + k) % C]? = src[k]?) ∧
      (∀ i, i < C → (∀ k, k < src.length → (m + k) % C ≠ i) → d2[i]? = data[i]?) := by
  by_cases hwrap : m + src.length > C
  · simp only [hwrap, if_true]
    have hfl : (src.take (C - m)).length = C - m := by
      simp only [List.length_take]; omega
    obtain ⟨d1, hd1⟩ := write_at_some data (src.take (C - m)) m (by rw [hfl]; omega)
    obtain ⟨hl1, hg1⟩ := write_at_get hd1
    have hdl : (src.drop (C - m)).length = src.length - (C - m) := by
      simp only [List.length_drop]
    obtain ⟨d2, hd2⟩ := write_at_some d1 (src.drop (C - m)) 0 (by rw [hdl, hl1]; omega)
    obtain ⟨hl2, hg2⟩ := write_at_get hd2
    have hlt : C - m < src.length := by omega
    refine ⟨d1, d2, hd1, by rw [if_pos hlt]; exact hd2, by omega, ?_, ?_⟩
    · intro k hk
      rw [add_mod_cases m k C hm (by omega), hg2]
      by_cases hk2 : m + k < C
      · rw [if_pos hk2, if_neg (by rw [hdl]; omega), hg1, if_pos ⟨by omega, by rw [hfl]; omega⟩,
          List.getElem?_take_of_lt (by omega)]
        congr 1; omega
      · rw [if_neg hk2, if_pos ⟨by omega, by rw [hdl]; omega⟩, List.getElem?_drop]
        congr 1; omega
    · intro i hi hne
      rw [hg2]
      by_cases h1 : i < src.length - (C - m)
      · exfalso
        apply hne (i + C - m) (by omega)
        rw [add_mod_cases m (i + C - m) C hm (by omega), if_neg (by omega)]
        omega
      · rw [if_neg (by rw [hdl]; omega), hg1]
        by_cases h2 : m ≤ i
        · exfalso
          apply hne (i - m) (by omega)
          rw [add_mod_cases m (i - m) C hm (by omega), if_pos (by omega)]
          omega
        · rw [if_neg (by omega)]
  · simp only [hwrap, if_false, lt_self_iff_false, List.take_length]
    obtain ⟨d1, hd1⟩ := write_at_some data src m (by omega)
    obtain ⟨hl1, hg1⟩ := write_at_get hd1
    refine ⟨d1, d1, hd1, rfl, by omega, ?_, ?_⟩
    · intro k hk
      rw [add_mod_cases m k C hm (by omega), if_pos (by omega), hg1,
        if_pos ⟨by omega, by omega⟩]
      congr 1; omega
    · intro i hi hne
      rw [hg1]
      by_cases h2 : m ≤ i ∧ i < m + src.length
      · exfalso
        apply hne (i - m) (by omega)
        rw [add_mod_cases m (i - m) C hm (by omega), if_pos (by omega)]
        omega
      · rw [if_neg h2]

/-- The two `memcpy` of a ring read of `n` bytes from offset `m` of a payload of `C`
bytes: byte `k` of the block is the payload byte at offset `m + k` modulo `C`. -/
theorem ring_read_spec (data : List Byte) (C m n : Nat) (hlen : data.length = C)
    (hm : m < C) (hn : n ≤ C) :
    ∃ t1 t2,
      read_at data m (if m + n > C then C - m else n) = some t1 ∧
      (if (if m + n > C then C - m else n) < n
        then read_at data 0 (n - (if m + n > C then C - m else n)) else some []) = some t2 ∧
      (t1 ++ t2).length = n ∧
      (∀ k, k < n → (t1 ++ t2)[k]? = data[(m + k) % C]?) := by
  by_cases hwrap : m + n > C
  · simp only [hwrap, if_true]
    obtain ⟨t1, ht1⟩ := read_at_some data m (C - m) (by omega)
    obtain ⟨hl1, hg1⟩ := read_at_get ht1
    obtain ⟨t2, ht2⟩ := read_at_some data 0 (n - (C - m)) (by omega)
    obtain ⟨hl2, hg2⟩ := read_at_get ht2
    have hlt : C - m < n := by omega
    refine ⟨t1, t2, ht1, by rw [if_pos hlt]; exact ht2, by
      simp only [List.length_append]; omega, ?_⟩
    intro k hk
    rw [add_mod_cases m k C hm (by omega)]
    by_cases hk2 : m + k < C
    · rw [if_pos hk2, List.getElem?_append_left (by omega), hg1 k (by omega)]
    · rw [if_neg hk2, List.getElem?_append_right (by omega), hl1, hg2 _ (by omega)]
      congr 1; omega
  · simp only [hwrap, if_false, lt_self_iff_false]
    obtain ⟨t1, ht1⟩ := read_at_some data m n (by omega)
    obtain ⟨hl1, hg1⟩ := read_at_get ht1
    refine ⟨t1, [], ht1, rfl, by simp only [List.append_nil]; exact hl1, ?_⟩
    intro k hk
    rw [List.append_nil, add_mod_cases m k C hm (by omega), if_pos (by omega), hg1 k hk]

theorem u64_of_lt (x : Nat) (h : x < 2 ^ 64) : u64 x = x := Nat.mod_eq_of_lt h

theorem sub64_of_le (a b : Nat) (hb : b ≤ a) (ha : a < 2 ^ 64) : sub64 a b = a - b := by
  unfold sub64 u64
  rw [Nat.mod_eq_of_lt ha, Nat.mod_eq_of_lt (show b < 2 ^ 64 by omega)]
  omega

/-- The producer step keeps the ring invariant, appends its block to the history, and
moves `rpos` exactly when the block does not fit. -/
theorem rx_write_inv (C : Nat) (hist : List Byte) (s : phiq_hdr_t) (src : List Byte)
    (hC : 0 < C) (inv : IQInv C hist s) (hn : src.length ≤ C)
    (h64 : hist.length + src.length < 2 ^ 64) :
    ∃ s1, rx_write s src = some s1 ∧ IQInv C (hist ++ src) s1 ∧
      s1.wpos = s.wpos + src.length ∧
      s1.rpos = (if (s.wpos - s.rpos) + src.length > C then s.wpos + src.length - C
        else s.rpos) ∧
      (sub64 (u64 (s.wpos + src.length)) s.rpos > s.capacity
        ↔ (s.wpos - s.rpos) + src.length > C) ∧
      s1.bytes_per_samp = s.bytes_per_samp := by
  obtain ⟨hcap, hlen, hw, hrw, hfill, hcont⟩ := inv
  have hwn : s.wpos + src.length < 2 ^ 64 := by omega
  have hu : u64 (s.wpos + src.length) = s.wpos + src.length := u64_of_lt _ hwn
  have hs1 : sub64 (s.wpos + src.length) s.rpos = s.wpos + src.length - s.rpos :=
    sub64_of_le _ _ (by omega) hwn
  have hcond : (sub64 (u64 (s.wpos + src.length)) s.rpos > s.capacity
      ↔ (s.wpos - s.rpos) + src.length > C) := by
    rw [hu, hs1, hcap]; omega
  have hmod : s.wpos % C < C := Nat.mod_lt _ hC
  obtain ⟨d1, d2, e1, e2, hl2, hwr, hun⟩ := ring_write_spec s.data src C (s.wpos % C) hlen hmod hn
  have hne : ¬ (s.capacity = 0) := by omega
  have hcontent : ∀ j, j < s.wpos + src.length → s.wpos + src.length ≤ j + C →
      d2[j % C]? = (hist ++ src)[j]? := by
    intro j hj1 hj2
    by_cases hjw : j < s.wpos
    · rw [List.getElem?_append_left (by omega), ← hcont j hjw (by omega)]
      apply hun (j % C) (Nat.mod_lt _ hC)
      intro k hk heq
      rw [Nat.mod_add_mod] at heq
      exact mod_ne_of_lt_gap j (s.wpos + k) C (by omega) (by omega) heq.symm
    · have hk : j - s.wpos < src.length := by omega
      have := hwr (j - s.wpos) hk
      rw [Nat.mod_add_mod, show s.wpos + (j - s.wpos) = j by omega] at this
      rw [this, List.getElem?_append_right (by omega), hw]
  have key : ∃ s1, rx_write s src = some s1 ∧ s1.capacity = s.capacity ∧ s1.data = d2 ∧
      s1.wpos = u64 (s.wpos + src.length) ∧
      s1.rpos = (if sub64 (u64 (s.wpos + src.length)) s.rpos > s.capacity
        then sub64 (u64 (s.wpos + src.length)) s.capacity else s.rpos) ∧
      s1.bytes_per_samp = s.bytes_per_samp := by
    have hne2 : ¬ (C = 0) := by omega
    unfold rx_write
    simp only [hcap, hne2, if_false, e1, e2]
    exact ⟨_, rfl, rfl, rfl, rfl, rfl, rfl⟩
  obtain ⟨s1, hs, c1, c2, c3, c4, c5⟩ := key
  rw [hu] at c3 c4
  have hr1 : s1.rpos = (if (s.wpos - s.rpos) + src.length > C then s.wpos + src.length - C
      else s.rpos) := by
    rw [c4]
    by_cases hov : (s.wpos - s.rpos) + src.length > C
    · have hov2 : sub64 (s.wpos + src.length) s.rpos > s.capacity := by
        rw [hs1, hcap]; omega
      rw [if_pos hov, if_pos hov2, hcap]
      exact sub64_of_le _ _ (by omega) hwn
    · have hov2 : ¬ sub64 (s.wpos + src.length) s.rpos > s.capacity := by
        rw [hs1, hcap]; omega
      rw [if_neg hov, if_neg hov2]
  refine ⟨s1, hs, ⟨by rw [c1, hcap], by rw [c2, hl2], ?_, ?_, ?_, ?_⟩, c3, hr1, hcond, c5⟩
  · rw [c3]; simp only [List.length_append]; omega
  · rw [c3, hr1]; split <;> omega
  · rw [c3, hr1]; split <;> omega
  · rw [c2, c3]; exact hcontent

/-- The consumer step keeps the ring invariant, leaves `wpos` alone, advances `rpos` by
the size of the block it copies, and the block is the stretch of the history that starts
at the old `rpos`. -/
theorem demod_inv (C : Nat) (hist : List Byte) (s : phiq_hdr_t)
    (hC : 0 < C) (inv : IQInv C hist s) (h64 : hist.length < 2 ^ 64) :
    ∃ s1 blk, demod_from_iq_ring true s = some (s1, blk) ∧ IQInv C hist s1 ∧
      s1.wpos = s.wpos ∧ s1.rpos = s.rpos + blk.length ∧
      (∀ k, k < blk.length → blk[k]? = hist[s.rpos + k]?) ∧
      s1.bytes_per_samp = s.bytes_per_samp := by
  have inv0 := inv
  obtain ⟨hcap, hlen, hw, hrw, hfill, hcont⟩ := inv
  have stay : ∃ s1 blk, some (s, ([] : List Byte)) = some (s1, blk) ∧ IQInv C hist s1 ∧
      s1.wpos = s.wpos ∧ s1.rpos = s.rpos + blk.length ∧
      (∀ k, k < blk.length → blk[k]? = hist[s.rpos + k]?) ∧
      s1.bytes_per_samp = s.bytes_per_samp :=
    ⟨s, [], rfl, inv0, rfl, rfl, fun k hk => absurd hk (Nat.not_lt_zero k), rfl⟩
  have havail : (if s.wpos > s.rpos then s.wpos - s.rpos else 0) = s.wpos - s.rpos := by
    split <;> omega
  unfold demod_from_iq_ring
  simp only [Bool.not_true, Bool.false_eq_true, if_false, havail]
  by_cases hz : (decide (s.capacity = 0) || decide (s.bytes_per_samp = 0)) = true
  · rw [if_pos hz]; exact stay
  rw [if_neg hz]
  by_cases hav : s.wpos - s.rpos < s.bytes_per_samp
  · rw [if_pos hav]; exact stay
  rw [if_neg hav]
  generalize hbdef : (if s.wpos - s.rpos > 2 ^ 18 then 2 ^ 18 else s.wpos - s.rpos) = bytes0
  have hb0le : bytes0 ≤ s.wpos - s.rpos := by
    rw [← hbdef]; split <;> omega
  have hsub : bytes0 - bytes0 % s.bytes_per_samp ≤ bytes0 := Nat.sub_le _ _
  generalize hbydef : bytes0 - bytes0 % s.bytes_per_samp = bytes at hsub ⊢
  by_cases hby : bytes = 0
  · rw [if_pos hby]; exact stay
  rw [if_neg hby]
  have hble : bytes ≤ C := by omega
  have hmod : s.rpos % C < C := Nat.mod_lt _ hC
  obtain ⟨t1, t2, e1, e2, hl, hg⟩ := ring_read_spec s.data C (s.rpos % C) bytes hlen hmod hble
  have hu : u64 (s.rpos + bytes) = s.rpos + bytes := u64_of_lt _ (by omega)
  rw [hcap, e1]
  simp only [e2, hu]
  refine ⟨_, _, rfl, ⟨rfl, hlen, hw, ?_, ?_, hcont⟩, rfl, ?_, ?_, rfl⟩
  · show s.rpos + bytes ≤ s.wpos
    omega
  · show s.wpos ≤ s.rpos + bytes + C
    omega
  · show s.rpos + bytes = s.rpos + (t1 ++ t2).length
    rw [hl]
  · intro k hk
    rw [hl] at hk
    rw [hg k hk, Nat.mod_add_mod]
    exact hcont (s.rpos + k) (by omega) (by omega)

/-- A run from a state that satisfies the invariant: it never fails, it ends in a state
that satisfies the invariant against the longer history, the counters have not gone
down, and when no producer step overflowed the blocks copied out are the stretch of the
history between the old and the new `rpos`. -/
theorem iq_run_inv (C : Nat) (hC : 0 < C) : ∀ (steps : List IQStep) (s : phiq_hdr_t)
    (hist : List Byte), IQInv C hist s → bursts_fit C steps →
    (hist ++ produced steps).length < 2 ^ 64 →
    ∃ s1 out, iq_run s steps = some (s1, out) ∧ IQInv C (hist ++ produced steps) s1 ∧
      s.wpos ≤ s1.wpos ∧ s.rpos ≤ s1.rpos ∧ s1.bytes_per_samp = s.bytes_per_samp ∧
      (no_overflow s steps = true → s1.rpos = s.rpos + out.length ∧
        ∀ k, k < out.length → out[k]? = (hist ++ produced steps)[s.rpos + k]?) := by
  intro steps
  induction steps with
  | nil =>
    intro s hist inv _ _
    refine ⟨s, [], rfl, by simpa [produced] using inv, le_refl _, le_refl _, rfl, ?_⟩
    intro _
    exact ⟨rfl, fun k hk => absurd hk (Nat.not_lt_zero k)⟩
  | cons st rest ih =>
    intro s hist inv hfit h64
    have hfit2 : bursts_fit C rest := fun x hs => hfit x (List.mem_cons_of_mem _ hs)
    cases st with
    | produce src =>
      have hsrc : src.length ≤ C := hfit (.produce src) (List.mem_cons_self _ _)
      simp only [produced, List.length_append] at h64
      obtain ⟨s1, e1, inv1, hw1, hr1, hcond, hb1⟩ :=
        rx_write_inv C hist s src hC inv hsrc (by omega)
      obtain ⟨s2, out, e2, inv2, hw2, hr2, hb2, hno⟩ := ih s1 (hist ++ src) inv1 hfit2
        (by simp only [List.length_append]; omega)
      refine ⟨s2, out, ?_, ?_, by omega, ?_, by rw [hb2, hb1], ?_⟩
      · simp only [iq_run, iq_step, e1, Option.map_some', e2, List.nil_append]
      · simpa [produced, List.append_assoc] using inv2
      · rw [hr1] at hr2; split at hr2 <;> omega
      · intro hnov
        simp only [no_overflow, iq_step, e1, Option.map_some', Bool.and_eq_true,
          Bool.not_eq_true', decide_eq_false_iff_not] at hnov
        obtain ⟨hn1, hn2⟩ := hnov
        have hkeep : s1.rpos = s.rpos := by
          rw [hr1, if_neg (fun h => hn1 (hcond.2 h))]
        obtain ⟨ha, hbk⟩ := hno hn2
        rw [hkeep] at ha hbk
        refine ⟨ha, ?_⟩
        intro k hk
        rw [hbk k hk]
        simp [produced, List.append_assoc]
    | consume =>
      simp only [produced] at h64 ⊢
      obtain ⟨s1, blk, e1, inv1, hw1, hr1, hblk, hb1⟩ :=
        demod_inv C hist s hC inv (by simp only [List.length_append] at h64; omega)
      obtain ⟨s2, out, e2, inv2, hw2, hr2, hb2, hno⟩ := ih s1 hist inv1 hfit2 h64
      refine ⟨s2, blk ++ out, ?_, inv2, by omega, by omega, by rw [hb2, hb1], ?_⟩
      · simp only [iq_run, iq_step, e1, e2]
      · intro hnov
        simp only [no_overflow, iq_step, e1, Bool.true_and] at hnov
        obtain ⟨ha, hbk⟩ := hno hnov
        refine ⟨by rw [ha, hr1, List.length_append]; omega, ?_⟩
        intro k hk
        by_cases hkb : k < blk.length
        · rw [List.getElem?_append_left hkb, hblk k hkb]
          have hlt : s.rpos + k < hist.length := by
            have := inv1.rw
            have := inv1.w
            omega
          rw [List.getElem?_append_left hlt]
        · rw [List.getElem?_append_right (by omega), hbk _ (by
            simp only [List.length_append] at hk; omega), hr1]
          congr 1; omega

theorem fresh_iq_ring_inv (C bps : Nat) : IQInv C [] (fresh_iq_ring C bps) :=
  ⟨rfl, List.length_replicate _ _, rfl, le_refl _, Nat.zero_le _,
    fun j hj => absurd hj (Nat.not_lt_zero j)⟩

/-- A run without overflow has no burst above the capacity. -/
theorem no_overflow_fits (C : Nat) (hC : 0 < C) : ∀ (steps : List IQStep) (s : phiq_hdr_t)
    (hist : List Byte), IQInv C hist s → (hist ++ produced steps).length < 2 ^ 64 →
    no_overflow s steps = true → bursts_fit C steps := by
  intro steps
  induction steps with
  | nil => intro _ _ _ _ _ st hst; simp at hst
  | cons st rest ih =>
    intro s hist inv h64 hno
    cases st with
    | produce src =>
      simp only [produced, List.length_append] at h64
      have hwn : s.wpos + src.length < 2 ^ 64 := by rw [inv.w]; omega
      have hsub : sub64 (u64 (s.wpos + src.length)) s.rpos = s.wpos + src.length - s.rpos := by
        rw [u64_of_lt _ hwn]; exact sub64_of_le _ _ (by have := inv.rw; omega) hwn
      simp only [no_overflow, Bool.and_eq_true, Bool.not_eq_true', decide_eq_false_iff_not,
        hsub, inv.cap] at hno
      obtain ⟨hn1, hn2⟩ := hno
      have hsrc : src.length ≤ C := by have := inv.rw; omega
      obtain ⟨s1, e1, inv1, _⟩ := rx_write_inv C hist s src hC inv hsrc (by omega)
      simp only [iq_step, e1, Option.map_some'] at hn2
      have hrest := ih s1 (hist ++ src) inv1
        (by simp only [List.length_append]; omega) hn2
      intro x hx
      rcases List.mem_cons.1 hx with h | h
      · rw [h]; exact hsrc
      · exact hrest x h
    | consume =>
      simp only [produced] at h64
      obtain ⟨s1, blk, e1, inv1, _⟩ :=
        demod_inv C hist s hC inv (by simp only [List.length_append] at h64; omega)
      simp only [no_overflow, iq_step, e1, Bool.true_and] at hno
      have hrest := ih s1 hist inv1 h64 hno
      intro x hx
      rcases List.mem_cons.1 hx with h | h
      · rw [h]; exact Nat.zero_le _
      · exact hrest x h

/-! ## Claims C6, C7, C8 -/

/-- Claim C6: starting from a freshly created IQ ring of capacity `C > 0`, after every
sequence `steps` of producer steps (each of at most `C` bytes) and consumer steps, and
for every further such step `st`, the run and the step complete, `st` decreases neither
`wpos` nor `rpos`, and `0 <= wpos - rpos <= C` holds before and after it.  The 64-bit
counters are taken not to wrap: fewer than 2^64 bytes are produced in all. -/
theorem C6_ring_counters_monotone_bounded (C bps : Nat) (steps : List IQStep) (st : IQStep)
    (hC : 0 < C) (hfit : bursts_fit C (st :: steps))
    (h64 : (produced steps).length + st.size < 2 ^ 64) :
    ∃ s o s1 o1, iq_run (fresh_iq_ring C bps) steps = some (s, o) ∧
      iq_step s st = some (s1, o1) ∧
      s.wpos ≤ s1.wpos ∧ s.rpos ≤ s1.rpos ∧
      s.rpos ≤ s.wpos ∧ s.wpos - s.rpos ≤ C ∧
      s1.rpos ≤ s1.wpos ∧ s1.wpos - s1.rpos ≤ C := by
  obtain ⟨s, o, e, inv, _, _, _, _⟩ := iq_run_inv C hC steps (fresh_iq_ring C bps) []
    (fresh_iq_ring_inv C bps) (fun x hx => hfit x (List.mem_cons_of_mem _ hx))
    (by simp only [List.nil_append]; omega)
  simp only [List.nil_append] at inv
  have hrw := inv.rw
  have hfill := inv.fill
  cases st with
  | produce src =>
    have hsrc : src.length ≤ C := hfit (.produce src) (List.mem_cons_self _ _)
    obtain ⟨s1, e1, inv1, hw1, hr1, _, _⟩ := rx_write_inv C (produced steps) s src hC inv hsrc
      (by simpa [IQStep.size] using h64)
    have hrw1 := inv1.rw
    have hfill1 := inv1.fill
    refine ⟨s, o, s1, [], e, by simp only [iq_step, e1, Option.map_some'], by omega, ?_,
      hrw, by omega, hrw1, by omega⟩
    rw [hr1]; split <;> omega
  | consume =>
    obtain ⟨s1, blk, e1, inv1, hw1, hr1, _, _⟩ := demod_inv C (produced steps) s hC inv
      (by omega)
    have hrw1 := inv1.rw
    have hfill1 := inv1.fill
    exact ⟨s, o, s1, blk, e, e1, by omega, by omega, hrw, by omega, hrw1, by omega⟩

/-- Claim C6 on a ring of 8 bytes: after a burst of 6, a drain and a burst of 4, a burst
of 7 overflows; the counters have not gone down and the fill stays within 8. -/
theorem C6_ring_counters_monotone_bounded_witness :
    ∃ s o s1 o1, iq_run (fresh_iq_ring 8 2)
        [.produce [1, 2, 3, 4, 5, 6], .consume, .produce [7, 8, 9, 10]] = some (s, o) ∧
      iq_step s (.produce [11, 12, 13, 14, 15, 16, 17]) = some (s1, o1) ∧
      s.wpos ≤ s1.wpos ∧ s.rpos ≤ s1.rpos ∧
      s.rpos ≤ s.wpos ∧ s.wpos - s.rpos ≤ 8 ∧
      s1.rpos ≤ s1.wpos ∧ s1.wpos - s1.rpos ≤ 8 :=
  C6_ring_counters_monotone_bounded 8 2
    [.produce [1, 2, 3, 4, 5, 6], .consume, .produce [7, 8, 9, 10]]
    (.produce [11, 12, 13, 14, 15, 16, 17]) (by decide) (by decide) (by decide)

/-- Claim C7: in every state reachable from a fresh IQ ring of capacity `C > 0` by
producer steps (each of at most `C` bytes) and consumer steps, `wpos` counts the bytes
produced and, for every absolute index `j` with `rpos <= j < wpos`, the payload byte at
`j mod C` is the `j`-th byte ever produced; and a producer step of `n <= C` bytes that
finds `(w - r) + n > C` ends with `wpos - rpos = C` and with the last `C` bytes produced
at the readable positions `rpos, .., wpos - 1`.  The 64-bit counters are taken not to
wrap: fewer than 2^64 bytes are produced in all. -/
theorem C7_ring_content_and_overflow (C bps : Nat) (steps : List IQStep)
    (hC : 0 < C) (hfit : bursts_fit C steps) (h64 : (produced steps).length < 2 ^ 64) :
    ∃ s o, iq_run (fresh_iq_ring C bps) steps = some (s, o) ∧
      s.wpos = (produced steps).length ∧
      (∀ j, s.rpos ≤ j → j < s.wpos → s.data[j % C]? = (produced steps)[j]?) ∧
      (∀ src : List Byte, src.length ≤ C → (produced steps).length + src.length < 2 ^ 64 →
        (s.wpos - s.rpos) + src.length > C →
        ∃ s1, rx_write s src = some s1 ∧ s1.wpos - s1.rpos = C ∧
          s1.wpos = (produced steps ++ src).length ∧
          ∀ k, k < C → s1.data[(s1.rpos + k) % C]?
            = (produced steps ++ src)[(produced steps ++ src).length - C + k]?) := by
  obtain ⟨s, o, e, inv, _, _, _, _⟩ := iq_run_inv C hC steps (fresh_iq_ring C bps) []
    (fresh_iq_ring_inv C bps) hfit (by simpa using h64)
  simp only [List.nil_append] at inv
  have hrw := inv.rw
  have hfill := inv.fill
  refine ⟨s, o, e, inv.w, ?_, ?_⟩
  · intro j hj1 hj2
    exact inv.content j hj2 (by omega)
  · intro src hsrc h64b hov
    obtain ⟨s1, e1, inv1, hw1, hr1, _, _⟩ := rx_write_inv C (produced steps) s src hC inv hsrc
      h64b
    rw [if_pos hov] at hr1
    have hw := inv.w
    have hlen : (produced steps ++ src).length = s.wpos + src.length := by
      simp only [List.length_append]; omega
    refine ⟨s1, e1, by omega, inv1.w, ?_⟩
    intro k hk
    have := inv1.content (s1.rpos + k) (by omega) (by omega)
    rw [this]
    congr 1
    omega

/-- Claim C7 on a ring of 4 bytes with the consumer blocked: after two bursts of 4 bytes
every further burst that overflows (a third burst of 4 bytes makes 12 in all) leaves
`wpos - rpos = 4` and the last four bytes produced readable. -/
theorem C7_ring_content_and_overflow_witness :
    ∃ s o, iq_run (fresh_iq_ring 4 2) [.produce [1, 2, 3, 4], .produce [5, 6, 7, 8]]
        = some (s, o) ∧
      s.wpos = (produced [.produce [1, 2, 3, 4], .produce [5, 6, 7, 8]]).length ∧
      (∀ j, s.rpos ≤ j → j < s.wpos → s.data[j % 4]?
        = (produced [.produce [1, 2, 3, 4], .produce [5, 6, 7, 8]])[j]?) ∧
      (∀ src : List Byte, src.length ≤ 4 →
        (produced [.produce [1, 2, 3, 4], .produce [5, 6, 7, 8]]).length + src.length
          < 2 ^ 64 →
        (s.wpos - s.rpos) + src.length > 4 →
        ∃ s1, rx_write s src = some s1 ∧ s1.wpos - s1.rpos = 4 ∧
          s1.wpos = (produced [.produce [1, 2, 3, 4], .produce [5, 6, 7, 8]] ++ src).length ∧
          ∀ k, k < 4 → s1.data[(s1.rpos + k) % 4]?
            = (produced [.produce [1, 2, 3, 4], .produce [5, 6, 7, 8]] ++ src)[
                (produced [.produce [1, 2, 3, 4], .produce [5, 6, 7, 8]] ++ src).length
                  - 4 + k]?) :=
  C7_ring_content_and_overflow 4 2 [.produce [1, 2, 3, 4], .produce [5, 6, 7, 8]]
    (by decide) (by decide) (by decide)

theorem eq_take_of_get {α : Type} (o l : List α)
    (h : ∀ k, k < o.length → o[k]? = l[k]?) (hl : o.length ≤ l.length) :
    o = l.take o.length := by
  apply List.ext_getElem?
  intro k
  by_cases hk : k < o.length
  · rw [List.getElem?_take_of_lt hk, h k hk]
  · rw [List.getElem?_eq_none (by omega), List.getElem?_eq_none (by
      simp only [List.length_take]; omega)]

/-- Claim C8: for every interleaving of producer steps and consumer steps on a fresh IQ
ring of capacity `C > 0` in which no producer step takes the overflow branch, the
concatenation of the blocks the consumer copied out is the first `rpos` bytes of the
concatenation of the producer's blocks, and all of it once `rpos = wpos`; reads and
writes that wrap past the end of the payload are included.  The 64-bit counters are
taken not to wrap: fewer than 2^64 bytes are produced in all. -/
theorem C8_ring_integrity (C bps : Nat) (steps : List IQStep)
    (hC : 0 < C) (h64 : (produced steps).length < 2 ^ 64)
    (hno : no_overflow (fresh_iq_ring C bps) steps = true) :
    ∃ s o, iq_run (fresh_iq_ring C bps) steps = some (s, o) ∧
      o = (produced steps).take s.rpos ∧
      (s.rpos = s.wpos → o = produced steps) := by
  have hfit := no_overflow_fits C hC steps (fresh_iq_ring C bps) [] (fresh_iq_ring_inv C bps)
    (by simpa using h64) hno
  obtain ⟨s, o, e, inv, _, _, _, hout⟩ := iq_run_inv C hC steps (fresh_iq_ring C bps) []
    (fresh_iq_ring_inv C bps) hfit (by simpa using h64)
  simp only [List.nil_append] at inv hout
  obtain ⟨hr, hget⟩ := hout hno
  have hr2 : s.rpos = o.length := by rw [hr]; simp [fresh_iq_ring]
  have hget2 : ∀ k, k < o.length → o[k]? = (produced steps)[k]? := by
    intro k hk
    have := hget k hk
    simpa [fresh_iq_ring] using this
  have hw := inv.w
  have hrw := inv.rw
  have hle : o.length ≤ (produced steps).length := by omega
  have htake : o = (produced steps).take s.rpos := by
    rw [hr2]; exact eq_take_of_get o _ hget2 hle
  refine ⟨s, o, e, htake, ?_⟩
  intro heq
  rw [htake, heq, hw, List.take_length]

/-- Claim C8 on a ring of 8 bytes: bursts of 6, 4 and 3 bytes with drains in between, the
second write and the second read wrapping past the end of the payload. -/
theorem C8_ring_integrity_witness :
    ∃ s o, iq_run (fresh_iq_ring 8 2)
        [.produce [1, 2, 3, 4, 5, 6], .consume, .produce [7, 8, 9, 10], .consume,
          .produce [11, 12, 13], .consume] = some (s, o) ∧
      o = (produced [.produce [1, 2, 3, 4, 5, 6], .consume, .produce [7, 8, 9, 10], .consume,
          .produce [11, 12, 13], .consume]).take s.rpos ∧
      (s.rpos = s.wpos → o = produced [.produce [1, 2, 3, 4, 5, 6], .consume,
          .produce [7, 8, 9, 10], .consume, .produce [11, 12, 13], .consume]) :=
  C8_ring_integrity 8 2
    [.produce [1, 2, 3, 4, 5, 6], .consume, .produce [7, 8, 9, 10], .consume,
      .produce [11, 12, 13], .consume] (by decide) (by decide) (by decide)

/-! ## Claims C9 and C10 -/

/-- Claim C9 fails in the code when the readable span wraps.  On a ring of 16 bytes with
`rpos = 12`, `wpos = 20`, one channel and `max_frames = 2`, `want` is 8 and the first
copy puts payload bytes 12 .. 15 at `dst[0 .. 4)`; the second copy goes to `dst + n1`
with `dst` a `float *`, that is to byte 16 of `dst`, not to byte 4: bytes 4 .. 7 of `dst`
keep their old value instead of receiving payload bytes 0 .. 3.  With a `dst` of exactly
`max_frames` frames (8 bytes) the second copy is a store outside `dst`.  `rpos` does
advance by 8 and 2 frames are reported. -/
theorem C9_pop_second_span_misplaced :
    ph_audio_ring_pop_f32 wrapped_audio_ring (List.replicate 24 0) 2
      = some ({ wrapped_audio_ring with rpos := 20 },
          [112, 113, 114, 115, 0, 0, 0, 0, 0, 0, 0, 0, 0, 0, 0, 0, 100, 101, 102, 103,
            0, 0, 0, 0], 2) ∧
    ph_audio_ring_pop_f32 wrapped_audio_ring (List.replicate 8 0) 2 = none := by
  constructor <;> decide

/-- Claim C10: `ph_check_abi(ctx)` returns true if and only if `ctx` is non-null,
`ctx.abi_major == PLUGIN_ABI_MAJOR`, `ctx.abi_minor <= PLUGIN_ABI_MINOR` and
`ctx.ctx_size >= sizeof(plugin_ctx_t)`; so a major mismatch or a newer minor is always
refused, and a matching major with lower-or-equal minor and a large enough context is
always accepted. -/
theorem C10_abi_gate (ctx : Option plugin_ctx_t) :
    (ph_check_abi ctx = true ↔
      ∃ c, ctx = some c ∧ c.abi_major = PLUGIN_ABI_MAJOR ∧ c.abi_minor ≤ PLUGIN_ABI_MINOR ∧
        c.ctx_size ≥ sizeof_plugin_ctx_t) ∧
    (∀ c : plugin_ctx_t, c.abi_major ≠ PLUGIN_ABI_MAJOR ∨ c.abi_minor > PLUGIN_ABI_MINOR →
      ph_check_abi (some c) = false) ∧
    (∀ c : plugin_ctx_t, c.abi_major = PLUGIN_ABI_MAJOR → c.abi_minor ≤ PLUGIN_ABI_MINOR →
      c.ctx_size ≥ sizeof_plugin_ctx_t → ph_check_abi (some c) = true) := by
  refine ⟨?_, ?_, ?_⟩
  · cases ctx with
    | none => simp [ph_check_abi]
    | some c =>
      simp only [ph_check_abi, Option.some.injEq, exists_eq_left']
      constructor
      · intro h
        by_cases h1 : c.abi_major ≠ PLUGIN_ABI_MAJOR
        · simp [h1] at h
        · by_cases h2 : c.abi_minor > PLUGIN_ABI_MINOR
          · simp [h1, h2] at h
          · by_cases h3 : c.ctx_size < sizeof_plugin_ctx_t
            · simp [h1, h2, h3] at h
            · exact ⟨by simpa using h1, by omega, by omega⟩
      · rintro ⟨h1, h2, h3⟩
        have h2b : ¬ c.abi_minor > PLUGIN_ABI_MINOR := by omega
        have h3b : ¬ c.ctx_size < sizeof_plugin_ctx_t := by omega
        simp [h1, h2b, h3b]
  · intro c h
    rcases h with h | h
    · simp [ph_check_abi, h]
    · by_cases h1 : c.abi_major ≠ PLUGIN_ABI_MAJOR
      · simp [ph_check_abi, h1]
      · simp [ph_check_abi, h1, h]
  · intro c h1 h2 h3
    have h2b : ¬ c.abi_minor > PLUGIN_ABI_MINOR := by omega
    have h3b : ¬ c.ctx_size < sizeof_plugin_ctx_t := by omega
    simp [ph_check_abi, h1, h2b, h3b]

/-! ## Plugin registry: lemmas -/

theorem plugtab_find_from_spec (name : List Byte) : ∀ (t : List plug_t) (i : Nat),
    (plugtab_find_from name t i = -1 ∧ name ∉ t.map (fun p => p.name)) ∨
    (∃ (k : Nat) (p : plug_t), plugtab_find_from name t i = ((i + k : Nat) : Int) ∧
      t[k]? = some p ∧ p.name = name) := by
  intro t
  induction t with
  | nil => intro i; left; simp [plugtab_find_from]
  | cons p ps ih =>
    intro i
    by_cases h : p.name = name
    · right
      exact ⟨0, p, by simp [plugtab_find_from, h], by simp, h⟩
    · rcases ih (i + 1) with ⟨h1, h2⟩ | ⟨k, q, h1, h2, h3⟩
      · left
        refine ⟨by simp [plugtab_find_from, h, h1], ?_⟩
        intro hm
        rcases List.mem_cons.1 hm with e | e
        · exact h e.symm
        · exact h2 e
      · right
        refine ⟨k + 1, q, ?_, by simpa using h2, h3⟩
        simp only [plugtab_find_from, h, if_false, h1]
        congr 1; omega

theorem plugtab_find_spec (t : plugtab_t) (name : List Byte) :
    (plugtab_find t name = -1 ∧ name ∉ t.map (fun p => p.name)) ∨
    (∃ (k : Nat) (p : plug_t), plugtab_find t name = (k : Int) ∧ t[k]? = some p ∧
      p.name = name) := by
  rcases plugtab_find_from_spec name t 0 with h | ⟨k, p, h1, h2, h3⟩
  · left; exact h
  · right; exact ⟨k, p, by rw [plugtab_find, h1]; simp, h2, h3⟩

/-- What `load_plugin_from_path` returns, case by case on the registry. -/
theorem load_plugin_from_path_cases (env : Env) (reg : plugtab_t) (so_path : List Byte) :
    ((load_plugin_from_path env reg so_path).1 ≠ 0 ∧
      (load_plugin_from_path env reg so_path).2.1 = reg) ∨
    (∃ dl, env.dlopen so_path = some dl ∧ (load_plugin_from_path env reg so_path).1 = 0 ∧
      dl.name.take 63 ∉ reg.map (fun p => p.name) ∧
      (load_plugin_from_path env reg so_path).2.1
        = reg ++ [⟨dl, dl.name.take 63, so_path.take 511⟩] ∧
      (load_plugin_from_path env reg so_path).2.2
        = [Act.dlopen so_path, Act.plugin_name dl, Act.plugin_init dl, Act.plugin_start dl] ∧
      dl.init_ok = true ∧ ¬ dl.caps_size < sizeof_plugin_caps_t ∧ dl.start_ok = true) := by
  unfold load_plugin_from_path
  split
  · left; simp
  · cases hdl : env.dlopen so_path with
    | none => left; simp
    | some dl =>
      simp only
      split
      · left; simp
      · split
        · left; simp
        · next hsym hfind =>
          have hnot : dl.name.take 63 ∉ reg.map (fun p => p.name) := by
            rcases plugtab_find_spec reg (dl.name.take 63) with ⟨_, h2⟩ | ⟨k, p, h1, _, _⟩
            · exact h2
            · exfalso; apply hfind; rw [h1]; omega
          split
          · left; simp
          · split
            · left; simp
            · split
              · left; simp
              · next h1 h2 h3 =>
                right
                refine ⟨dl, rfl, rfl, hnot, rfl, rfl, by simpa using h1, h2, by simpa using h3⟩

theorem load_plugin_from_path_no_start (env : Env) (reg : plugtab_t) (so_path : List Byte)
    (dl : Module) (hdl : env.dlopen so_path = some dl)
    (hbad : dl.init_ok = false ∨ dl.caps_size < sizeof_plugin_caps_t) :
    ∀ m, Act.plugin_start m ∉ (load_plugin_from_path env reg so_path).2.2 := by
  intro m
  unfold load_plugin_from_path
  split
  · simp
  · rw [hdl]
    simp only
    split
    · simp
    · split
      · simp
      · rcases hbad with h | h
        · simp [h]
        · by_cases hi : dl.init_ok = true
          · simp [hi, h]
          · simp [hi]

/-! ## Claims C11 and C12 -/

/-- Claim C11, as stated, fails on the entry name: a module whose `plugin_name()` has 64
bytes loads with return code 0, and the entry appended carries the first 63 bytes, which
is not the name the module reported. -/
theorem C11_counterexample_name_of_64_bytes :
    (load_plugin_from_path long_name_env [] (cstr "x.so")).1 = 0 ∧
    (load_plugin_from_path long_name_env [] (cstr "x.so")).2.1
      = [⟨long_name_module, List.replicate 63 97, cstr "x.so"⟩] ∧
    List.replicate 63 (97 : Byte) ≠ long_name_module.name := by
  decide

/-- Claim C11 (amended): for every plugin registry and every module behaviour,
`load_plugin_from_path` leaves the registry unchanged whenever it returns a non-zero code
(bad path, `dlopen` failure, missing symbol, duplicate name, init false,
`caps_size < sizeof(plugin_caps_t)`, start false), never calls `plugin_start` when init
failed or `caps_size` is too small, and when it returns 0 the registry is the old one
with exactly one entry appended, whose name is the module's `plugin_name()` cut to at
most 63 bytes (the name itself when it has at most 63 bytes). -/
theorem C11_load_registers_or_leaves_registry (env : Env) (reg : plugtab_t)
    (so_path : List Byte) :
    ((load_plugin_from_path env reg so_path).1 ≠ 0 →
      (load_plugin_from_path env reg so_path).2.1 = reg) ∧
    (∀ dl, env.dlopen so_path = some dl →
      dl.init_ok = false ∨ dl.caps_size < sizeof_plugin_caps_t →
      ∀ m, Act.plugin_start m ∉ (load_plugin_from_path env reg so_path).2.2) ∧
    ((load_plugin_from_path env reg so_path).1 = 0 →
      ∃ dl, env.dlopen so_path = some dl ∧
        (load_plugin_from_path env reg so_path).2.1
          = reg ++ [⟨dl, dl.name.take 63, so_path.take 511⟩] ∧
        (dl.name.length ≤ 63 →
          (load_plugin_from_path env reg so_path).2.1 = reg ++ [⟨dl, dl.name, so_path.take 511⟩])) := by
  refine ⟨?_, ?_, ?_⟩
  · intro h
    rcases load_plugin_from_path_cases env reg so_path with ⟨_, h2⟩ | ⟨dl, _, h0, _⟩
    · exact h2
    · exact absurd h0 h
  · intro dl hdl hbad
    exact load_plugin_from_path_no_start env reg so_path dl hdl hbad
  · intro h
    rcases load_plugin_from_path_cases env reg so_path with ⟨h1, _⟩ | ⟨dl, hdl, _, _, h3, _⟩
    · exact absurd h h1
    · refine ⟨dl, hdl, h3, ?_⟩
      intro hlen
      rw [h3, List.take_of_length_le hlen]

theorem unload_plugin_by_name_cases (reg : plugtab_t) (name : List Byte) :
    (name ∉ reg.map (fun p => p.name) ∧ unload_plugin_by_name reg name = (-1, reg, [])) ∨
    (∃ (k : Nat) (p : plug_t), reg[k]? = some p ∧ p.name = name ∧
      unload_plugin_by_name reg name
        = (0, reg.take k ++ reg.drop (k + 1), [Act.plugin_stop p.dl, Act.dlclose p.dl])) := by
  unfold unload_plugin_by_name
  rcases plugtab_find_spec reg name with ⟨h1, h2⟩ | ⟨k, p, h1, h2, h3⟩
  · left
    exact ⟨h2, by simp [h1]⟩
  · right
    have hk : ¬ ((k : Int) < 0) := by omega
    exact ⟨k, p, h2, h3, by simp [h1, hk, h2, plugtab_remove]⟩

theorem names_split (reg : plugtab_t) (k : Nat) (p : plug_t) (h : reg[k]? = some p) :
    reg.map (fun q => q.name)
      = (reg.take k).map (fun q => q.name) ++ p.name :: (reg.drop (k + 1)).map (fun q => q.name) := by
  have hk : k < reg.length := by
    by_contra hc
    rw [List.getElem?_eq_none (by omega)] at h
    exact absurd h (by simp)
  have hp : reg[k] = p := by
    rw [List.getElem?_eq_getElem hk] at h
    exact Option.some.inj h
  have hsplit : reg = reg.take k ++ p :: reg.drop (k + 1) := by
    rw [← hp, ← List.drop_eq_getElem_cons hk, List.take_append_drop]
  conv_lhs => rw [hsplit]
  simp

/-- Both registry calls keep the stored names pairwise distinct. -/
theorem reg_op_nodup (reg : plugtab_t) (op : RegOp)
    (h : (reg.map (fun p => p.name)).Nodup) :
    ((RegOp.apply reg op).map (fun p => p.name)).Nodup := by
  cases op with
  | load env so_path =>
    show ((load_plugin_from_path env reg so_path).2.1.map (fun p => p.name)).Nodup
    rcases load_plugin_from_path_cases env reg so_path with ⟨_, h2⟩ | ⟨dl, _, _, hnot, h3, _⟩
    · rw [h2]; exact h
    · rw [h3, List.map_append, List.nodup_append]
      refine ⟨h, by simp, ?_⟩
      intro a ha hb
      simp only [List.map_cons, List.map_nil, List.mem_singleton] at hb
      exact hnot (hb ▸ ha)
  | unload name =>
    show ((unload_plugin_by_name reg name).2.1.map (fun p => p.name)).Nodup
    rcases unload_plugin_by_name_cases reg name with ⟨_, h2⟩ | ⟨k, p, hk, _, h3⟩
    · rw [h2]; exact h
    · rw [h3]
      rw [names_split reg k p hk] at h
      simp only [List.map_append]
      exact h.sublist (List.Sublist.append (List.Sublist.refl _) (List.sublist_cons_self _ _))

theorem run_reg_ops_nodup (ops : List RegOp) : ∀ (reg : plugtab_t),
    (reg.map (fun p => p.name)).Nodup →
    ((run_reg_ops reg ops).map (fun p => p.name)).Nodup := by
  induction ops with
  | nil => intro reg h; exact h
  | cons op rest ih =>
    intro reg h
    show ((run_reg_ops (RegOp.apply reg op) rest).map (fun p => p.name)).Nodup
    exact ih _ (reg_op_nodup reg op h)

/-- With distinct names, a second unload of the same name finds nothing. -/
theorem unload_twice (reg : plugtab_t) (name : List Byte)
    (hnd : (reg.map (fun p => p.name)).Nodup)
    (h0 : (unload_plugin_by_name reg name).1 = 0) :
    unload_plugin_by_name (unload_plugin_by_name reg name).2.1 name
      = (-1, (unload_plugin_by_name reg name).2.1, []) := by
  rcases unload_plugin_by_name_cases reg name with ⟨_, h2⟩ | ⟨k, p, hk, hp, h3⟩
  · rw [h2] at h0; simp at h0
  · rw [h3]
    simp only
    rw [names_split reg k p hk, hp] at hnd
    have hnot : name ∉ (reg.take k ++ reg.drop (k + 1)).map (fun q => q.name) := by
      rw [List.map_append]
      intro hm
      rcases List.mem_append.1 hm with hm | hm
      · have := (List.nodup_append.1 hnd).2.2
        exact this hm (List.mem_cons_self _ _)
      · have := (List.nodup_append.1 hnd).2.1
        exact (List.nodup_cons.1 this).1 hm
    rcases unload_plugin_by_name_cases (reg.take k ++ reg.drop (k + 1)) name
      with ⟨_, h2⟩ | ⟨j, q, hj, hq, _⟩
    · exact h2
    · exfalso
      apply hnot
      rw [← hq]
      exact List.mem_map_of_mem _ (List.getElem?_mem hj)

/-- Claim C12: in every registry reachable from the empty one by
`load_plugin_from_path` and `unload_plugin_by_name` calls the stored plugin names are
pairwise distinct; so, for every name, after `unload_plugin_by_name(name)` has returned
0 an immediately following `unload_plugin_by_name(name)` returns -1, calls no plugin
entry point (it makes no call at all) and leaves the registry unchanged. -/
theorem C12_names_distinct_unload_twice (ops : List RegOp) :
    ((run_reg_ops [] ops).map (fun p => p.name)).Nodup ∧
    (∀ name : List Byte, (unload_plugin_by_name (run_reg_ops [] ops) name).1 = 0 →
      unload_plugin_by_name (unload_plugin_by_name (run_reg_ops [] ops) name).2.1 name
        = (-1, (unload_plugin_by_name (run_reg_ops [] ops) name).2.1, [])) :=
  ⟨run_reg_ops_nodup ops [] List.nodup_nil,
    fun name h0 => unload_twice _ name (run_reg_ops_nodup ops [] List.nodup_nil) h0⟩
/-! ## Control-plane helpers: lemmas -/

theorem strstr_skip (q : Byte) (n : List Byte) :
    ∀ (V R : List Byte), q ∉ V → strstr (V ++ R) (q :: n) = strstr R (q :: n)
  | [], _, _ => rfl
  | a :: V, R, h => by
    have ha : (q == a) = false := by
      simp only [beq_eq_false_iff_ne, ne_eq]
      exact fun e => h (by simp [e])
    have hV : q ∉ V := fun e => h (List.mem_cons_of_mem _ e)
    have ih := strstr_skip q n V R hV
    simp only [List.cons_append, strstr, List.isPrefixOf, ha, Bool.false_and, if_false,
      Bool.false_eq_true]
    exact ih

theorem prefix_forces (R : List Byte) :
    ∀ (w V : List Byte), (34 : Byte) ∉ V → (34 : Byte) ∉ w → w ++ [34] <+: V ++ 34 :: R → V = w
  | [], [], _, _, _ => rfl
  | [], a :: V, hV, _, h => by
    exfalso
    simp only [List.nil_append, List.cons_append, List.cons_prefix_cons] at h
    exact hV (by simp [h.1])
  | b :: w, [], _, hw, h => by
    exfalso
    simp only [List.nil_append, List.cons_append, List.cons_prefix_cons] at h
    exact hw (by simp [h.1])
  | b :: w, a :: V, hV, hw, h => by
    simp only [List.cons_append, List.cons_prefix_cons] at h
    have := prefix_forces R w V (fun e => hV (List.mem_cons_of_mem _ e))
      (fun e => hw (List.mem_cons_of_mem _ e)) h.2
    rw [this, h.1]

theorem takeWhile_plain (R : List Byte) :
    ∀ (V : List Byte), plain V →
      List.takeWhile (fun b => !b == 34 && !b == 10 && !b == 13) (V ++ 34 :: R) = V
  | [], _ => by simp
  | a :: V, h => by
    obtain ⟨h1, h2, h3⟩ := h
    have ih := takeWhile_plain R V
      ⟨fun e => h1 (List.mem_cons_of_mem _ e), fun e => h2 (List.mem_cons_of_mem _ e),
       fun e => h3 (List.mem_cons_of_mem _ e)⟩
    have a1 : ¬ (a = 34) := fun e => h1 (by simp [e])
    have a2 : ¬ (a = 10) := fun e => h2 (by simp [e])
    have a3 : ¬ (a = 13) := fun e => h3 (by simp [e])
    simp only [List.cons_append, List.takeWhile_cons, ih]
    simp [a1, a2, a3]

theorem take_eq_short (w : List Byte) (k : Nat) (hw : w.length < k) (V : List Byte) :
    V.take k = w ↔ V = w := by
  constructor
  · intro h
    have hl : (V.take k).length = w.length := by rw [h]
    rw [List.length_take] at hl
    have : V.length ≤ k := by omega
    rw [List.take_of_length_le this] at h
    exact h
  · intro h
    subst h
    exact List.take_of_length_le (by omega)

theorem json_get_type_key (T F D : List Byte) (hT : plain T) :
    json_get (ctrl_frame T F D) (cstr "\"type\"") 32 = some (T.take 31) := by
  have eA : cstr "\x7b\"type\":\"" = [123, 34, 116, 121, 112, 101, 34, 58, 34] := by decide
  have eB : cstr "\",\"feed\":\"" = [34, 44, 34, 102, 101, 101, 100, 34, 58, 34] := by decide
  have eK : cstr "\"type\"" = [34, 116, 121, 112, 101, 34] := by decide
  unfold json_get ctrl_frame
  rw [eA, eB, eK]
  simp only [List.cons_append, List.nil_append, List.append_assoc]
  simp [strstr, strchr, skip_open, List.isPrefixOf, takeWhile_plain _ T hT]

theorem json_get_feed_key (T F D : List Byte) (hT : plain T) (hF : plain F) :
    json_get (ctrl_frame T F D) (cstr "\"feed\"") 128 = some (F.take 127) := by
  have eA : cstr "\x7b\"type\":\"" = [123, 34, 116, 121, 112, 101, 34, 58, 34] := by decide
  have eB : cstr "\",\"feed\":\"" = [34, 44, 34, 102, 101, 101, 100, 34, 58, 34] := by decide
  have eC : cstr "\",\"data\":\"" = [34, 44, 34, 100, 97, 116, 97, 34, 58, 34] := by decide
  have eK : cstr "\"feed\"" = [34, 102, 101, 101, 100, 34] := by decide
  unfold json_get ctrl_frame
  rw [eA, eB, eC, eK]
  simp only [List.cons_append, List.nil_append, List.append_assoc]
  by_cases h : [102, 101, 101, 100, 34] <+:
      T ++ 34 :: 44 :: 34 :: 102 :: 101 :: 101 :: 100 :: 34 :: 58 :: 34 ::
        (F ++ 34 :: 44 :: 34 :: 100 :: 97 :: 116 :: 97 :: 34 :: 58 :: 34 :: (D ++ cstr "\"\x7d"))
  · have hT2 : T = [102, 101, 101, 100] :=
      prefix_forces _ [102, 101, 101, 100] T hT.1 (by decide) h
    subst hT2
    simp [strstr, strchr, skip_open, List.isPrefixOf, takeWhile_plain _ F hF]
  · have hs := strstr_skip 34 [102, 101, 101, 100, 34] T
      (34 :: 44 :: 34 :: 102 :: 101 :: 101 :: 100 :: 34 :: 58 :: 34 ::
        (F ++ 34 :: 44 :: 34 :: 100 :: 97 :: 116 :: 97 :: 34 :: 58 :: 34 :: (D ++ cstr "\"\x7d"))) hT.1
    simp [strstr, strchr, skip_open, List.isPrefixOf, takeWhile_plain _ F hF, h, hs]

theorem json_get_data_key (T F D : List Byte) (hT : T = cstr "command" ∨ T = cstr "publish")
    (hF : plain F) (hD : plain D) :
    json_get (ctrl_frame T F D) (cstr "\"data\"") 1024 = some (D.take 1023) := by
  have eA : cstr "\x7b\"type\":\"" = [123, 34, 116, 121, 112, 101, 34, 58, 34] := by decide
  have eB : cstr "\",\"feed\":\"" = [34, 44, 34, 102, 101, 101, 100, 34, 58, 34] := by decide
  have eC : cstr "\",\"data\":\"" = [34, 44, 34, 100, 97, 116, 97, 34, 58, 34] := by decide
  have eE : cstr "\"\x7d" = [34, 125] := by decide
  have eK : cstr "\"data\"" = [34, 100, 97, 116, 97, 34] := by decide
  have e1 : cstr "command" = [99, 111, 109, 109, 97, 110, 100] := by decide
  have e2 : cstr "publish" = [112, 117, 98, 108, 105, 115, 104] := by decide
  unfold json_get ctrl_frame
  rw [eA, eB, eC, eE, eK]
  by_cases h : [100, 97, 116, 97, 34] <+:
      F ++ 34 :: 44 :: 34 :: 100 :: 97 :: 116 :: 97 :: 34 :: 58 :: 34 :: (D ++ [34, 125])
  · have hF2 : F = [100, 97, 116, 97] :=
      prefix_forces _ [100, 97, 116, 97] F hF.1 (by decide) h
    subst hF2
    rcases hT with hT | hT <;> rw [hT] <;> (first | rw [e1] | rw [e2]) <;>
      simp [strstr, strchr, skip_open, List.isPrefixOf, takeWhile_plain _ D hD]
  · have hs := strstr_skip 34 [100, 97, 116, 97, 34] F
      (34 :: 44 :: 34 :: 100 :: 97 :: 116 :: 97 :: 34 :: 58 :: 34 :: (D ++ [34, 125])) hF.1
    rcases hT with hT | hT <;> rw [hT] <;> (first | rw [e1] | rw [e2]) <;>
      simp [strstr, strchr, skip_open, List.isPrefixOf, takeWhile_plain _ D hD, h, hs]

theorem ph_ctrl_dispatch_frame (c : ph_ctrl_t) (T F D : List Byte) (hT : plain T) (hF : plain F)
    (hD : plain D) (hc : c.feed_in.length ≤ 95) :
    ph_ctrl_dispatch c (ctrl_frame T F D) true =
      if (T = cstr "command" ∨ T = cstr "publish") ∧ F = c.feed_in then (true, [D.take 1023])
      else (false, []) := by
  unfold ph_ctrl_dispatch
  rw [json_get_type_key T F D hT, json_get_feed_key T F D hT hF]
  have hf : F.take 127 = c.feed_in ↔ F = c.feed_in := take_eq_short _ 127 (by omega) F
  have h1 : T.take 31 = cstr "command" ↔ T = cstr "command" := take_eq_short _ 31 (by decide) T
  have h2 : T.take 31 = cstr "publish" ↔ T = cstr "publish" := take_eq_short _ 31 (by decide) T
  by_cases hFc : F = c.feed_in
  · by_cases hTc : T = cstr "command" ∨ T = cstr "publish"
    · rw [json_get_data_key T F D hTc hF hD]
      simp [hf.2 hFc, hFc, hTc, h1, h2]
      omega
    · simp [hf.2 hFc, hFc, hTc, h1, h2]
  · have : ¬ (F.take 127 = c.feed_in) := fun e => hFc (hf.1 e)
    simp [this, hFc]

/-- Claim C13, counterexample: with the context of addon wfmd, the frame
{"type":"command","feed":"wfmd.config.in","data":D} whose D is 1024 letters a (no double
quote, no line break) makes `ph_ctrl_dispatch` return true and invoke the callback once,
but with the first 1023 bytes of D, not with D: the command line is copied into
`char data[1024]`. -/
theorem C13_counterexample_data_of_1024_bytes :
    plain (List.replicate 1024 (97 : Byte)) ∧
    ph_ctrl_dispatch (ph_ctrl_init 3 (cstr "wfmd"))
        (ctrl_frame (cstr "command") (cstr "wfmd.config.in") (List.replicate 1024 97)) true
      = (true, [List.replicate 1023 97]) ∧
    List.replicate 1023 (97 : Byte) ≠ List.replicate 1024 97 := by
  have hp : plain (List.replicate 1024 (97 : Byte)) := by
    refine ⟨fun h => ?_, fun h => ?_, fun h => ?_⟩ <;>
      exact absurd (List.eq_of_mem_replicate h) (by decide)
  refine ⟨hp, ?_, ?_⟩
  · rw [ph_ctrl_dispatch_frame _ _ _ _ (by decide) (by decide) hp (by decide)]
    have e : (ph_ctrl_init 3 (cstr "wfmd")).feed_in = cstr "wfmd.config.in" := by decide
    rw [if_pos ⟨Or.inl rfl, e.symm⟩, List.take_replicate]
    rfl
  · intro h
    have hl := congrArg List.length h
    rw [List.length_replicate, List.length_replicate] at hl
    omega

/-- Claim C13, amended: for every control context c (its `feed_in` fits `char[96]`) and
every frame {"type":"T","feed":"F","data":"D"} with T, F, D free of double quotes and line
breaks and D of at most 1023 bytes, `ph_ctrl_dispatch` with a non-null callback returns
true and invokes the callback exactly once, with command line D, if and only if T is
command or publish and F equals `c.feed_in`; in every other case it returns false and
does not invoke the callback. -/
theorem C13_dispatch_iff_type_and_feed (c : ph_ctrl_t) (T F D : List Byte)
    (hc : c.feed_in.length ≤ 95) (hT : plain T) (hF : plain F) (hD : plain D)
    (hlen : D.length ≤ 1023) :
    ph_ctrl_dispatch c (ctrl_frame T F D) true =
      if (T = cstr "command" ∨ T = cstr "publish") ∧ F = c.feed_in then (true, [D])
      else (false, []) := by
  rw [ph_ctrl_dispatch_frame c T F D hT hF hD hc, List.take_of_length_le hlen]

/-- Witness for C13: the frame {"type":"publish","feed":"wfmd.config.in","data":"gain 3"}
handed to the context of addon wfmd. -/
theorem C13_dispatch_iff_type_and_feed_witness :
    (ph_ctrl_init 3 (cstr "wfmd")).feed_in.length ≤ 95 ∧ plain (cstr "publish") ∧
    plain (cstr "wfmd.config.in") ∧ plain (cstr "gain 3") ∧ (cstr "gain 3").length ≤ 1023 ∧
    ph_ctrl_dispatch (ph_ctrl_init 3 (cstr "wfmd"))
        (ctrl_frame (cstr "publish") (cstr "wfmd.config.in") (cstr "gain 3")) true =
      if (cstr "publish" = cstr "command" ∨ cstr "publish" = cstr "publish") ∧
          cstr "wfmd.config.in" = (ph_ctrl_init 3 (cstr "wfmd")).feed_in
      then (true, [cstr "gain 3"]) else (false, []) :=
  ⟨by decide, by decide, by decide, by decide, by decide,
   C13_dispatch_iff_type_and_feed (ph_ctrl_init 3 (cstr "wfmd")) (cstr "publish")
     (cstr "wfmd.config.in") (cstr "gain 3") (by decide) (by decide) (by decide) (by decide)
     (by decide)⟩

theorem command_text_eq (F D : List Byte) :
    command_text F D = ctrl_frame (cstr "command") F D := by
  have e0 : cstr "\x7b\"type\":\"command\",\"feed\":\"" =
      cstr "\x7b\"type\":\"" ++ cstr "command" ++ cstr "\",\"feed\":\"" := by decide
  unfold command_text ctrl_frame
  rw [e0]

theorem plain_append (a b : List Byte) (ha : plain a) (hb : plain b) : plain (a ++ b) := by
  obtain ⟨a1, a2, a3⟩ := ha
  obtain ⟨b1, b2, b3⟩ := hb
  refine ⟨?_, ?_, ?_⟩ <;> simp [List.mem_append, *]

theorem command_text_length (F D : List Byte) :
    (command_text F D).length = F.length + D.length + 38 := by
  have e0 : (cstr "\x7b\"type\":\"command\",\"feed\":\"").length = 26 := by decide
  have e1 : (cstr "\",\"data\":\"").length = 10 := by decide
  have e2 : (cstr "\"\x7d").length = 2 := by decide
  unfold command_text
  simp only [List.length_append, e0, e1, e2]
  omega

/-- Claim C14: for every addon name of at most 63 bytes and every command line cmd, both
free of double quote, CR and LF, and with the formatted frame fitting the 768-byte buffer of
`ph_command` (at most 767 bytes before the NUL): the context built by `ph_ctrl_init` has
`feed_in` equal to the name followed by .config.in, `ph_command(feed_in, cmd)` emits one
frame, the formatted text in full, and `ph_ctrl_dispatch` applied to that frame with this
context returns true and invokes the callback once, with exactly cmd. -/
theorem C14_command_round_trip (fd : Int) (name cmd : List Byte)
    (hn : name.length ≤ 63) (hpn : plain name) (hpc : plain cmd)
    (hfit : (command_text (name ++ cstr ".config.in") cmd).length ≤ 767) :
    (ph_ctrl_init fd name).feed_in = name ++ cstr ".config.in" ∧
    ph_command fd (ph_ctrl_init fd name).feed_in cmd =
      [Act.send_frame_json fd (command_text (name ++ cstr ".config.in") cmd)
        (command_text (name ++ cstr ".config.in") cmd).length] ∧
    ph_ctrl_dispatch (ph_ctrl_init fd name) (command_text (name ++ cstr ".config.in") cmd) true
      = (true, [cmd]) := by
  have hs : (cstr ".config.in").length = 10 := by decide
  have hfl : (name ++ cstr ".config.in").length ≤ 95 := by
    rw [List.length_append, hs]; omega
  have hfeed : (ph_ctrl_init fd name).feed_in = name ++ cstr ".config.in" := by
    unfold ph_ctrl_init
    exact List.take_of_length_le hfl
  have hlen := command_text_length (name ++ cstr ".config.in") cmd
  refine ⟨hfeed, ?_, ?_⟩
  · rw [hfeed]
    unfold ph_command emit_frame snprintf_ret
    have h1 : (command_text (name ++ cstr ".config.in") cmd).length < 2 ^ 31 := by omega
    have h2 : ((command_text (name ++ cstr ".config.in") cmd).length : Int) > 0 := by omega
    rw [if_pos h1, if_pos h2, List.take_of_length_le (by omega)]
  · rw [command_text_eq,
      ph_ctrl_dispatch_frame _ _ _ _ (by decide) (plain_append _ _ hpn (by decide)) hpc
        (by rw [hfeed]; exact hfl),
      if_pos ⟨Or.inl rfl, hfeed.symm⟩, List.take_of_length_le (by omega)]

/-- Witness for C14: addon wfmd and the command line gain 3. -/
theorem C14_command_round_trip_witness :
    (cstr "wfmd").length ≤ 63 ∧ plain (cstr "wfmd") ∧ plain (cstr "gain 3") ∧
    (command_text (cstr "wfmd" ++ cstr ".config.in") (cstr "gain 3")).length ≤ 767 ∧
    (ph_ctrl_init 3 (cstr "wfmd")).feed_in = cstr "wfmd" ++ cstr ".config.in" ∧
    ph_command 3 (ph_ctrl_init 3 (cstr "wfmd")).feed_in (cstr "gain 3") =
      [Act.send_frame_json 3 (command_text (cstr "wfmd" ++ cstr ".config.in") (cstr "gain 3"))
        (command_text (cstr "wfmd" ++ cstr ".config.in") (cstr "gain 3")).length] ∧
    ph_ctrl_dispatch (ph_ctrl_init 3 (cstr "wfmd"))
        (command_text (cstr "wfmd" ++ cstr ".config.in") (cstr "gain 3")) true
      = (true, [cstr "gain 3"]) :=
  ⟨by decide, by decide, by decide, by decide,
   C14_command_round_trip 3 (cstr "wfmd") (cstr "gain 3") (by decide) (by decide) (by decide)
     (by decide)⟩
/-! ## Shared-memory helper: theorems -/

/-- Claim C15, counterexample: a handle with a mapped header of capacity 4 that owns no
descriptor (`fd` is -1) is refused by `ph_shm_publish` for a source block of 2 bytes:
the call returns -1 and leaves the handle as it was, although 2 <= capacity. -/
theorem C15_counterexample_handle_without_fd :
    handle_without_fd.hdr.isSome = true ∧
    ph_shm_publish (some handle_without_fd) (some [1, 2]) 2 true
      = some (-1, some handle_without_fd, none) := by decide

/-- Claim C15, amended: for every handle with a mapped header and an owned descriptor
(`fd >= 0`), the mapping holding `capacity` payload bytes, and every source block of n
bytes, `ph_shm_publish` returns, and returns 0 if and only if n <= capacity (else -1).
On success payload[0..n) equals the source, payload bytes at index >= n are unchanged,
`used` is n, `seq` is the previous `seq` plus one modulo 2^64 (plus one when that fits 64
bits), that new value is what is stored in `*out_seq`, and the other fields are unchanged;
when n > capacity the handle, header and payload are unchanged. -/
theorem C15_publish_iff_fits (s0 : ph_shm_t) (h : ph_shm_v0_t) (src : List Byte)
    (has_out_seq : Bool) (hh : s0.hdr = some h) (hfd : 0 ≤ s0.fd)
    (hmap : h.capacity ≤ h.data.length) (hcap : h.capacity < 2 ^ 32) :
    ∃ ret s1 o, ph_shm_publish (some s0) (some src) src.length has_out_seq = some (ret, s1, o) ∧
      (ret = 0 ∨ ret = -1) ∧
      (ret = 0 ↔ src.length ≤ h.capacity) ∧
      (src.length ≤ h.capacity → ∃ h1, s1 = some { s0 with hdr := some h1 } ∧
        h1.data.take src.length = src ∧
        h1.data.drop src.length = h.data.drop src.length ∧
        h1.used = src.length ∧
        h1.seq = (h.seq + 1) % 2 ^ 64 ∧
        (h.seq + 1 < 2 ^ 64 → h1.seq = h.seq + 1) ∧
        o = (if has_out_seq then some h1.seq else none) ∧
        h1.magic = h.magic ∧ h1.ver_major = h.ver_major ∧ h1.ver_minor = h.ver_minor ∧
        h1.capacity = h.capacity) ∧
      (h.capacity < src.length → s1 = some s0 ∧ o = none) := by
  have hfd2 : ¬ (s0.fd < 0) := by omega
  by_cases hn : src.length ≤ h.capacity
  · have hn2 : ¬ (src.length > h.capacity) := by omega
    have hr : read_at src 0 src.length = some src := by
      unfold read_at
      rw [if_pos (by omega)]
      simp
    have hw : write_at h.data 0 src = some (src ++ h.data.drop src.length) := by
      unfold write_at
      rw [if_pos (by omega)]
      simp
    refine ⟨0,
      some { s0 with hdr := some { h with data := src ++ h.data.drop src.length,
                                          used := u32 src.length, seq := u64 (h.seq + 1) } },
      if has_out_seq then some (u64 (h.seq + 1)) else none,
      ?_, Or.inl rfl, ⟨fun _ => hn, fun _ => rfl⟩,
      fun _ => ⟨{ h with data := src ++ h.data.drop src.length,
                         used := u32 src.length, seq := u64 (h.seq + 1) }, rfl, ?_⟩,
      fun hlt => absurd hlt (by omega)⟩
    · simp only [ph_shm_publish, hh, if_neg hfd2, if_neg hn2, hr, hw]
    · refine ⟨List.take_left' rfl, ?_, ?_, rfl, ?_, rfl, rfl, rfl, rfl, rfl⟩
      · simp
      · show u32 src.length = src.length
        unfold u32
        exact Nat.mod_eq_of_lt (by omega)
      · intro hs
        show u64 (h.seq + 1) = h.seq + 1
        unfold u64
        exact Nat.mod_eq_of_lt hs
  · have hn2 : src.length > h.capacity := by omega
    refine ⟨-1, some s0, none, ?_, Or.inr rfl, ⟨fun e => absurd e (by decide), fun e => absurd e hn⟩,
      fun e => absurd e hn, fun _ => ⟨rfl, rfl⟩⟩
    simp only [ph_shm_publish, hh, if_neg hfd2, if_pos hn2]

/-- Witness for C15: two bytes published through a handle of capacity 4. -/
theorem C15_publish_iff_fits_witness :
    ∃ h, demo_handle.hdr = some h ∧ 0 ≤ demo_handle.fd ∧ h.capacity ≤ h.data.length ∧
      h.capacity < 2 ^ 32 ∧
      ∃ ret s1 o, ph_shm_publish (some demo_handle) (some [1, 2]) ([1, 2] : List Byte).length true
          = some (ret, s1, o) ∧
        (ret = 0 ∨ ret = -1) ∧
        (ret = 0 ↔ ([1, 2] : List Byte).length ≤ h.capacity) ∧
        (([1, 2] : List Byte).length ≤ h.capacity → ∃ h1,
          s1 = some { demo_handle with hdr := some h1 } ∧
          h1.data.take ([1, 2] : List Byte).length = [1, 2] ∧
          h1.data.drop ([1, 2] : List Byte).length = h.data.drop ([1, 2] : List Byte).length ∧
          h1.used = ([1, 2] : List Byte).length ∧
          h1.seq = (h.seq + 1) % 2 ^ 64 ∧
          (h.seq + 1 < 2 ^ 64 → h1.seq = h.seq + 1) ∧
          o = (if true then some h1.seq else none) ∧
          h1.magic = h.magic ∧ h1.ver_major = h.ver_major ∧ h1.ver_minor = h.ver_minor ∧
          h1.capacity = h.capacity) ∧
        (h.capacity < ([1, 2] : List Byte).length → s1 = some demo_handle ∧ o = none) :=
  ⟨_, rfl, by decide, by decide, by decide,
   C15_publish_iff_fits demo_handle _ [1, 2] true rfl (by decide) (by decide) (by decide)⟩

/-- Claim C16, counterexample: a mappable region of 28 bytes whose header has the right
magic, the right major and minor 2 (newer than `PH_SHM_VMINOR`, which is 1) is refused:
`ph_shm_attach` returns -1. -/
theorem C16_counterexample_newer_minor_refused :
    newer_minor_header.magic = PH_SHM_MAGIC ∧ newer_minor_header.ver_major = PH_SHM_VMAJOR ∧
    (ph_shm_attach (some ⟨-1, 0, none⟩) 5 (some 28) (some newer_minor_header)).1 = -1 := by
  decide

/-- Claim C16, amended: for every region at least `sizeof(ph_shm_v0_t)` bytes long that can
be mapped (handle non-null, `fd >= 0`), `ph_shm_attach` succeeds (returns 0, else -1) if and
only if the header's magic equals `PH_SHM_MAGIC`, its major equals `PH_SHM_VMAJOR` and its
minor is at most `PH_SHM_VMINOR`; a region shorter than the header is always rejected. -/
theorem C16_attach_iff_magic_major_minor (s0 : ph_shm_t) (fd : Int) (hfd : 0 ≤ fd) :
    (∀ (size : Int) (hdr : ph_shm_v0_t), sizeof_ph_shm_v0_t ≤ size →
      (((ph_shm_attach (some s0) fd (some size) (some hdr)).1 = 0 ∨
        (ph_shm_attach (some s0) fd (some size) (some hdr)).1 = -1) ∧
       ((ph_shm_attach (some s0) fd (some size) (some hdr)).1 = 0 ↔
        hdr.magic = PH_SHM_MAGIC ∧ hdr.ver_major = PH_SHM_VMAJOR ∧
          hdr.ver_minor ≤ PH_SHM_VMINOR) ∧
       ((ph_shm_attach (some s0) fd (some size) (some hdr)).1 = 0 →
        (ph_shm_attach (some s0) fd (some size) (some hdr)).2
          = some ⟨fd, size.toNat, some hdr⟩))) ∧
    (∀ (size : Int) (mapped : Option ph_shm_v0_t), size < sizeof_ph_shm_v0_t →
      (ph_shm_attach (some s0) fd (some size) mapped).1 = -1) := by
  have hfd2 : ¬ (fd < 0) := by omega
  constructor
  · intro size hdr hsz
    have hsz2 : ¬ (size < sizeof_ph_shm_v0_t) := by omega
    by_cases hm : hdr.magic = PH_SHM_MAGIC
    · by_cases hv : hdr.ver_major ≠ PH_SHM_VMAJOR ∨ hdr.ver_minor > PH_SHM_VMINOR
      · have e : ph_shm_attach (some s0) fd (some size) (some hdr)
            = (-1, some ⟨-1, 0, none⟩) := by
          have hm2 : ¬ (hdr.magic ≠ PH_SHM_MAGIC) := fun c => c hm
          simp only [ph_shm_attach, if_neg hfd2, if_neg hsz2, if_neg hm2, if_pos hv]
        rw [e]
        refine ⟨Or.inr rfl, ⟨fun e => absurd e (by decide), fun e => ?_⟩,
          fun e => absurd e (by decide)⟩
        rcases hv with hv | hv
        · exact absurd e.2.1 hv
        · exact absurd e.2.2 (by omega)
      · have e : ph_shm_attach (some s0) fd (some size) (some hdr)
            = (0, some ⟨fd, size.toNat, some hdr⟩) := by
          have hm2 : ¬ (hdr.magic ≠ PH_SHM_MAGIC) := fun c => c hm
          simp only [ph_shm_attach, if_neg hfd2, if_neg hsz2, if_neg hm2, if_neg hv]
        rw [e]
        refine ⟨Or.inl rfl, ⟨fun _ => ⟨hm, ?_, ?_⟩, fun _ => rfl⟩, fun _ => rfl⟩
        · by_contra hc; exact hv (Or.inl hc)
        · by_contra hc; exact hv (Or.inr (by omega))
    · have e : ph_shm_attach (some s0) fd (some size) (some hdr)
          = (-1, some ⟨-1, 0, none⟩) := by
        have hm2 : hdr.magic ≠ PH_SHM_MAGIC := hm
        simp only [ph_shm_attach, if_neg hfd2, if_neg hsz2, if_pos hm2]
      rw [e]
      exact ⟨Or.inr rfl, ⟨fun e => absurd e (by decide), fun e => absurd e.1 hm⟩,
        fun e => absurd e (by decide)⟩
  · intro size mapped hsz
    simp only [ph_shm_attach, if_neg hfd2, if_pos hsz]

/-- Witness for C16: descriptor 5 attached to a cleared handle. -/
theorem C16_attach_iff_magic_major_minor_witness :
    (0 : Int) ≤ 5 ∧
    ((∀ (size : Int) (hdr : ph_shm_v0_t), sizeof_ph_shm_v0_t ≤ size →
      (((ph_shm_attach (some ⟨-1, 0, none⟩) 5 (some size) (some hdr)).1 = 0 ∨
        (ph_shm_attach (some ⟨-1, 0, none⟩) 5 (some size) (some hdr)).1 = -1) ∧
       ((ph_shm_attach (some ⟨-1, 0, none⟩) 5 (some size) (some hdr)).1 = 0 ↔
        hdr.magic = PH_SHM_MAGIC ∧ hdr.ver_major = PH_SHM_VMAJOR ∧
          hdr.ver_minor ≤ PH_SHM_VMINOR) ∧
       ((ph_shm_attach (some ⟨-1, 0, none⟩) 5 (some size) (some hdr)).1 = 0 →
        (ph_shm_attach (some ⟨-1, 0, none⟩) 5 (some size) (some hdr)).2
          = some ⟨5, size.toNat, some hdr⟩))) ∧
    (∀ (size : Int) (mapped : Option ph_shm_v0_t), size < sizeof_ph_shm_v0_t →
      (ph_shm_attach (some ⟨-1, 0, none⟩) 5 (some size) mapped).1 = -1)) :=
  ⟨by decide, C16_attach_iff_magic_major_minor ⟨-1, 0, none⟩ 5 (by decide)⟩
/-! ## Short sends, feed names, and the command and unsubscribe verbs -/

/-- Claim C17, failing input: a 2-byte payload sent with one descriptor, the kernel taking
the four bytes of the length word and then one byte in the `sendmsg`.
`send_frame_json_with_fds` returns 0 although the stream holds the length word and only
the first payload byte: the result of `sendmsg` is tested for `s < 0` alone and the rest
is never sent. -/
theorem C17_short_sendmsg_reports_success :
    (send_frame_json_with_fds [1, 2] 2 (some [7]) 1 [⟨4, false⟩, ⟨1, false⟩] []).ret = 0 ∧
    (send_frame_json_with_fds [1, 2] 2 (some [7]) 1 [⟨4, false⟩, ⟨1, false⟩] []).out
      = [0, 0, 0, 2, 1] ∧
    (send_frame_json_with_fds [1, 2] 2 (some [7]) 1 [⟨4, false⟩, ⟨1, false⟩] []).out
      ≠ htonl 2 ++ [1, 2] := by decide

theorem find_none_not_mem (t : feedtab_t) (name : List Byte)
    (h : t.find? (fun f => f.name = name) = none) : name ∉ t.map (fun f => f.name) := by
  intro hm
  obtain ⟨f, hf, hn⟩ := List.mem_map.1 hm
  have := List.find?_eq_none.1 h f hf
  simp [hn] at this

theorem feedtab_ensure_names (t : feedtab_t) (name : List Byte)
    (hl : name.length ≤ POC_MAX_FEED - 1) (h : (t.map (fun f => f.name)).Nodup) :
    ((feedtab_ensure t name).1.map (fun f => f.name)).Nodup := by
  rcases feedtab_ensure_spec t name with ⟨k, f, he, _, _⟩ | ⟨hn, he⟩
  · rw [he]; exact h
  · rw [he]
    simp only [List.map_append, List.map_cons, List.map_nil, List.take_of_length_le hl]
    refine List.nodup_append.2 ⟨h, List.nodup_singleton _, ?_⟩
    intro a ha hb
    rw [List.mem_singleton] at hb
    subst hb
    exact find_none_not_mem t a hn ha

theorem feedtab_sub_names (t : feedtab_t) (name : List Byte) (fd : Int) :
    (feedtab_sub t name fd).map (fun f => f.name)
      = (feedtab_ensure t name).1.map (fun f => f.name) := by
  unfold feedtab_sub
  generalize feedtab_ensure t name = p
  obtain ⟨t1, idx⟩ := p
  simp only
  cases hget : t1[idx.toNat]? with
  | none => rfl
  | some f =>
    simp only
    by_cases hany : f.subs.any (fun x => x == fd) = true
    · rw [if_pos hany]
    · rw [if_neg hany]
      apply List.ext_getElem?
      intro i
      rw [List.getElem?_map, List.getElem?_map, List.getElem?_set]
      by_cases hi : idx.toNat = i
      · subst hi
        rw [if_pos rfl, hget]
        have hlt : idx.toNat < t1.length := by
          by_contra hc
          have hnone := List.getElem?_eq_none (Nat.le_of_not_lt hc)
          rw [hnone] at hget
          exact absurd hget (by simp)
        simp [hlt]
      · rw [if_neg hi]

theorem feedtab_unsub_all_fd_names (t : feedtab_t) (fd : Int) :
    (feedtab_unsub_all_fd t fd).map (fun f => f.name) = t.map (fun f => f.name) := by
  unfold feedtab_unsub_all_fd
  rw [List.map_map]
  rfl

theorem run_feed_ops_names (ops : List FeedOp) : ∀ (t : feedtab_t),
    (∀ op ∈ ops, op.short) → (t.map (fun f => f.name)).Nodup →
    ((run_feed_ops t ops).map (fun f => f.name)).Nodup := by
  induction ops with
  | nil => intro t _ h; exact h
  | cons op ops ih =>
    intro t hs h
    have hop : op.short := hs op (List.mem_cons_self _ _)
    have h63 : POC_MAX_FEED - 2 ≤ POC_MAX_FEED - 1 := by decide
    have hrest : ∀ o ∈ ops, o.short := fun o ho => hs o (List.mem_cons_of_mem _ ho)
    show ((run_feed_ops (FeedOp.apply t op) ops).map (fun f => f.name)).Nodup
    apply ih _ hrest
    cases op with
    | ensure name => exact feedtab_ensure_names t name (Nat.le_trans hop h63) h
    | sub name fd =>
      show ((feedtab_sub t name fd).map (fun f => f.name)).Nodup
      rw [feedtab_sub_names]
      exact feedtab_ensure_names t name (Nat.le_trans hop h63) h
    | unsub_all fd =>
      show ((feedtab_unsub_all_fd t fd).map (fun f => f.name)).Nodup
      rw [feedtab_unsub_all_fd_names]
      exact h

theorem feedtab_ensure_again (t : feedtab_t) (name : List Byte)
    (hl : name.length ≤ POC_MAX_FEED - 1) :
    feedtab_ensure (feedtab_ensure t name).1 name = feedtab_ensure t name := by
  rcases feedtab_ensure_spec t name with ⟨k, f, he, _, _⟩ | ⟨hn, he⟩
  · rw [he]
    exact he
  · rw [he]
    simp only [List.take_of_length_le hl]
    rcases feedtab_ensure_spec (t ++ [⟨name, []⟩]) name with
      ⟨k, f, he2, hk, hf⟩ | ⟨hn2, _⟩
    · rw [he2]
      have hfn : f.name = name := by
        have := List.find?_some hf
        simpa using this
      have hkl : k < (t ++ [(⟨name, []⟩ : feed_t)]).length := by
        by_contra hc
        rw [List.getElem?_eq_none (Nat.le_of_not_lt hc)] at hk
        exact absurd hk (by simp)
      rw [List.length_append, List.length_singleton] at hkl
      by_cases hkt : k < t.length
      · exfalso
        rw [List.getElem?_append_left hkt] at hk
        have hm : f ∈ t := List.getElem?_mem hk
        exact find_none_not_mem t name hn (List.mem_map.2 ⟨f, hm, hfn⟩)
      · have : k = t.length := by omega
        rw [this]
    · exfalso
      have := List.find?_eq_none.1 hn2 ⟨name, []⟩ (by simp)
      simp at this

/-- Claim C18, counterexample: `feedtab_ensure` called twice on an empty table with the
same name of 65 bytes.  The first call returns index 0.  The field keeps at most the
first 63 bytes and the byte after them, so the second call does not find the 65-byte
name: it returns index 1 and the table has two entries. -/
theorem C18_counterexample_name_of_65_bytes :
    long_feed_name.length = 65 ∧
    (feedtab_ensure [] long_feed_name).2 = 0 ∧
    (feedtab_ensure (feedtab_ensure [] long_feed_name).1 long_feed_name).2 = 1 ∧
    (feedtab_ensure (feedtab_ensure [] long_feed_name).1 long_feed_name).1.length = 2 := by
  decide

/-- Claim C18, amended: after every sequence of `feedtab_ensure`, `feedtab_sub` (and
`feedtab_unsub_all_fd`) calls whose names have at most 62 bytes (`POC_MAX_FEED - 2`), no
two entries of the feed table carry the same name, and `feedtab_ensure(name)`, for a name
of at most 62 bytes, called a second time returns the same index as the first call
without adding an entry. -/
theorem C18_feed_names_unique (ops : List FeedOp) (hs : ∀ op ∈ ops, op.short) :
    ((run_feed_ops [] ops).map (fun f => f.name)).Nodup ∧
    (∀ name : List Byte, name.length ≤ POC_MAX_FEED - 2 →
      feedtab_ensure (feedtab_ensure (run_feed_ops [] ops) name).1 name
        = feedtab_ensure (run_feed_ops [] ops) name) :=
  ⟨run_feed_ops_names ops [] hs List.nodup_nil,
   fun name hl => feedtab_ensure_again _ name (Nat.le_trans hl (by decide))⟩

/-- Witness for C18: feed foo ensured, descriptor 5 subscribed to bar, foo ensured
again. -/
theorem C18_feed_names_unique_witness :
    (∀ op ∈ [FeedOp.ensure (cstr "foo"), FeedOp.sub (cstr "bar") 5, FeedOp.ensure (cstr "foo")],
      op.short) ∧
    ((run_feed_ops [] [FeedOp.ensure (cstr "foo"), FeedOp.sub (cstr "bar") 5,
        FeedOp.ensure (cstr "foo")]).map (fun f => f.name)).Nodup ∧
    (∀ name : List Byte, name.length ≤ POC_MAX_FEED - 2 →
      feedtab_ensure (feedtab_ensure (run_feed_ops [] [FeedOp.ensure (cstr "foo"),
          FeedOp.sub (cstr "bar") 5, FeedOp.ensure (cstr "foo")]) name).1 name
        = feedtab_ensure (run_feed_ops [] [FeedOp.ensure (cstr "foo"),
          FeedOp.sub (cstr "bar") 5, FeedOp.ensure (cstr "foo")]) name) :=
  ⟨by decide,
   C18_feed_names_unique [FeedOp.ensure (cstr "foo"), FeedOp.sub (cstr "bar") 5,
     FeedOp.ensure (cstr "foo")] (by decide)⟩

/-- Claim C19, counterexample: feed foo has subscribers 5 and 7; the broker handles the
frame {"type":"command","feed":"foo","data":"x"} by sending nothing, while the publish
frame on foo is sent to 5 and to 7. -/
theorem C19_counterexample_command_on_foo :
    subscribers demo_broker.feeds (cstr "foo") = [5, 7] ∧
    handle_msg demo_env demo_broker 3 demo_command [] 0 = (demo_broker, []) ∧
    handle_msg demo_env demo_broker 3 demo_publish [] 0
      = (demo_broker, [Act.send_frame_json 5 demo_publish demo_publish.length,
                       Act.send_frame_json 7 demo_publish demo_publish.length]) := by
  decide

/-- Claim C19, amended: for every broker state and every frame whose type reads as command
and whose feed reads as F, F not being cli-control, the broker's handling of the frame
sends nothing and leaves the feed table and the registry as they were: the frame is
dropped, not fanned out as a publish frame is. -/
theorem C19_command_off_cli_control_dropped (env : Env) (st : Broker) (src : Int)
    (js F : List Byte) (fds : List Int) (nfds : Nat)
    (htype : json_get_type js 32 = some (cstr "command"))
    (hfeed : json_get_string js (cstr "feed") POC_MAX_FEED = some F)
    (hF : F ≠ cstr "cli-control") :
    handle_msg env st src js fds nfds = (st, []) := by
  have h1 : cstr "command" ≠ cstr "create_feed" := by decide
  have h2 : cstr "command" ≠ cstr "subscribe" := by decide
  have h3 : cstr "command" ≠ cstr "unsubscribe" := by decide
  have h4 : cstr "command" ≠ cstr "publish" := by decide
  unfold handle_msg
  simp only [htype, hfeed, h1, h2, h3, h4, if_false, if_true, ne_eq, hF, not_false_eq_true]

/-- Witness for C19: the frame {"type":"command","feed":"foo","data":"x"} handed to the
broker with feeds foo and bar. -/
theorem C19_command_off_cli_control_dropped_witness :
    json_get_type demo_command 32 = some (cstr "command") ∧
    json_get_string demo_command (cstr "feed") POC_MAX_FEED = some (cstr "foo") ∧
    cstr "foo" ≠ cstr "cli-control" ∧
    handle_msg demo_env demo_broker 3 demo_command [7] 1 = (demo_broker, []) :=
  ⟨by decide, by decide, by decide,
   C19_command_off_cli_control_dropped demo_env demo_broker 3 demo_command (cstr "foo") [7] 1
     (by decide) (by decide) (by decide)⟩

/-- Claim C20, failing input: connection 5 sends {"type":"subscribe","feed":"foo"} to a
broker without feeds, then {"type":"unsubscribe","feed":"foo"}, the frame `ph_unsubscribe`
emits.  The second frame changes nothing: 5 is still in the subscriber list of foo, and
a later publish on foo is still sent to 5. -/
theorem C20_unsubscribe_leaves_subscription :
    ph_unsubscribe 5 (cstr "foo")
      = [Act.send_frame_json 5 demo_unsubscribe demo_unsubscribe.length] ∧
    subscribers (handle_msg demo_env empty_broker 5 demo_subscribe [] 0).1.feeds (cstr "foo")
      = [5] ∧
    handle_msg demo_env (handle_msg demo_env empty_broker 5 demo_subscribe [] 0).1 5
        demo_unsubscribe [] 0
      = ((handle_msg demo_env empty_broker 5 demo_subscribe [] 0).1, []) ∧
    handle_msg demo_env
        (handle_msg demo_env (handle_msg demo_env empty_broker 5 demo_subscribe [] 0).1 5
          demo_unsubscribe [] 0).1 3 demo_publish [] 0
      = ((handle_msg demo_env empty_broker 5 demo_subscribe [] 0).1,
         [Act.send_frame_json 5 demo_publish demo_publish.length]) := by
  decide
/-! ## Shutdown order and the load path test -/

theorem plugtab_free_cons (p : plug_t) (t : plugtab_t) :
    plugtab_free (p :: t) = Act.plugin_stop p.dl :: Act.dlclose p.dl :: plugtab_free t := by
  simp [plugtab_free]

theorem plugtab_free_stopped : ∀ (t : plugtab_t),
    (plugtab_free t).filterMap Act.stopped = t.map (fun p => p.dl)
  | [] => rfl
  | p :: t => by
    rw [plugtab_free_cons]
    simp [List.filterMap_cons, Act.stopped, plugtab_free_stopped t]

theorem plugtab_free_length : ∀ (t : plugtab_t), (plugtab_free t).length = 2 * t.length
  | [] => rfl
  | p :: t => by
    rw [plugtab_free_cons]
    simp only [List.length_cons, plugtab_free_length t]
    omega

theorem plugtab_free_at : ∀ (t : plugtab_t) (i : Nat) (p : plug_t), t[i]? = some p →
    (plugtab_free t)[2 * i]? = some (Act.plugin_stop p.dl) ∧
    (plugtab_free t)[2 * i + 1]? = some (Act.dlclose p.dl)
  | [], i, p, h => by simp at h
  | q :: t, 0, p, h => by
    simp only [List.getElem?_cons_zero, Option.some.injEq] at h
    subst h
    rw [plugtab_free_cons]
    constructor
    · exact List.getElem?_cons_zero
    · show (Act.plugin_stop q.dl :: Act.dlclose q.dl :: plugtab_free t)[0 + 1]? = _
      rw [List.getElem?_cons_succ]
      exact List.getElem?_cons_zero
  | q :: t, i + 1, p, h => by
    simp only [List.getElem?_cons_succ] at h
    have ih := plugtab_free_at t i p h
    rw [plugtab_free_cons]
    have e1 : 2 * (i + 1) = (2 * i) + 1 + 1 := by omega
    have e2 : 2 * (i + 1) + 1 = (2 * i + 1) + 1 + 1 := by omega
    rw [e2, e1]
    simp only [List.getElem?_cons_succ]
    exact ih

/-- Claim C23, counterexample: with module a loaded before module b, the shutdown stops a
first and b second (each handle closed right after its stop), not b before a. -/
theorem C23_counterexample_stop_in_load_order :
    run_reg_ops [] [RegOp.load two_module_env (cstr "a.so"), RegOp.load two_module_env (cstr "b.so")]
      = [⟨mod_a, cstr "a", cstr "a.so"⟩, ⟨mod_b, cstr "b", cstr "b.so"⟩] ∧
    plugtab_free [⟨mod_a, cstr "a", cstr "a.so"⟩, ⟨mod_b, cstr "b", cstr "b.so"⟩]
      = [Act.plugin_stop mod_a, Act.dlclose mod_a, Act.plugin_stop mod_b, Act.dlclose mod_b] ∧
    (plugtab_free [⟨mod_a, cstr "a", cstr "a.so"⟩, ⟨mod_b, cstr "b", cstr "b.so"⟩]).filterMap
        Act.stopped ≠ [mod_b, mod_a] := by
  decide

/-- Claim C23, amended: for every registry holding modules m1, ..., mk in load order,
`plugtab_free` calls `plugin_stop` on every registered module exactly once, in load order
m1, ..., mk, and closes each module's handle right after that module's stop has returned:
the calls are stop m1, close m1, stop m2, close m2, and so on. -/
theorem C23_shutdown_in_load_order (t : plugtab_t) :
    (plugtab_free t).filterMap Act.stopped = t.map (fun p => p.dl) ∧
    (plugtab_free t).length = 2 * t.length ∧
    (∀ (i : Nat) (p : plug_t), t[i]? = some p →
      (plugtab_free t)[2 * i]? = some (Act.plugin_stop p.dl) ∧
      (plugtab_free t)[2 * i + 1]? = some (Act.dlclose p.dl)) :=
  ⟨plugtab_free_stopped t, plugtab_free_length t, plugtab_free_at t⟩

theorem strstr_none_of_absent (n : List Byte) : ∀ (s : List Byte), ¬ n <:+: s →
    strstr s n = none
  | [], h => by
    unfold strstr
    rw [if_neg]
    intro hn
    exact h (hn ▸ List.infix_refl _)
  | a :: s, h => by
    unfold strstr
    have hp : ¬ (n.isPrefixOf (a :: s) = true) := fun hp =>
      h (List.isPrefixOf_iff_prefix.1 hp).isInfix
    rw [if_neg hp]
    exact strstr_none_of_absent n s (fun hi => h (List.infix_cons hi))

/-- Claim C24, counterexample: the path x.so.bak does not end in .so, yet
`load_plugin_from_path` opens the module behind it, calls its entry points and registers
it, and so does the load verb: the test is `strstr(path, ".so")`. -/
theorem C24_counterexample_so_inside_path :
    ¬ (cstr ".so" <:+ cstr "x.so.bak") ∧
    load_plugin_from_path two_module_env [] (cstr "x.so.bak")
      = (0, [⟨mod_a, cstr "a", cstr "x.so.bak"⟩],
         [Act.dlopen (cstr "x.so.bak"), Act.plugin_name mod_a, Act.plugin_init mod_a,
          Act.plugin_start mod_a]) ∧
    (handle_cli two_module_env empty_broker 3 (cstr "load x.so.bak")).1.plugins
      = [⟨mod_a, cstr "a", cstr "x.so.bak"⟩] := by
  decide

/-- Claim C24, amended: for every path string that does not contain .so,
`load_plugin_from_path` and the load verb reject it: no module is opened, no entry point is
called, nothing is sent and the plugin registry is unchanged, whatever the file system
contains at that path. -/
theorem C24_path_without_so_rejected (env : Env) (st : Broker) (fd : Int) (path : List Byte)
    (h : ¬ cstr ".so" <:+: path) :
    load_plugin_from_path env st.plugins path = (-1, st.plugins, []) ∧
    handle_cli env st fd (cstr "load " ++ path) = (st, []) := by
  constructor
  · unfold load_plugin_from_path
    rw [strstr_none_of_absent _ _ h]
    simp
  · have hl : cstr "load " = [108, 111, 97, 100, 32] := by decide
    have h1 : cstr "help" = [104, 101, 108, 112] := by decide
    have h2 : cstr "feeds" = [102, 101, 101, 100, 115] := by decide
    have h3 : cstr "list feeds" = [108, 105, 115, 116, 32, 102, 101, 101, 100, 115] := by decide
    have h4 : cstr "plugins" = [112, 108, 117, 103, 105, 110, 115] := by decide
    have h5 : cstr "list addons" = [108, 105, 115, 116, 32, 97, 100, 100, 111, 110, 115] := by
      decide
    have h6 : cstr "available-addons"
        = [97, 118, 97, 105, 108, 97, 98, 108, 101, 45, 97, 100, 100, 111, 110, 115] := by decide
    have ht : ¬ cstr ".so" <:+: path.take 255 := fun hi =>
      h (hi.trans (List.take_prefix 255 path).isInfix)
    have hs := strstr_none_of_absent _ _ ht
    unfold handle_cli
    rw [hl, h1, h2, h3, h4, h5, h6]
    simp [hs]

/-- Witness for C24: the path plugin.txt. -/
theorem C24_path_without_so_rejected_witness :
    ¬ cstr ".so" <:+: cstr "plugin.txt" ∧
    load_plugin_from_path two_module_env empty_broker.plugins (cstr "plugin.txt")
      = (-1, empty_broker.plugins, []) ∧
    handle_cli two_module_env empty_broker 3 (cstr "load " ++ cstr "plugin.txt")
      = (empty_broker, []) :=
  ⟨by decide,
   C24_path_without_so_rejected two_module_env empty_broker 3 (cstr "plugin.txt") (by decide)⟩
/-! ## Reply helpers, emitter lengths and oversized audio bursts -/

/-- Claim C25, failing input: the context of addon wfmd and the message bad.
`ph_reply_err` publishes the data object {"ok":false,"err":"bad"} on wfmd.config.out, while
`ph_reply_errf` publishes {"ok":false,"msg":"bad"}: `vreply_fmt` writes the key msg for
both the ok and the error reply. -/
theorem C25_errf_reply_uses_msg_key :
    ph_reply_err (ph_ctrl_init 3 (cstr "wfmd")) (some (cstr "bad"))
      = [Act.send_frame_json 3
          (cstr "\x7b\"type\":\"publish\",\"feed\":\"wfmd.config.out\",\"data\":\x7b\"ok\":false,\"err\":\"bad\"\x7d\x7d")
          75] ∧
    ph_reply_errf (ph_ctrl_init 3 (cstr "wfmd")) (cstr "bad")
      = [Act.send_frame_json 3
          (cstr "\x7b\"type\":\"publish\",\"feed\":\"wfmd.config.out\",\"data\":\x7b\"ok\":false,\"msg\":\"bad\"\x7d\x7d")
          75] := by
  decide

/-- Claim C28, failing input: `ph_command` for the feed wfmd.config.in and a command line
of 800 letters a.  The formatted text has 852 bytes; the buffer `js[768]` holds its first
767, and the length handed to `send_frame_json` is 852. -/
theorem C28_command_length_exceeds_buffer :
    ph_command 3 (cstr "wfmd.config.in") (List.replicate 800 97)
      = [Act.send_frame_json 3
          ((command_text (cstr "wfmd.config.in") (List.replicate 800 97)).take 767) 852] ∧
    ((command_text (cstr "wfmd.config.in") (List.replicate 800 97)).take 767).length = 767 := by
  have hl : (command_text (cstr "wfmd.config.in") (List.replicate 800 97)).length = 852 := by
    rw [command_text_length, List.length_replicate]
    rfl
  constructor
  · unfold ph_command emit_frame snprintf_ret
    rw [hl]
    rfl
  · rw [List.length_take, hl]
    rfl

/-- Claim C26: for every audio ring state and every burst of `n_frames` frames whose byte
size `n_frames * bytes_per_samp * channels` exceeds the ring capacity (the size being a
`size_t` value, below 2^64), `ring_push_f32` returns with the header as it was: `wpos`,
`rpos`, `seq` and every payload byte are unchanged. -/
theorem C26_oversized_burst_refused (h : phau_hdr_t) (x : List Byte) (n_frames : Nat)
    (hbig : h.capacity < n_frames * h.bytes_per_samp * h.channels)
    (hfit : n_frames * h.bytes_per_samp * h.channels < 2 ^ 64) :
    ring_push_f32 (some h) (some x) n_frames = some (some h) := by
  have hn : n_frames ≠ 0 := by
    intro h0
    rw [h0, Nat.zero_mul, Nat.zero_mul] at hbig
    omega
  have hassoc : n_frames * h.bytes_per_samp * h.channels
      = n_frames * (h.bytes_per_samp * h.channels) := Nat.mul_assoc _ _ _
  have hle : h.bytes_per_samp * h.channels ≤ n_frames * (h.bytes_per_samp * h.channels) :=
    Nat.le_mul_of_pos_left _ (Nat.pos_of_ne_zero hn)
  have hfsz : u64 (h.bytes_per_samp * h.channels) = h.bytes_per_samp * h.channels := by
    unfold u64
    exact Nat.mod_eq_of_lt (by omega)
  have hbytes : u64 (n_frames * (h.bytes_per_samp * h.channels))
      = n_frames * (h.bytes_per_samp * h.channels) := by
    unfold u64
    exact Nat.mod_eq_of_lt (by omega)
  have hgt : n_frames * (h.bytes_per_samp * h.channels) > h.capacity := by omega
  simp only [ring_push_f32, if_neg hn, hfsz, hbytes, if_pos hgt]

/-- Witness for C26: five mono frames (20 bytes) pushed to a ring of 16 bytes. -/
theorem C26_oversized_burst_refused_witness :
    small_audio_ring.capacity < 5 * small_audio_ring.bytes_per_samp * small_audio_ring.channels ∧
    5 * small_audio_ring.bytes_per_samp * small_audio_ring.channels < 2 ^ 64 ∧
    ring_push_f32 (some small_audio_ring) (some (List.replicate 20 7)) 5
      = some (some small_audio_ring) :=
  ⟨by decide, by decide,
   C26_oversized_burst_refused small_audio_ring (List.replicate 20 7) 5 (by decide) (by decide)⟩
/-! ## Timeouts of the receive functions -/

theorem serve_clients_idle (env : Env) (isset : Int → Bool) (sock : Int → Sock) :
    ∀ (todo : List Int) (s : Loop), (∀ fd ∈ todo, isset fd = false) →
      serve_clients env isset sock todo s = some { s with fds := s.fds ++ todo }
  | [], s, _ => by simp [serve_clients]
  | fd :: todo, s, h => by
    have h1 : isset fd = false := h fd (List.mem_cons_self _ _)
    have ih := serve_clients_idle env isset sock todo { s with fds := s.fds ++ [fd] }
      (fun x hx => h x (List.mem_cons_of_mem _ hx))
    simp only [serve_clients, h1, Bool.false_eq_true, if_false, ih, List.append_assoc,
      List.singleton_append]

theorem loop_iter_accept (env : Env) (cfd : Int) (s : Loop) (hrun : s.st.run = true)
    (hc : 0 ≤ cfd) (hn : s.fds.length < 1024) :
    loop_iter env (accept_ev cfd) s = some ({ s with fds := s.fds ++ [cfd] }, true) := by
  have hidle := serve_clients_idle env
    (fun fd => decide (fd ∈ s.fds) && (accept_ev cfd).ready fd) (accept_ev cfd).sock
    (s.fds ++ [cfd]) { s with fds := [] } (by intro fd _; simp [accept_ev])
  unfold loop_iter
  simp only [hrun, Bool.not_true, Bool.false_eq_true, if_false]
  rw [if_neg (by simp [accept_ev])]
  rw [if_pos (by simp [accept_ev, hc])]
  rw [if_pos hn]
  have e : (accept_ev cfd).accept = cfd := rfl
  rw [e, hidle]
  simp

theorem loop_iter_accept_full (env : Env) (cfd : Int) (s : Loop) (hrun : s.st.run = true)
    (hc : 0 ≤ cfd) (hn : s.fds.length = 1024) :
    loop_iter env (accept_ev cfd) s = none := by
  unfold loop_iter
  simp only [hrun, Bool.not_true, Bool.false_eq_true, if_false]
  rw [if_neg (by simp [accept_ev])]
  rw [if_pos (by simp [accept_ev, hc])]
  rw [if_neg (by omega)]

theorem run_loop_step (env : Env) (ev : IterEv) (rest : List IterEv) (s s1 : Loop)
    (h : loop_iter env ev s = some (s1, true)) :
    run_loop env (ev :: rest) s = run_loop env rest s1 := by
  simp only [run_loop, h]

theorem run_loop_fault (env : Env) (ev : IterEv) (rest : List IterEv) (s : Loop)
    (h : loop_iter env ev s = none) : run_loop env (ev :: rest) s = none := by
  simp only [run_loop, h]

theorem run_loop_accepts (env : Env) : ∀ (n a : Nat) (s : Loop), s.st.run = true →
    s.fds.length + n ≤ 1024 →
    run_loop env ((List.range' a n).map (fun (i : Nat) => accept_ev ((i : Int) + 4))) s
      = some { s with fds := s.fds ++ (List.range' a n).map (fun (i : Nat) => (i : Int) + 4) }
  | 0, a, s, _, _ => by simp [run_loop]
  | n + 1, a, s, hrun, hlen => by
    have h1 := loop_iter_accept env ((a : Int) + 4) s hrun (by omega) (by omega)
    have ih := run_loop_accepts env n (a + 1) { s with fds := s.fds ++ [(a : Int) + 4] } hrun
      (by simp only [List.length_append, List.length_singleton]; omega)
    have e : List.range' a (n + 1) = a :: List.range' (a + 1) n := List.range'_succ _ _ _
    rw [e, List.map_cons, run_loop_step env _ _ s _ h1, ih, List.map_cons, List.append_assoc,
      List.singleton_append]

theorem run_loop_accepts_overflow (env : Env) : ∀ (n a : Nat) (s : Loop), s.st.run = true →
    s.fds.length + n = 1024 →
    run_loop env ((List.range' a (n + 1)).map (fun (i : Nat) => accept_ev ((i : Int) + 4))) s
      = none
  | 0, a, s, hrun, hlen => by
    have h1 := loop_iter_accept_full env ((a : Int) + 4) s hrun (by omega) (by omega)
    have e : List.range' a (0 + 1) = [a] := rfl
    rw [e, List.map_cons, run_loop_fault env _ _ s h1]
  | n + 1, a, s, hrun, hlen => by
    have h1 := loop_iter_accept env ((a : Int) + 4) s hrun (by omega) (by omega)
    have ih := run_loop_accepts_overflow env n (a + 1) { s with fds := s.fds ++ [(a : Int) + 4] }
      hrun (by simp only [List.length_append, List.length_singleton]; omega)
    have e : List.range' a (n + 1 + 1) = a :: List.range' (a + 1) (n + 1) :=
      List.range'_succ _ _ _
    rw [e, List.map_cons, run_loop_step env _ _ s _ h1, ih]

/-- Claim C30, failing input: from the state in which `main` enters the loop, 1025 clients
connect in 1025 successive turns and none disconnects.  After 1024 turns `nfds` is 1024,
and in the next turn `fds[nfds++] = cfd` stores at index 1024, outside `int fds[1024]`. -/
theorem C30_store_past_the_array :
    (run_loop demo_env (accept_evs 1024) initial_loop).map (fun s => s.fds.length) = some 1024 ∧
    run_loop demo_env (accept_evs 1025) initial_loop = none := by
  constructor
  · unfold accept_evs
    rw [List.range_eq_range', run_loop_accepts demo_env 1024 0 initial_loop rfl (by decide)]
    simp [initial_loop]
  · unfold accept_evs
    rw [List.range_eq_range']
    exact run_loop_accepts_overflow demo_env 1024 0 initial_loop rfl (by decide)

theorem b64_rev_B64 : ∀ k : Fin 64, b64_rev (B64.getD k.val 0) = (k.val : Int) := by decide

theorem b64_rev_B64_nat (k : Nat) (h : k < 64) : b64_rev (B64.getD k 0) = (k : Int) :=
  b64_rev_B64 ⟨k, h⟩

theorem and_63 (x : Nat) : x &&& 63 = x % 64 := Nat.and_pow_two_sub_one_eq_mod x 6

theorem and_255 (x : Nat) : x &&& 255 = x % 256 := Nat.and_pow_two_sub_one_eq_mod x 8

theorem shl6_or (v q : Nat) (hq : q < 64) : v <<< 6 ||| q = v * 64 + q := by
  rw [Nat.shiftLeft_eq, Nat.mul_comm v, ← Nat.mul_add_lt_is_or (show q < 2 ^ 6 from hq)]

theorem word3 (a b c : Nat) (hb : b < 256) (hc : c < 256) :
    a <<< 16 ||| b <<< 8 ||| c = a * 65536 + b * 256 + c := by
  have h1 : a <<< 16 ||| b <<< 8 = a * 65536 + b * 256 := by
    rw [Nat.shiftLeft_eq, Nat.shiftLeft_eq]
    have := Nat.mul_add_lt_is_or (show b * 2 ^ 8 < 2 ^ 16 by omega) a
    rw [Nat.mul_comm a, ← this]
    omega
  rw [h1]
  have h2 : a * 65536 + b * 256 = 2 ^ 8 * (a * 256 + b) := by omega
  rw [h2, ← Nat.mul_add_lt_is_or (show c < 2 ^ 8 from hc)]

theorem word2 (a b : Nat) (hb : b < 256) : a <<< 16 ||| b <<< 8 = a * 65536 + b * 256 := by
  have := word3 a b 0 hb (by decide)
  simpa using this

theorem quad_fold (s0 s1 s2 s3 : Nat) (h0 : s0 < 64) (h1 : s1 < 64) (h2 : s2 < 64)
    (h3 : s3 < 64) :
    [s0, s1, s2, s3].foldl (fun v q => u32 (v <<< 6 ||| q)) 0
      = ((s0 * 64 + s1) * 64 + s2) * 64 + s3 := by
  simp only [List.foldl]
  rw [shl6_or 0 s0 h0]
  have e0 : u32 (0 * 64 + s0) = s0 := by unfold u32; omega
  rw [e0, shl6_or s0 s1 h1]
  have e1 : u32 (s0 * 64 + s1) = s0 * 64 + s1 := by unfold u32; omega
  rw [e1, shl6_or _ s2 h2]
  have e2 : u32 ((s0 * 64 + s1) * 64 + s2) = (s0 * 64 + s1) * 64 + s2 := by unfold u32; omega
  rw [e2, shl6_or _ s3 h3]
  unfold u32; omega

theorem byte_of_val (n : Nat) (a : Byte) (h : n = a.val) : (Fin.ofNat n : Byte) = a := by
  apply Fin.ext
  have ha := a.isLt
  simp only [Fin.ofNat, h]
  omega

theorem cast_ne_pad (s : Nat) : ((s : Int) == -2) = false := by
  simp only [beq_eq_false_iff_ne, ne_eq]
  omega

theorem cast_ne_pad2 (s : Nat) : ¬ ((s : Int) = -2) := by omega

theorem quad_bytes_full (s0 s1 s2 s3 : Nat) (h0 : s0 < 64) (h1 : s1 < 64) (h2 : s2 < 64)
    (h3 : s3 < 64) :
    b64_quad_bytes [(s0 : Int), (s1 : Int), (s2 : Int), (s3 : Int)]
      = [(Fin.ofNat ((((s0 * 64 + s1) * 64 + s2) * 64 + s3) / 65536 % 256) : Byte),
         (Fin.ofNat ((((s0 * 64 + s1) * 64 + s2) * 64 + s3) / 256 % 256) : Byte),
         (Fin.ofNat ((((s0 * 64 + s1) * 64 + s2) * 64 + s3) % 256) : Byte)] := by
  have hf := quad_fold s0 s1 s2 s3 h0 h1 h2 h3
  simp only [List.foldl] at hf
  unfold b64_quad_bytes
  simp only [List.filter, cast_ne_pad, List.foldl, cast_ne_pad2, if_false, Int.toNat_ofNat, hf,
    List.length_nil, and_255, Nat.shiftRight_eq_div_pow]
  rfl

theorem quad_bytes_pad1 (s0 s1 s2 : Nat) (h0 : s0 < 64) (h1 : s1 < 64) (h2 : s2 < 64) :
    b64_quad_bytes [(s0 : Int), (s1 : Int), (s2 : Int), -2]
      = [(Fin.ofNat ((((s0 * 64 + s1) * 64 + s2) * 64 + 0) / 65536 % 256) : Byte),
         (Fin.ofNat ((((s0 * 64 + s1) * 64 + s2) * 64 + 0) / 256 % 256) : Byte)] := by
  have hf := quad_fold s0 s1 s2 0 h0 h1 h2 (by decide)
  simp only [List.foldl] at hf
  unfold b64_quad_bytes
  simp only [List.filter, cast_ne_pad, List.foldl, cast_ne_pad2, if_false, if_true,
    Int.toNat_ofNat, hf, and_255, Nat.shiftRight_eq_div_pow, beq_self_eq_true]
  rfl

theorem quad_bytes_pad2 (s0 s1 : Nat) (h0 : s0 < 64) (h1 : s1 < 64) :
    b64_quad_bytes [(s0 : Int), (s1 : Int), -2, -2]
      = [(Fin.ofNat ((((s0 * 64 + s1) * 64 + 0) * 64 + 0) / 65536 % 256) : Byte)] := by
  have hf := quad_fold s0 s1 0 0 h0 h1 (by decide) (by decide)
  simp only [List.foldl] at hf
  unfold b64_quad_bytes
  simp only [List.filter, cast_ne_pad, List.foldl, cast_ne_pad2, if_false, if_true,
    Int.toNat_ofNat, hf, and_255, Nat.shiftRight_eq_div_pow, beq_self_eq_true]
  rfl

theorem decode_four (c0 c1 c2 c3 : Byte) (rest out : List Byte) (q0 q1 q2 q3 : Int)
    (h0 : b64_rev c0 = q0) (h1 : b64_rev c1 = q1) (h2 : b64_rev c2 = q2)
    (h3 : b64_rev c3 = q3) (n0 : q0 ≠ -1) (n1 : q1 ≠ -1) (n2 : q2 ≠ -1) (n3 : q3 ≠ -1) :
    b64_decode_loop (c0 :: c1 :: c2 :: c3 :: rest) [] out
      = b64_decode_loop rest [] (out ++ b64_quad_bytes [q0, q1, q2, q3]) := by
  simp only [b64_decode_loop, h0, h1, h2, h3, n0, n1, n2, n3, if_false, List.nil_append,
    List.cons_append, List.length_cons, List.length_nil, if_true,
    (by decide : ¬ (0 + 1 = 4)), (by decide : ¬ (0 + 1 + 1 = 4)),
    (by decide : ¬ (0 + 1 + 1 + 1 = 4)), (by decide : 0 + 1 + 1 + 1 + 1 = 4)]

theorem rev_sextet (n : Nat) :
    b64_rev (B64.getD (n % 64) 0) = ((n % 64 : Nat) : Int) ∧
    (((n % 64 : Nat) : Int)) ≠ -1 :=
  ⟨b64_rev_B64_nat _ (Nat.mod_lt _ (by decide)), by omega⟩

theorem rev_pad : b64_rev 61 = -2 ∧ (-2 : Int) ≠ -1 := by decide

theorem b64_decode_encode : ∀ (x out : List Byte),
    b64_decode_loop (b64_encode_loop x) [] out = out ++ x
  | [], out => by simp [b64_encode_loop, b64_decode_loop]
  | [a], out => by
    have ha := a.isLt
    simp only [b64_encode_loop, and_63, Nat.shiftRight_eq_div_pow, Nat.shiftLeft_eq]
    rw [decode_four _ _ _ _ [] out _ _ _ _ (rev_sextet _).1 (rev_sextet _).1 rev_pad.1 rev_pad.1
      (rev_sextet _).2 (rev_sextet _).2 rev_pad.2 rev_pad.2,
      quad_bytes_pad2 _ _ (Nat.mod_lt _ (by decide)) (Nat.mod_lt _ (by decide))]
    simp only [b64_decode_loop]
    congr 2
    exact byte_of_val _ a (by omega)
  | [a, b], out => by
    have ha := a.isLt
    have hb := b.isLt
    simp only [b64_encode_loop, word2 a.val b.val hb, and_63, Nat.shiftRight_eq_div_pow]
    rw [decode_four _ _ _ _ [] out _ _ _ _ (rev_sextet _).1 (rev_sextet _).1 (rev_sextet _).1
      rev_pad.1 (rev_sextet _).2 (rev_sextet _).2 (rev_sextet _).2 rev_pad.2,
      quad_bytes_pad1 _ _ _ (Nat.mod_lt _ (by decide)) (Nat.mod_lt _ (by decide))
        (Nat.mod_lt _ (by decide))]
    simp only [b64_decode_loop]
    congr 2
    · exact byte_of_val _ a (by omega)
    · congr 1
      exact byte_of_val _ b (by omega)
  | a :: b :: c :: rest, out => by
    have ha := a.isLt
    have hb := b.isLt
    have hc := c.isLt
    have ih := b64_decode_encode rest (out ++ [a, b, c])
    simp only [b64_encode_loop, word3 a.val b.val c.val hb hc, and_63,
      Nat.shiftRight_eq_div_pow, List.cons_append, List.nil_append]
    rw [decode_four _ _ _ _ _ out _ _ _ _ (rev_sextet _).1 (rev_sextet _).1 (rev_sextet _).1
      (rev_sextet _).1 (rev_sextet _).2 (rev_sextet _).2 (rev_sextet _).2 (rev_sextet _).2,
      quad_bytes_full _ _ _ _ (Nat.mod_lt _ (by decide)) (Nat.mod_lt _ (by decide))
        (Nat.mod_lt _ (by decide)) (Nat.mod_lt _ (by decide))]
    have e1 := byte_of_val
      (((((a.val * 65536 + b.val * 256 + c.val) / 2 ^ 18 % 64 * 64 +
          (a.val * 65536 + b.val * 256 + c.val) / 2 ^ 12 % 64) * 64 +
          (a.val * 65536 + b.val * 256 + c.val) / 2 ^ 6 % 64) * 64 +
          (a.val * 65536 + b.val * 256 + c.val) % 64) / 65536 % 256) a (by omega)
    have e2 := byte_of_val
      (((((a.val * 65536 + b.val * 256 + c.val) / 2 ^ 18 % 64 * 64 +
          (a.val * 65536 + b.val * 256 + c.val) / 2 ^ 12 % 64) * 64 +
          (a.val * 65536 + b.val * 256 + c.val) / 2 ^ 6 % 64) * 64 +
          (a.val * 65536 + b.val * 256 + c.val) % 64) / 256 % 256) b (by omega)
    have e3 := byte_of_val
      (((((a.val * 65536 + b.val * 256 + c.val) / 2 ^ 18 % 64 * 64 +
          (a.val * 65536 + b.val * 256 + c.val) / 2 ^ 12 % 64) * 64 +
          (a.val * 65536 + b.val * 256 + c.val) / 2 ^ 6 % 64) * 64 +
          (a.val * 65536 + b.val * 256 + c.val) % 64) % 256) c (by omega)
    rw [e1, e2, e3, ih]
    simp

theorem b64_encode_loop_length : ∀ (x : List Byte),
    (b64_encode_loop x).length = 4 * ((x.length + 2) / 3)
  | [] => rfl
  | [_] => by simp [b64_encode_loop]
  | [_, _] => by simp [b64_encode_loop]
  | _ :: _ :: _ :: rest => by
    have ih := b64_encode_loop_length rest
    simp only [b64_encode_loop, List.length_append, List.length_cons, List.length_nil, ih]
    omega

theorem b64_encoded_len_eq (n : Nat) (h : n < 2 ^ 62) :
    b64_encoded_len n = 4 * ((n + 2) / 3) := by
  unfold b64_encoded_len u64
  omega

/-- Claim C29: for every byte string x (short enough for the encoded length to be a
`size_t`: fewer than 2^62 bytes), `b64_encode` returns 0, stores
`b64_encoded_len(|x|) = 4 * ceil(|x| / 3)` characters and reports that length, and
`b64_decode` applied to these characters returns 0 and yields exactly x, with `*outlen`
equal to |x|. -/
theorem C29_base64_round_trip (x : List Byte) (hx : x.length < 2 ^ 62) :
    ∃ enc : List Byte,
      b64_encode x x.length = some (0, enc, b64_encoded_len x.length) ∧
      enc.length = b64_encoded_len x.length ∧
      b64_encoded_len x.length = 4 * ((x.length + 2) / 3) ∧
      b64_decode enc (b64_encoded_len x.length) = some (0, x, x.length) := by
  have hl := b64_encoded_len_eq x.length hx
  have hel := b64_encode_loop_length x
  refine ⟨b64_encode_loop x, ?_, by rw [hl, hel], hl, ?_⟩
  · unfold b64_encode
    rw [if_pos (Nat.le_refl _), List.take_length]
  · unfold b64_decode
    rw [if_pos (by rw [hl, hel]), List.take_of_length_le (by rw [hl, hel]),
      b64_decode_encode x []]
    rfl

/-- Witness for C29: the five bytes of hello. -/
theorem C29_base64_round_trip_witness :
    (cstr "hello").length < 2 ^ 62 ∧
    ∃ enc : List Byte,
      b64_encode (cstr "hello") (cstr "hello").length
        = some (0, enc, b64_encoded_len (cstr "hello").length) ∧
      enc.length = b64_encoded_len (cstr "hello").length ∧
      b64_encoded_len (cstr "hello").length = 4 * (((cstr "hello").length + 2) / 3) ∧
      b64_decode enc (b64_encoded_len (cstr "hello").length)
        = some (0, cstr "hello", (cstr "hello").length) :=
  ⟨by decide, C29_base64_round_trip (cstr "hello") (by decide)⟩

/-! ## The IQ ring with producer and consumer interleaved -/

/-- The two parts of the consumer run back to back are `demod_from_iq_ring`. -/
theorem demod_load_then_store (active : Bool) (h : phiq_hdr_t) :
    demod_from_iq_ring active h
      = (demod_load active h).map (fun p =>
          match p with
          | none => (h, [])
          | some (new_r, tmp) => (demod_store h new_r, tmp)) := by
  cases active
  · rfl
  · unfold demod_from_iq_ring demod_load demod_store
    simp only [Bool.not_true, Bool.false_eq_true, if_false]
    by_cases h1 : (h.capacity = 0 || h.bytes_per_samp = 0) = true
    · rw [if_pos h1, if_pos h1]; rfl
    · rw [if_neg h1, if_neg h1]
      generalize (if h.wpos > h.rpos then h.wpos - h.rpos else 0) = avail
      by_cases h2 : avail < h.bytes_per_samp
      · rw [if_pos h2, if_pos h2]; rfl
      · rw [if_neg h2, if_neg h2]
        generalize (if avail > 2 ^ 18 then 2 ^ 18 else avail)
          - (if avail > 2 ^ 18 then 2 ^ 18 else avail) % h.bytes_per_samp = bytes
        by_cases h3 : bytes = 0
        · rw [if_pos h3, if_pos h3]; rfl
        · rw [if_neg h3, if_neg h3]
          generalize (if h.rpos % h.capacity + bytes > h.capacity
            then h.capacity - h.rpos % h.capacity else bytes) = first
          cases read_at h.data (h.rpos % h.capacity) first with
          | none => rfl
          | some t1 =>
            dsimp only
            cases (if first < bytes then read_at h.data 0 (bytes - first) else some []) with
            | none => rfl
            | some t2 => rfl

/-- Claim C27, failing interleaving: on a fresh ring of capacity 8 with 4-byte frames the
producer writes 4 bytes; the consumer loads `rpos = 0` and `wpos = 4` and copies the
block; the producer writes 8 bytes and then 4, each time advancing `rpos` on overflow, so
that `rpos = 8` and `wpos = 16`.  The consumer then stores `r + bytes = 4`: `rpos` has
gone from 8 back to 4, and `wpos - rpos` is 12, more than the capacity. -/
theorem C27_stale_store_moves_rpos_back :
    (ring_run ⟨fresh_iq_ring 8 4, none⟩ overtaken).map
        (fun s => (s.hdr.rpos, s.hdr.wpos, s.pending)) = some (8, 16, some 4) ∧
    (ring_run ⟨fresh_iq_ring 8 4, none⟩ (overtaken ++ [.store])).map
        (fun s => (s.hdr.rpos, s.hdr.wpos, s.hdr.capacity, s.pending))
      = some (4, 16, 8, none) ∧
    (ring_run ⟨fresh_iq_ring 8 4, none⟩ (overtaken ++ [.store])).map
        (fun s => sub64 s.hdr.wpos s.hdr.rpos) = some 12 := by
  decide

end PhaseHound
